import Mathlib

/-!
# cyber_tools: record / play / bridge

A shallow embedding of the parts of `mcap_recorder` (recorder, player, command
line) and `cyber_bridge` (live bridge) that the specification speaks about,
followed by the theorems that settle the specification's claims on them.

Conventions of the embedding

* `std::set<std::string>` is a `List String`; the code only ever inserts into
  these sets, asks whether they are empty and looks a member up.
* `uint64_t` values are `Nat`; subtraction and addition wrap modulo `2^64`
  (`u64sub`, `u64add`).
* The wall clock, the keyboard thread and the stop flag are explicit inputs
  of the reader loop of the player.
* What lives in external libraries (the MCAP writer, the bus's type factory,
  floating point scaling by the speed factor) is a parameter.
-/

namespace CyberTools

/-! ## Machine integers -/

/-- Number of values of a `uint64_t`. -/
def U64 : Nat := 2 ^ 64

/-- Number of values of a `uint32_t`. -/
def U32 : Nat := 2 ^ 32

/-- Subtraction `a - b` on `uint64_t`. -/
def u64sub (a b : Nat) : Nat := (a % U64 + (U64 - b % U64)) % U64

/-- Addition `a + b` on `uint64_t`. -/
def u64add (a b : Nat) : Nat := (a + b) % U64

/-! ## Topic filters (`mcap_recorder.h`, `mcap_player.h`, `main.cpp`) -/

/-- Insertion `std::set<std::string>::insert`. -/
def setInsert (s : List String) (x : String) : List String :=
  if s.contains x then s else s ++ [x]

/-- The loop `for (const auto& channel : values) set.insert(channel);`. -/
def setInsertAll (s : List String) (values : List String) : List String :=
  values.foldl setInsert s

/-- Structure `struct RecordingConfig`. -/
structure RecordingConfig where
  output_file : String := ""
  white_channels : List String := []
  black_channels : List String := []
  record_all : Bool := false
  discovery_interval_ms : Int := 2000
  segment_interval_seconds : Nat := 0
  start_time_ns : Nat := 0
deriving Repr, DecidableEq

/-- Structure `struct PlaybackConfig`; the two `double` fields are kept outside of it:
`start_offset` as the nanosecond count the reader loop derives from it and
`speed_factor` as the scaling function it induces (see `Timing`). -/
structure PlaybackConfig where
  input_file : String := ""
  white_channels : List String := []
  black_channels : List String := []
  play_all : Bool := false
  loop : Bool := false
  start_time_ns : Nat := 0
deriving Repr, DecidableEq

/-- Function `McapRecorder::shouldRecordChannel`. -/
def McapRecorder.shouldRecordChannel (config_ : RecordingConfig) (topic : String) : Bool :=
  if config_.black_channels.contains topic then false
  else if !config_.white_channels.isEmpty then config_.white_channels.contains topic
  else config_.record_all

/-- Function `McapPlayer::shouldPlayChannel`. -/
def McapPlayer.shouldPlayChannel (config_ : PlaybackConfig) (topic : String) : Bool :=
  if config_.black_channels.contains topic then false
  else if !config_.white_channels.isEmpty then config_.white_channels.contains topic
  else config_.play_all

/-- What `main` asks the argument parser for when it builds a configuration:
`has("white-channel")`, `getAll("white-channel")`, `has("black-channel")`,
`getAll("black-channel")` (and, for `play`, `has("loop")`). -/
structure FilterArgs where
  hasWhite : Bool
  whiteValues : List String
  hasBlack : Bool
  blackValues : List String
  hasLoop : Bool := false
deriving Repr, DecidableEq

/-- Function `main`, command `play`: construction of the `PlaybackConfig`
(`main.cpp` lines 215-240). -/
def playConfigOfArgs (a : FilterArgs) : PlaybackConfig :=
  let config : PlaybackConfig := { play_all := true, loop := a.hasLoop }
  let config :=
    if a.hasWhite then
      let config := { config with
        white_channels := setInsertAll config.white_channels a.whiteValues }
      if !config.white_channels.isEmpty then { config with play_all := false } else config
    else config
  if a.hasBlack then
    { config with black_channels := setInsertAll config.black_channels a.blackValues }
  else config

/-- Function `main`, command `record`: construction of the `RecordingConfig`
(`main.cpp` lines 141-166); `output`, `discovery-interval` and
`segment-interval` are passed as the parser returned them. -/
def recordConfigOfArgs (output : String) (discovery : Int) (segment : Nat)
    (a : FilterArgs) : RecordingConfig :=
  let config : RecordingConfig :=
    { output_file := output, record_all := true,
      discovery_interval_ms := discovery, segment_interval_seconds := segment }
  let config :=
    if a.hasWhite then
      let config := { config with
        white_channels := setInsertAll config.white_channels a.whiteValues }
      if !config.white_channels.isEmpty then { config with record_all := false } else config
    else config
  if a.hasBlack then
    { config with black_channels := setInsertAll config.black_channels a.blackValues }
  else config

/-! ## Player (`mcap_player.cpp`) -/

/-- A schema record of a log file, as `McapPlayer::initialize` reads it. -/
structure Schema where
  name : String
  encoding : String
  data : String
deriving Repr, DecidableEq

/-- A channel record of a log file. -/
structure Channel where
  topic : String
  schemaId : Nat
deriving Repr, DecidableEq

/-- The bus's protobuf factory and the descriptor conversion, as far as
`McapPlayer::initialize` uses them; `F` is the state of the factory. -/
structure FactoryOps (F : Type) where
  FindMessageTypeByName : F → String → Bool
  RegisterMessage : F → String → F × Bool
  FdSetStringToCyberProtoDescString : String → String

/-- Lines 229-243 of `McapPlayer::initialize`: a schema whose type the factory
does not know is converted and registered; returns the factory and whether
the round may go on to create the writer. -/
def McapPlayer.ensureRegistered {F : Type} (ops : FactoryOps F) (factory : F)
    (schema : Schema) : F × Bool :=
  if !ops.FindMessageTypeByName factory schema.name then
    let proto_desc_str := ops.FdSetStringToCyberProtoDescString schema.data
    if proto_desc_str.isEmpty then (factory, false)
    else ops.RegisterMessage factory proto_desc_str
  else (factory, true)

/-- One round of the channel loop of `McapPlayer::initialize`: the state is
the factory and the topics that have a writer (`writers_`). -/
def McapPlayer.initializeChannel {F : Type} (ops : FactoryOps F) (config_ : PlaybackConfig)
    (schemas : Nat → Option Schema) (hasNode : Bool)
    (st : F × List String) (channel : Channel) : F × List String :=
  if !McapPlayer.shouldPlayChannel config_ channel.topic then st
  else
    match schemas channel.schemaId with
    | none => st
    | some schema =>
      if schema.encoding != "protobuf" then st
      else
        let reg := McapPlayer.ensureRegistered ops st.1 schema
        if !reg.2 then (reg.1, st.2)
        else if hasNode then (reg.1, setInsert st.2 channel.topic)
        else (reg.1, st.2)

/-- The channel loop of `McapPlayer::initialize`, started with no writer. -/
def McapPlayer.initializeWriters {F : Type} (ops : FactoryOps F) (config_ : PlaybackConfig)
    (schemas : Nat → Option Schema) (hasNode : Bool) (factory : F)
    (channels : List Channel) : F × List String :=
  channels.foldl (McapPlayer.initializeChannel ops config_ schemas hasNode) (factory, [])

/-- A message of the log as the reader iterates it (`mcap::MessageView`):
`data` holds the payload bytes, `dataSize` is its length. -/
structure LogMessage where
  topic : String
  logTime : Nat
  publishTime : Nat
  data : List Nat
deriving Repr, DecidableEq

/-- Class `cyber::message::RawMessage`. -/
structure RawMessage where
  message : List Nat
  timestamp : Nat
deriving Repr, DecidableEq

/-- One call of `McapPlayer::publishMessage`: the topic and message written,
the reading of the wall clock at the call, the value of
`current_playback_log_time_ns_` at the call and the `target_playback_time`
that was computed for the message. -/
structure Publication where
  topic : String
  msg : RawMessage
  wallTime : Nat
  logTime : Nat
  target : Nat
deriving Repr, DecidableEq

/-- The log message a publication carries: its topic, the log time noted for
it, the time stamp and the bytes of the published message. -/
def Publication.content (p : Publication) : LogMessage :=
  { topic := p.topic, logTime := p.logTime, publishTime := p.msg.timestamp,
    data := p.msg.message }

/-- The two numbers the reader loop derives from the `double` fields of the
configuration: `start_offset_ns = static_cast<uint64_t>(start_offset * 1e9)`
and `scale x = static_cast<uint64_t>(x / speed_factor)`. -/
structure Timing where
  start_offset_ns : Nat
  scale : Nat → Nat

/-- The atomics `paused_` and `step_once_`. -/
structure Controls where
  paused : Bool := false
  step_once : Bool := false
deriving Repr, DecidableEq

/-- One character handled by `McapPlayer::keyboardListenerLoop`. -/
def McapPlayer.handleKey (c : Controls) (ch : Char) : Controls :=
  if ch = ' ' then
    if c.paused then { c with paused := false } else { c with paused := true }
  else if ch = 's' ∨ ch = 'S' then
    { paused := true, step_once := true }
  else c

/-- What the other threads and the clock do during one round of the reader
loop: `elapsed` nanoseconds pass before the round begins; `stop` is the value
of `!running_ || stopped_` at the head of the round; `keysBefore` are the keys
handled before the pause loop is entered, `keysPause` the keys handled during
each 100 ms sleep of the pause loop, `keysWait` the keys handled between the
end of the pause loop and the end of the round. When `keysPause` is used up
while the player is still paused and no step is pending, a stop is requested
during the pause: the pause loop ends and the stop is noted. -/
structure Env where
  elapsed : Nat := 0
  stop : Bool := false
  keysBefore : List Char := []
  keysPause : List (List Char) := []
  keysWait : List Char := []
deriving Repr, DecidableEq

/-- The local variables of `McapPlayer::readerLoop`, the wall clock, the
atomics and the trace of publications. -/
structure ReaderState where
  now : Nat
  first_message_time : Nat := 0
  playback_start_time : Nat
  offset_applied : Bool := false
  controls : Controls := {}
  published : List Publication := []
  total_messages : Nat := 0
  total_bytes : Nat := 0
  current_playback_log_time_ns : Nat := 0
  stopped : Bool := false
deriving Repr, DecidableEq

/-- Nanoseconds in `milliseconds(100)`. -/
def pauseSleepNs : Nat := 100000000

/-- What the pause loop leaves behind: the atomics, the clock,
`playback_start_time`, `stepped_once` and whether a stop request ended it. -/
structure PauseResult where
  controls : Controls
  now : Nat
  playback_start_time : Nat
  stepped_once : Bool
  stopped : Bool
deriving Repr, DecidableEq

/-- The pause loop of `McapPlayer::readerLoop` (lines 311-320). -/
def McapPlayer.pauseLoop (c : Controls) (now start : Nat) :
    List (List Char) → PauseResult
  | [] =>
    if !c.paused then ⟨c, now, start, false, false⟩
    else if c.step_once then ⟨{ c with step_once := false }, now, start, true, false⟩
    else ⟨c, now, start, false, true⟩
  | ks :: rest =>
    if !c.paused then ⟨c, now, start, false, false⟩
    else if c.step_once then ⟨{ c with step_once := false }, now, start, true, false⟩
    else
      McapPlayer.pauseLoop (ks.foldl McapPlayer.handleKey c) (now + pauseSleepNs)
        (u64add start pauseSleepNs) rest

/-- Lines 297-303 of `McapPlayer::readerLoop`: the first message that is not
skipped by a positive start offset resets `playback_start_time` to the clock. -/
def McapPlayer.applyOffset (t : Timing) (st : ReaderState) : ReaderState :=
  if !st.offset_applied ∧ 0 < t.start_offset_ns then
    { st with playback_start_time := st.now, offset_applied := true }
  else st

/-- Lines 305-308 of `McapPlayer::readerLoop`: `target_playback_time`. -/
def McapPlayer.targetPlaybackTime (t : Timing) (playback_start_time : Nat)
    (message_relative_time : Nat) : Nat :=
  let adjusted_relative_time := u64sub message_relative_time t.start_offset_ns
  u64add playback_start_time (t.scale adjusted_relative_time)

/-- Lines 305-347 of `McapPlayer::readerLoop`: target time, pause loop, wait
until the target time, publication, statistics, pause again after a step. -/
def McapPlayer.publishRound (t : Timing) (st : ReaderState) (message : LogMessage)
    (message_relative_time : Nat) (e : Env) : ReaderState :=
  let target_playback_time :=
    McapPlayer.targetPlaybackTime t st.playback_start_time message_relative_time
  let p := McapPlayer.pauseLoop (e.keysBefore.foldl McapPlayer.handleKey st.controls)
    st.now st.playback_start_time e.keysPause
  let stepped_once := p.stepped_once
  let current_time := p.now
  let now := if target_playback_time > current_time then target_playback_time else current_time
  let raw_msg : RawMessage := { message := message.data, timestamp := message.publishTime }
  let controls := e.keysWait.foldl McapPlayer.handleKey p.controls
  { st with
    now := now
    playback_start_time := p.playback_start_time
    current_playback_log_time_ns := message.logTime
    stopped := p.stopped
    published := st.published ++
      [{ topic := message.topic, msg := raw_msg, wallTime := now,
         logTime := message.logTime, target := target_playback_time }]
    total_messages := st.total_messages + 1
    total_bytes := st.total_bytes + message.data.length
    controls := if stepped_once then { controls with paused := true } else controls }

/-- Lines 284-287 of `McapPlayer::readerLoop`: `first_message_time` is taken
from the message when it still holds 0. -/
def McapPlayer.captureFirst (st : ReaderState) (message : LogMessage) : ReaderState :=
  if st.first_message_time = 0 then { st with first_message_time := message.logTime } else st

/-- The body of one round of the `for` loop of `McapPlayer::readerLoop`, after
the check of `running_` and `stopped_` (lines 278-347). -/
def McapPlayer.readerBody (writers_ : List String) (t : Timing) (st : ReaderState)
    (message : LogMessage) (e : Env) : ReaderState :=
  if !writers_.contains message.topic then st
  else
    let st := McapPlayer.captureFirst st message
    let message_relative_time := u64sub message.logTime st.first_message_time
    if 0 < t.start_offset_ns ∧ message_relative_time < t.start_offset_ns then st
    else
      McapPlayer.publishRound t (McapPlayer.applyOffset t st) message message_relative_time e

/-- The wall clock moves on by `d` nanoseconds. -/
def ReaderState.advance (st : ReaderState) (d : Nat) : ReaderState :=
  { st with now := st.now + d }

/-- The `for` loop of `McapPlayer::readerLoop` from a given state; a round
begins with the check of `running_` and `stopped_`, which ends the loop when
the pause loop of the round before saw a stop request (`stopped`) or when a
stop request has come in since (`e.stop`). -/
def McapPlayer.readerLoopFrom (writers_ : List String) (t : Timing) :
    ReaderState → List (LogMessage × Env) → ReaderState
  | st, [] => st
  | st, (message, e) :: rest =>
    if st.stopped then st
    else
    let st := st.advance e.elapsed
    if e.stop then { st with stopped := true }
    else McapPlayer.readerLoopFrom writers_ t (McapPlayer.readerBody writers_ t st message e) rest

/-- Function `McapPlayer::readerLoop` up to the end of its `for` loop: the clock reads
`now` when the loop is entered and the atomics hold `controls`. -/
def McapPlayer.readerLoop (writers_ : List String) (t : Timing) (controls : Controls)
    (now : Nat) (log : List (LogMessage × Env)) : ReaderState :=
  McapPlayer.readerLoopFrom writers_ t
    { now := now, playback_start_time := now, controls := controls } log

/-! ## Recorder (`mcap_recorder.cpp`) -/

/-- Structure `struct MessageItem`; `msg` is a shared pointer and may be null. -/
structure MessageItem where
  topic : String
  msg : Option RawMessage
deriving Repr, DecidableEq

/-- The members of `McapRecorder` used by the reader callback, the writer
thread and `stop`. -/
structure RecorderState where
  running : Bool := false
  stopped : Bool := false
  message_queue : List MessageItem := []
  total_messages : Nat := 0
  total_bytes : Nat := 0
  latest_record_time_ns : Nat := 0
deriving Repr, DecidableEq

/-- Function `McapRecorder::onMessage`, called by the bus with a message that is
not null (the log line of the callback reads the message without a check). -/
def McapRecorder.onMessage (st : RecorderState) (topic : String) (msg : RawMessage) :
    RecorderState :=
  if !st.running then st
  else
    let message : MessageItem := { topic := topic, msg := some msg }
    let st := { st with latest_record_time_ns := msg.timestamp }
    { st with message_queue := st.message_queue ++ [message] }

/-- One round of the `while` loop of `McapRecorder::writerLoop`, run while no
reader callback is enqueueing: an empty queue means `continue`; otherwise the
front message is popped and handed to `writeMessageToMcap`, here the
parameter `write` acting on the state `σ` of the segment writer. -/
def McapRecorder.writerRound {σ : Type} (write : MessageItem → σ → σ)
    (st : RecorderState × σ) : RecorderState × σ :=
  match st.1.message_queue with
  | [] => st
  | message :: rest =>
    ({ st.1 with
        message_queue := rest
        total_messages := st.1.total_messages + 1
        total_bytes := st.1.total_bytes +
          (match message.msg with
           | some m => m.message.length
           | none => 0) },
     write message st.2)

/-- Function `McapRecorder::writerLoop`: `while (running_ || !message_queue_.empty())`,
with `fuel` bounding the number of rounds; `none` when the fuel runs out
before the loop condition turns false. -/
def McapRecorder.writerLoop {σ : Type} (write : MessageItem → σ → σ) :
    Nat → RecorderState × σ → Option (RecorderState × σ)
  | fuel, st =>
    if st.1.running || !st.1.message_queue.isEmpty then
      match fuel with
      | 0 => none
      | fuel + 1 => McapRecorder.writerLoop write fuel (McapRecorder.writerRound write st)
    else some st

/-- Function `McapRecorder::cleanup`: `closeWriter` stands for closing the segment
writer and clearing `channels_`; then the queue is emptied. -/
def McapRecorder.cleanup {σ : Type} (closeWriter : σ → σ) (st : RecorderState × σ) :
    RecorderState × σ :=
  ({ st.1 with message_queue := [] }, closeWriter st.2)

/-- Function `McapRecorder::stop`: clear `running_`, set `stopped_`, join the writer
thread (which runs `writerLoop` to its end), then `cleanup`. -/
def McapRecorder.stop {σ : Type} (write : MessageItem → σ → σ) (closeWriter : σ → σ)
    (fuel : Nat) (st : RecorderState × σ) : Option (RecorderState × σ) :=
  if !st.1.running then some st
  else
    let st : RecorderState × σ := ({ st.1 with running := false, stopped := true }, st.2)
    match McapRecorder.writerLoop write fuel st with
    | none => none
    | some st => some (McapRecorder.cleanup closeWriter st)

/-- The members of `McapRecorder` that describe the current segment, with the
trace of the files the MCAP writer opened and closed. -/
structure SegmentState where
  writer_open : Bool := false
  schema_cache : List (String × Nat) := []
  channel_cache : List (String × Nat) := []
  base_timestamp : String := ""
  current_segment_file : String := ""
  current_segment_start_time : Nat := 0
  segment_counter : Nat := 0
  opened : List String := []
  closed : List String := []
deriving Repr, DecidableEq

/-- Lines 432-440 of `McapRecorder::startNewSegment`: the current writer is
closed and the schema and channel caches are cleared. -/
def McapRecorder.closeSegment (s : SegmentState) : SegmentState :=
  let s :=
    if s.writer_open then
      { s with writer_open := false, closed := s.closed ++ [s.current_segment_file] }
    else s
  { s with schema_cache := [], channel_cache := [] }

/-- Lines 442-451 of `McapRecorder::startNewSegment`: the base time stamp is
made on the first call only. -/
def McapRecorder.ensureBaseTimestamp (stamp : String) (s : SegmentState) : SegmentState :=
  if s.base_timestamp.isEmpty then { s with base_timestamp := stamp } else s

/-- Lines 453-469 of `McapRecorder::startNewSegment`: the name of the file of
the segment that is about to start. -/
def McapRecorder.segmentFileName (config_ : RecordingConfig) (s : SegmentState) : String :=
  let stem := if config_.output_file.isEmpty then s.base_timestamp else config_.output_file
  (if 0 < config_.segment_interval_seconds then stem ++ "_" ++ toString s.segment_counter
   else stem) ++ ".mcap"

/-- Function `McapRecorder::startNewSegment`: `canOpen` tells whether the MCAP writer
can open a path, `stamp` is the local time formatted as `%Y%m%d_%H%M%S` and
`now_s` the clock in whole seconds. -/
def McapRecorder.startNewSegment (config_ : RecordingConfig) (canOpen : String → Bool)
    (stamp : String) (now_s : Nat) (s : SegmentState) : SegmentState :=
  let s := McapRecorder.ensureBaseTimestamp stamp (McapRecorder.closeSegment s)
  let file := McapRecorder.segmentFileName config_ s
  let s := { s with
    current_segment_file := file
    current_segment_start_time := now_s
    segment_counter := (s.segment_counter + 1) % U32 }
  if canOpen file then { s with writer_open := true, opened := s.opened ++ [file] }
  else { s with writer_open := false }

/-- Function `McapRecorder::rotateSegmentIfNeeded`. -/
def McapRecorder.rotateSegmentIfNeeded (config_ : RecordingConfig) (canOpen : String → Bool)
    (stamp : String) (now_s : Nat) (s : SegmentState) : SegmentState :=
  if config_.segment_interval_seconds ≤ 0 then s
  else if config_.segment_interval_seconds ≤ u64sub now_s s.current_segment_start_time then
    McapRecorder.startNewSegment config_ canOpen stamp now_s s
  else s

/-- A recording session as far as segments go: `initialize` opens the first
segment when the clock reads `t0` seconds, then `rotateSegmentIfNeeded` is
called (by `run` every 50 ms and by the writer thread) at the clock readings
`polls`. -/
def McapRecorder.session (config_ : RecordingConfig) (canOpen : String → Bool)
    (stamp : String) (t0 : Nat) (polls : List Nat) : SegmentState :=
  polls.foldl (fun s now_s => McapRecorder.rotateSegmentIfNeeded config_ canOpen stamp now_s s)
    (McapRecorder.startNewSegment config_ canOpen stamp t0 {})

/-- Polling without a gap: the clock readings (whole seconds) never go back
and no second is missed between two polls. -/
def ContinuousFrom : Nat → List Nat → Prop
  | _, [] => True
  | t, p :: rest => t ≤ p ∧ p ≤ t + 1 ∧ ContinuousFrom p rest

/-- The clock readings in whole seconds (`duration_cast<seconds>`) at `n` polls
that follow each other every `periodMs` milliseconds, the first one
`periodMs` after the clock read `startMs` milliseconds. -/
def pollReadings (startMs periodMs n : Nat) : List Nat :=
  (List.range n).map (fun i => (startMs + periodMs * (i + 1)) / 1000)

/-- The last clock reading of a session that started at `t0`. -/
def lastReading (t0 : Nat) (polls : List Nat) : Nat := polls.getLastD t0

/-! ## Live bridge: subscriber counting (`FoxgloveServer.cpp`, `CyberBridge.cpp`) -/

/-- Members `CyberBridge::_msg_manages`, `_readers`, `_topics`, `_writers` and
`_services`: a message manager is stood for by the type name it was
initialised with, `none` is a null pointer; `readers` and `writers` list the
topics that have a bus reader or a bus writer; a service is listed with its
request and its response manager, `none` for one whose `init_type` failed. -/
structure BridgeState where
  msg_manages : List (String × Option String) := []
  readers : List String := []
  topics : List String := []
  writers : List String := []
  services : List (String × (Option String × Option String)) := []
deriving Repr, DecidableEq

/-- Function `CyberBridge::onSubscribe`: `_msg_manages[topic]` creates a null entry
for a topic the map does not know. -/
def CyberBridge.onSubscribe (b : BridgeState) (topic : String) : BridgeState :=
  if b.readers.contains topic then b
  else
    match b.msg_manages.lookup topic with
    | none => { b with msg_manages := b.msg_manages ++ [(topic, none)] }
    | some none => b
    | some (some _) => { b with readers := b.readers ++ [topic] }

/-- Function `CyberBridge::onUnsubscribe`; `CreateReader` is taken to succeed, so a
reader that is listed is not null. -/
def CyberBridge.onUnsubscribe (b : BridgeState) (topic : String) : BridgeState :=
  if !b.readers.contains topic then b
  else { b with readers := b.readers.filter (fun r => r != topic) }

/-- Structure `FoxgloveServer::ChannelConfig`; `id` is `channel->id()`. -/
structure ChannelConfig where
  type : String := ""
  sub_count : Int := 0
  id : Nat
deriving Repr, DecidableEq

/-- Members `FoxgloveServer::_channels` and the bridge it owns. -/
structure ServerState where
  channels : List (String × ChannelConfig) := []
  bridge : BridgeState := {}
deriving Repr, DecidableEq

/-- The `onSubscribe` callback of `FoxgloveServer::start`, on the channels
from the first one on. -/
def FoxgloveServer.onSubscribeFrom (channel_id : Nat) (b : BridgeState) :
    List (String × ChannelConfig) → List (String × ChannelConfig) × BridgeState
  | [] => ([], b)
  | (topic, channel) :: rest =>
    if channel.id = channel_id then
      let old := channel.sub_count
      let channel := { channel with sub_count := old + 1 }
      if old > 1 then ((topic, channel) :: rest, b)
      else ((topic, channel) :: rest, CyberBridge.onSubscribe b topic)
    else
      let r := FoxgloveServer.onSubscribeFrom channel_id b rest
      ((topic, channel) :: r.1, r.2)

/-- The `onUnsubscribe` callback of `FoxgloveServer::start`, on the channels
from the first one on. -/
def FoxgloveServer.onUnsubscribeFrom (channel_id : Nat) (b : BridgeState) :
    List (String × ChannelConfig) → List (String × ChannelConfig) × BridgeState
  | [] => ([], b)
  | (topic, channel) :: rest =>
    if channel.id = channel_id then
      let old := channel.sub_count
      let channel := { channel with sub_count := old - 1 }
      if old > 0 then ((topic, channel) :: rest, b)
      else ((topic, channel) :: rest, CyberBridge.onUnsubscribe b topic)
    else
      let r := FoxgloveServer.onUnsubscribeFrom channel_id b rest
      ((topic, channel) :: r.1, r.2)

/-- The `onSubscribe` callback of `FoxgloveServer::start`. -/
def FoxgloveServer.onSubscribe (s : ServerState) (channel_id : Nat) : ServerState :=
  let r := FoxgloveServer.onSubscribeFrom channel_id s.bridge s.channels
  { channels := r.1, bridge := r.2 }

/-- The `onUnsubscribe` callback of `FoxgloveServer::start`. -/
def FoxgloveServer.onUnsubscribe (s : ServerState) (channel_id : Nat) : ServerState :=
  let r := FoxgloveServer.onUnsubscribeFrom channel_id s.bridge s.channels
  { channels := r.1, bridge := r.2 }

/-- A request of the sink on a channel. -/
inductive SinkRequest where
  | subscribe
  | unsubscribe
deriving Repr, DecidableEq

/-- The server handles one request of the sink on the channel `channel_id`. -/
def FoxgloveServer.handle (channel_id : Nat) (s : ServerState) : SinkRequest → ServerState
  | .subscribe => FoxgloveServer.onSubscribe s channel_id
  | .unsubscribe => FoxgloveServer.onUnsubscribe s channel_id

/-- The subscriber count the server keeps for a topic. -/
def ServerState.subCount (s : ServerState) (topic : String) : Option Int :=
  (s.channels.lookup topic).map (fun c => c.sub_count)

/-- Whether a poll sequence is without a gap can be computed. -/
instance instDecidableContinuousFrom : (t : Nat) → (l : List Nat) → Decidable (ContinuousFrom t l)
  | _, [] => isTrue trivial
  | t, p :: rest =>
    have := instDecidableContinuousFrom p rest
    (inferInstance : Decidable (t ≤ p ∧ p ≤ t + 1 ∧ ContinuousFrom p rest))

/-! ## Auxiliary predicates and sample inputs -/

/-- Every channel of the file has a protobuf schema whose type the factory
already knows. -/
def Playable {F : Type} (ops : FactoryOps F) (schemas : Nat → Option Schema) (factory : F)
    (channels : List Channel) : Prop :=
  ∀ ch ∈ channels, ∃ sc, schemas ch.schemaId = some sc ∧ sc.encoding = "protobuf" ∧
    ops.FindMessageTypeByName factory sc.name = true

/-- Nothing interferes with a round: no stop request and no key handled. -/
def Env.quiet (e : Env) : Bool :=
  !e.stop && e.keysBefore.isEmpty && e.keysWait.isEmpty

/-- A log of three messages on the topics `/a`, `/b`, `/a`, read without
interference. -/
def sampleLog : List (LogMessage × Env) :=
  [({ topic := "/a", logTime := 1000, publishTime := 900, data := [1, 2] }, {}),
   ({ topic := "/b", logTime := 2000, publishTime := 1900, data := [3] }, {}),
   ({ topic := "/a", logTime := 3000, publishTime := 2900, data := [] }, {})]

/-- Replay at speed 1 without start offset. -/
def unitTiming : Timing := { start_offset_ns := 0, scale := fun x => x }

/-- A factory that knows every type and registers nothing. -/
def knowingFactory : FactoryOps Unit :=
  { FindMessageTypeByName := fun _ _ => true
    RegisterMessage := fun f _ => (f, true)
    FdSetStringToCyberProtoDescString := fun d => d }

/-- The reader callbacks of a list of deliveries, one after the other. -/
def McapRecorder.onMessages (st : RecorderState) (calls : List (String × RawMessage)) :
    RecorderState :=
  calls.foldl (fun st c => McapRecorder.onMessage st c.1 c.2) st

/-- A server with the one channel `/a` (id 1), whose type the bridge knows,
and no subscriber. -/
def sampleServer : ServerState :=
  { channels := [("/a", { type := "T", id := 1 })]
    bridge := { msg_manages := [("/a", some "T")] } }

/-- Three messages on `/a`, one second of log time apart, read without
interference. -/
def steadyLog : List (LogMessage × Env) :=
  [({ topic := "/a", logTime := 1000000000, publishTime := 1, data := [1] }, {}),
   ({ topic := "/a", logTime := 2000000000, publishTime := 2, data := [2] }, {}),
   ({ topic := "/a", logTime := 3000000000, publishTime := 3, data := [3] }, {})]

/-- The same three messages; after the first one is published the space key
is handled (pause), the pause loop of the second message sleeps three times
100 ms and the space key is handled again during the third sleep (resume). -/
def pausedLog : List (LogMessage × Env) :=
  [({ topic := "/a", logTime := 1000000000, publishTime := 1, data := [1] }, {}),
   ({ topic := "/a", logTime := 2000000000, publishTime := 2, data := [2] },
    { keysBefore := [' '], keysPause := [[], [], [' ']] }),
   ({ topic := "/a", logTime := 3000000000, publishTime := 3, data := [3] }, {})]

/-- The test the reader loop applies to a message once the first log time `f`
is captured: played topic and log time at least `f` plus the start offset. -/
def passesOffset (writers_ : List String) (t : Timing) (f : Nat) (m : LogMessage) : Bool :=
  writers_.contains m.topic && decide (f + t.start_offset_ns ≤ m.logTime)

/-- The start offset has been applied only when something has been published. -/
def OffsetInv (st : ReaderState) : Prop :=
  st.offset_applied = true → st.published ≠ []

/-- Five messages in log-time order, four of them on the played topic `/a`. -/
def offsetLog : List (LogMessage × Env) :=
  [({ topic := "/a", logTime := 10, publishTime := 1, data := [1] }, {}),
   ({ topic := "/b", logTime := 11, publishTime := 2, data := [2] }, {}),
   ({ topic := "/a", logTime := 12, publishTime := 3, data := [3] }, { elapsed := 4 }),
   ({ topic := "/a", logTime := 13, publishTime := 4, data := [4] }, { elapsed := 5 }),
   ({ topic := "/a", logTime := 15, publishTime := 5, data := [5] }, {})]

/-- Replay at speed 1 with a start offset of 3 ns. -/
def offsetTiming : Timing := { start_offset_ns := 3, scale := fun x => x }

/-! ## Recorder: segment names and start-up (`mcap_recorder.cpp`, `main.cpp`) -/

/-- Calls of `McapRecorder::startNewSegment` one after the other, at the clock
readings `times`. -/
def McapRecorder.startSegments (config_ : RecordingConfig) (canOpen : String → Bool)
    (stamp : String) (times : List Nat) (s : SegmentState) : SegmentState :=
  times.foldl (fun s now_s => McapRecorder.startNewSegment config_ canOpen stamp now_s s) s

/-- Function `McapRecorder::initialize` of the recorder: it starts the first segment
and returns `true`, whatever `startNewSegment` did. -/
def McapRecorder.initializeRecorder (config_ : RecordingConfig) (canOpen : String → Bool)
    (stamp : String) (now_s : Nat) (s : SegmentState) : Bool × SegmentState :=
  (true, McapRecorder.startNewSegment config_ canOpen stamp now_s s)

/-- Function `McapRecorder::start`: returns `true` at once when the recorder runs
already; otherwise sets `running_`, and when `initialize` reports a failure
resets `running_` and returns `false`; else the discovery timer and the
writer thread are started and `true` is returned. -/
def McapRecorder.start (config_ : RecordingConfig) (canOpen : String → Bool)
    (stamp : String) (now_s : Nat) (st : RecorderState × SegmentState) :
    Bool × (RecorderState × SegmentState) :=
  if st.1.running then (true, st)
  else
    let r := McapRecorder.initializeRecorder config_ canOpen stamp now_s st.2
    if !r.1 then (false, ({ st.1 with running := false }, r.2))
    else (true, ({ st.1 with running := true }, r.2))

/-- The end of the `record` branch of `main`: exit code 0 after `run` has
returned when `start` returned `true`, exit code 1 otherwise. -/
def recordCommandExit (config_ : RecordingConfig) (canOpen : String → Bool)
    (stamp : String) (now_s : Nat) : Nat :=
  if (McapRecorder.start config_ canOpen stamp now_s ({}, {})).1 then 0 else 1

/-! ## Live bridge: discovery and sink channels (`CyberBridge.cpp`, `FoxgloveServer.cpp`) -/

/-- What the bus and the registry answer during one discovery tick:
`GetChannelNames`, `GetMsgType`, whether `createMessageInstance` finds the
descriptor and a prototype of a type, `HasWriter`, the serialized descriptor
set of a type (`getFdSet`), the JSON schema text of a type (`getJsonSchema`)
and the service names of `GetServers`. -/
structure BusView where
  topics : List String := []
  msgType : String → String := fun _ => ""
  resolves : String → Bool := fun _ => false
  hasWriter : String → Bool := fun _ => false
  fdSet : String → String := fun _ => ""
  jsonSchema : String → String := fun _ => ""
  servers : List String := []

/-- Structure `struct Schema` of `CyberBridge.hpp`. -/
structure BridgeSchema where
  name : String
  desc : String
deriving Repr, DecidableEq

/-- The calls of the callbacks a discovery tick makes: the advertise callback
of a topic, the callback for a topic that is gone, the advertise callback of
a service. -/
inductive BridgeEvent where
  | topicFound (topic : String) (schema : BridgeSchema)
  | topicLost (topic : String)
  | serviceFound (name : String) (request response : BridgeSchema)
deriving Repr, DecidableEq

/-- Function `mssageManage::init_type`: the manager of the type, `none` when the
type name is empty or the type cannot be instantiated. -/
def mssageManage.init_type (v : BusView) (msg_type : String) : Option String :=
  if msg_type.isEmpty then none
  else if !v.resolves msg_type then none
  else some msg_type

/-- Function `mssageManage::init_topic`. -/
def mssageManage.init_topic (v : BusView) (topic : String) : Option String :=
  if topic.isEmpty then none
  else mssageManage.init_type v (v.msgType topic)

/-- Function `mssageManage::getJsonSchema`: the schema text of the type of the
manager; a manager without descriptor dumps the JSON value `null`. -/
def mssageManage.getJsonSchema (v : BusView) : Option String → String
  | some ty => v.jsonSchema ty
  | none => "null"

/-- The table `service_map_impl_` of `service_impl.hpp`. -/
def service_map_impl_ : List (String × (String × String)) :=
  [("imu_service", ("gwm.sensors.imu.IMUData", "gwm.sensors.imu.IMUData")),
   ("/gwm/sm/parking_server",
    ("gwm.sm.parking.ParkingSMInfo", "gwm.sm.parking.ParkingSMResponse"))]

/-- One round of the loop of `CyberBridge::discoverServices`, for the service
named `name`. -/
def CyberBridge.discoverService (v : BusView) (acc : BridgeState × List BridgeEvent)
    (name : String) : BridgeState × List BridgeEvent :=
  match acc.1.services.lookup name with
  | some _ => acc
  | none =>
    match service_map_impl_.lookup name with
    | none => acc
    | some ser_type =>
      let request := mssageManage.init_type v ser_type.1
      let response := mssageManage.init_type v ser_type.2
      let nresult := request.isSome || response.isSome
      if nresult then
        let request_schema : BridgeSchema :=
          { name := ser_type.1, desc := mssageManage.getJsonSchema v request }
        let response_schema : BridgeSchema :=
          { name := ser_type.2, desc := mssageManage.getJsonSchema v response }
        ({ acc.1 with services := acc.1.services ++ [(name, (request, response))] },
         acc.2 ++ [BridgeEvent.serviceFound name request_schema response_schema])
      else acc

/-- Function `CyberBridge::discoverServices`: the state after the tick and the
calls of the advertise callback. -/
def CyberBridge.discoverServices (b : BridgeState) (v : BusView) :
    BridgeState × List BridgeEvent :=
  v.servers.foldl (CyberBridge.discoverService v) (b, [])

/-- The registry of `MessageConverter`: source type, target type and target
schema of every registered converter. -/
structure ConverterRegistry where
  type_registry_ : List (String × (String × String)) := []
deriving Repr, DecidableEq

/-- Function `MessageConverter::hasConverter`. -/
def MessageConverter.hasConverter (r : ConverterRegistry) (msg_type : String) : Bool :=
  (r.type_registry_.lookup msg_type).isSome

/-- Function `FoxgloveServer::createChannel`: `rawCreate` is
`foxglove::RawChannel::create`, giving the id of the new channel or `none`
when the library reports an error. -/
def FoxgloveServer.createChannel (r : ConverterRegistry) (rawCreate : String → Option Nat)
    (s : ServerState) (topic : String) (sch_data : BridgeSchema) : Bool × ServerState :=
  if (s.channels.lookup topic).isSome then (false, s)
  else
    match rawCreate topic with
    | none => (false, s)
    | some id =>
      let s := { s with channels := s.channels ++ [(topic, { type := sch_data.name, id := id })] }
      if MessageConverter.hasConverter r sch_data.name ∧
          (s.channels.lookup (topic ++ "/converted")).isNone then
        match rawCreate (topic ++ "/converted") with
        | none => (false, s)
        | some id2 =>
          (true, { s with channels := s.channels ++
            [(topic ++ "/converted", { type := sch_data.name, id := id2 })] })
      else (true, s)

/-- Function `FoxgloveServer::closeChannel`. -/
def FoxgloveServer.closeChannel (s : ServerState) (topic : String) : ServerState :=
  if (s.channels.lookup topic).isNone then s
  else { s with channels := s.channels.filter (fun c => c.1 != topic) }

/-- Whether the sink has a channel of this name. -/
def ServerState.hasChannel (s : ServerState) (topic : String) : Bool :=
  (s.channels.lookup topic).isSome

/-- A registry that resolves the request type of the parking service and not
its response type; the service is on the bus. -/
def parkingView : BusView :=
  { resolves := fun ty => ty == "gwm.sm.parking.ParkingSMInfo"
    jsonSchema := fun _ => "object-schema"
    servers := ["/gwm/sm/parking_server"] }

/-- A converter registry with one converter, from the type `T`. -/
def sampleConverters : ConverterRegistry :=
  { type_registry_ := [("T", ("foxglove.T", "fds"))] }

/-- The first loop of `CyberBridge::discoverTopics` (lines 45-54), on the
entries of `_msg_manages` from a given one on: an entry whose topic the bus no
longer reports is unsubscribed, reported as lost and erased. -/
def CyberBridge.dropLostFrom (topics : List String) (b : BridgeState) :
    List (String × Option String) → BridgeState × List BridgeEvent
  | [] => (b, [])
  | (k, _) :: rest =>
    if topics.contains k then CyberBridge.dropLostFrom topics b rest
    else
      let b := CyberBridge.onUnsubscribe b k
      let b := { b with msg_manages := b.msg_manages.filter (fun e => e.1 != k) }
      let r := CyberBridge.dropLostFrom topics b rest
      (r.1, BridgeEvent.topicLost k :: r.2)

/-- One round of the second loop of `CyberBridge::discoverTopics` (lines
56-73), for the channel `channel`. -/
def CyberBridge.addTopic (v : BusView) (acc : BridgeState × List BridgeEvent)
    (channel : String) : BridgeState × List BridgeEvent :=
  if acc.1.writers.contains channel then acc
  else
    match acc.1.msg_manages.lookup channel with
    | some _ => acc
    | none =>
      match mssageManage.init_topic v channel with
      | none => acc
      | some ty =>
        let b := { acc.1 with msg_manages := acc.1.msg_manages ++ [(channel, some ty)] }
        if !v.hasWriter channel then (b, acc.2)
        else
          let shema_desc := v.fdSet ty
          if shema_desc.isEmpty then (b, acc.2)
          else (b, acc.2 ++ [BridgeEvent.topicFound channel { name := ty, desc := shema_desc }])

/-- Function `CyberBridge::discoverTopics`: the state after the tick and the
calls of the two callbacks, in order. -/
def CyberBridge.discoverTopics (b : BridgeState) (v : BusView) :
    BridgeState × List BridgeEvent :=
  if v.topics = b.topics then (b, [])
  else
    let b := { b with topics := v.topics }
    v.topics.foldl (CyberBridge.addTopic v) (CyberBridge.dropLostFrom v.topics b b.msg_manages)

/-- Ticks of `CyberBridge::discoverTopics` one after the other: the state at
the end and the callback calls of every tick. -/
def CyberBridge.discoverTicks (b : BridgeState) :
    List BusView → BridgeState × List (List BridgeEvent)
  | [] => (b, [])
  | v :: rest =>
    let r := CyberBridge.discoverTopics b v
    let r2 := CyberBridge.discoverTicks r.1 rest
    (r2.1, r.2 :: r2.2)

/-- Whether a callback call is the advertise callback of the topic `t`. -/
def BridgeEvent.isFoundOf (t : String) : BridgeEvent → Bool
  | .topicFound topic _ => topic == t
  | _ => false

/-- How often the advertise callback of the topic `t` is called. -/
def foundCount (t : String) (events : List BridgeEvent) : Nat :=
  (events.filter (BridgeEvent.isFoundOf t)).length

/-- The topics that have an entry in `_msg_manages`. -/
def BridgeState.known (b : BridgeState) : List String :=
  b.msg_manages.map Prod.fst

/-- A bus with the one topic `/a`, which has a publisher, and a registry that
knows no type. -/
def unresolvedView : BusView :=
  { topics := ["/a"], msgType := fun _ => "T", hasWriter := fun _ => true,
    fdSet := fun _ => "fds" }

/-- The same bus, with a registry that knows the type `T`. -/
def resolvedView : BusView :=
  { topics := ["/a"], msgType := fun _ => "T", resolves := fun _ => true,
    hasWriter := fun _ => true, fdSet := fun _ => "fds" }

/-- The bus after the topic `/b` has appeared too. -/
def grownView : BusView :=
  { topics := ["/a", "/b"], msgType := fun _ => "T", resolves := fun _ => true,
    hasWriter := fun _ => true, fdSet := fun _ => "fds" }

/-! ## Argument parser (`arg_parser.cpp`, `main.cpp`) -/

/-- Members `args`, `multi_args` and `positional_args` of `ArgParser`. The two
maps are association lists: an assignment `m[key] = value` puts the entry in
front and `find` takes the first entry of the key. -/
structure ParserState where
  args : List (String × String) := []
  multi_args : List (String × List String) := []
  positional_args : List String := []
deriving Repr, DecidableEq

/-- The test `argv[i + 1][0] != '-'` of the collecting loops of
`ArgParser::parse`. -/
def notOption (token : String) : Bool :=
  match token.data with
  | '-' :: _ => false
  | _ => true

/-- The three-way store after a collecting loop of `ArgParser::parse`. -/
def ArgParser.store (st : ParserState) (key : String) (values : List String) : ParserState :=
  match values with
  | [] => { st with args := (key, "") :: st.args }
  | [value] => { st with args := (key, value) :: st.args }
  | _ => { st with multi_args := (key, values) :: st.multi_args }

/-- The three kinds of token `ArgParser::parse` tells apart: a token that starts
with `--` is a long option (`body` is `arg.substr(2)`), another token that
starts with `-` and is longer than one character is a short option (`name` is
`arg.substr(1)`), every other token is a positional argument. -/
inductive TokenKind where
  | long (body : String)
  | short (name : String)
  | positional
deriving Repr, DecidableEq

/-- The tests `arg.rfind("--", 0) == 0` and
`arg.rfind("-", 0) == 0 && arg.length() > 1 && arg[1] != '-'`. -/
def ArgParser.classify (arg : String) : TokenKind :=
  match arg.data with
  | '-' :: '-' :: body => TokenKind.long (String.mk body)
  | '-' :: c :: body => TokenKind.short (String.mk (c :: body))
  | _ => TokenKind.positional

/-- The split of `--key=value` at the first `=` (`arg.find('=')`), `none` when
there is no `=`. -/
def ArgParser.splitAtEq (body : String) : Option (String × String) :=
  match body.data.span (fun c => c != '=') with
  | (key, '=' :: value) => some (String.mk key, String.mk value)
  | _ => none

/-- The branch of `ArgParser::parse` for a long option (lines 141-165): the
state after it and how many of the following tokens it has taken. -/
def ArgParser.parseLong (body : String) (rest : List String) (st : ParserState) :
    ParserState × Nat :=
  match ArgParser.splitAtEq body with
  | some (key, value) => ({ st with args := (key, value) :: st.args }, 0)
  | none =>
    let values := rest.takeWhile notOption
    (ArgParser.store st body values, values.length)

/-- The branch of `ArgParser::parse` for a short option (lines 167-198). -/
def ArgParser.parseShort (short_to_long : List (String × String)) (short_opt : String)
    (rest : List String) (st : ParserState) : ParserState × Nat :=
  match short_to_long.lookup short_opt with
  | some long_opt =>
    let values := rest.takeWhile notOption
    (ArgParser.store st long_opt values, values.length)
  | none =>
    match rest with
    | next :: _ =>
      if notOption next then ({ st with args := (short_opt, next) :: st.args }, 1)
      else ({ st with args := (short_opt, "") :: st.args }, 0)
    | [] => ({ st with args := (short_opt, "") :: st.args }, 0)

/-- One round of the `for` loop of `ArgParser::parse`, at the token `arg` with
the tokens `rest` after it: the state after the round and how often the round
has incremented `i`, that is how many of the following tokens it has taken. -/
def ArgParser.parseToken (short_to_long : List (String × String)) (arg : String)
    (rest : List String) (st : ParserState) : ParserState × Nat :=
  match ArgParser.classify arg with
  | TokenKind.long body => ArgParser.parseLong body rest st
  | TokenKind.short short_opt => ArgParser.parseShort short_to_long short_opt rest st
  | TokenKind.positional => ({ st with positional_args := st.positional_args ++ [arg] }, 0)

/-- The `for` loop of `ArgParser::parse` from a token on; `skip` is the number
of tokens at the front that the round before has taken as values. -/
def ArgParser.parseFrom (short_to_long : List (String × String)) :
    List String → Nat → ParserState → ParserState
  | [], _, st => st
  | _ :: rest, skip + 1, st => ArgParser.parseFrom short_to_long rest skip st
  | arg :: rest, 0, st =>
    ArgParser.parseFrom short_to_long rest
      (ArgParser.parseToken short_to_long arg rest st).2
      (ArgParser.parseToken short_to_long arg rest st).1

/-- Function `ArgParser::reparse`: the three members are cleared and the stored
command line is parsed from `argv[1]` on. -/
def ArgParser.reparse (short_to_long : List (String × String)) (argv : List String) :
    ParserState :=
  ArgParser.parseFrom short_to_long (argv.drop 1) 0 {}

/-- Function `ArgParser::has`. -/
def ArgParser.has (st : ParserState) (key : String) : Bool :=
  (st.args.lookup key).isSome || (st.multi_args.lookup key).isSome

/-- Function `ArgParser::getAll`. -/
def ArgParser.getAll (st : ParserState) (key : String) : List String :=
  match st.multi_args.lookup key with
  | some values => values
  | none =>
    match st.args.lookup key with
    | some value => if !value.isEmpty then [value] else []
    | none => []

/-- The command line `main` hands to the parser: `argv[0]` and the tokens after
the command (`main.cpp` lines 34-40). -/
def commandArgv (argv : List String) : List String :=
  argv.take 1 ++ argv.drop 2

/-- The short options `main` registers for the command `record`. -/
def recordShortOptions : List (String × String) :=
  [("h", "help"), ("o", "output"), ("c", "white-channel"), ("k", "black-channel"),
   ("i", "segment-interval")]

/-- The short options `main` registers for the command `play`. -/
def playShortOptions : List (String × String) :=
  [("h", "help"), ("l", "loop"), ("c", "white-channel"), ("k", "black-channel"),
   ("r", "rate"), ("s", "start")]

/-- What `main` asks the parser for the two channel lists after `reparse`. -/
def filterArgsOf (short_to_long : List (String × String)) (argv : List String) : FilterArgs :=
  let st := ArgParser.reparse short_to_long (commandArgv argv)
  { hasWhite := ArgParser.has st "white-channel",
    whiteValues := ArgParser.getAll st "white-channel",
    hasBlack := ArgParser.has st "black-channel",
    blackValues := ArgParser.getAll st "black-channel",
    hasLoop := ArgParser.has st "loop" }

/-- The key the long-option branch of `ArgParser::parse` assigns. -/
def ArgParser.keyOfLong (body : String) : String :=
  match ArgParser.splitAtEq body with
  | some (key, _) => key
  | none => body

/-- The key the short-option branch of `ArgParser::parse` assigns. -/
def ArgParser.keyOfShort (short_to_long : List (String × String)) (short_opt : String) :
    String :=
  match short_to_long.lookup short_opt with
  | some long_opt => long_opt
  | none => short_opt

/-- The key a round of `ArgParser::parse` assigns at the token `arg`, `none` for
a positional argument. -/
def ArgParser.keyOf (short_to_long : List (String × String)) (arg : String) : Option String :=
  match ArgParser.classify arg with
  | TokenKind.long body => some (ArgParser.keyOfLong body)
  | TokenKind.short short_opt => some (ArgParser.keyOfShort short_to_long short_opt)
  | TokenKind.positional => none

/-- What `args.find(key)` gives after the three-way store of `values` under
`key`, when `previous` was found before. -/
def ArgParser.storedSingle (previous : Option String) (values : List String) : Option String :=
  match values with
  | [] => some ""
  | [value] => some value
  | _ => previous

/-- What `multi_args.find(key)` gives after the three-way store of `values`
under `key`, when `previous` was found before. -/
def ArgParser.storedMulti (previous : Option (List String)) (values : List String) :
    Option (List String) :=
  match values with
  | [] => previous
  | [_] => previous
  | _ => some values

/-! ## JSON schema of a descriptor (`protoPool.hpp`) -/

/-- The values of `nlohmann::json` the schema builder makes. The members of an
object are kept in the order of their first assignment. -/
inductive Json where
  | null
  | str (s : String)
  | arr (items : List Json)
  | obj (members : List (String × Json))

/-- The assignment `j[key] = value` on the members of an object: the member of
the key is replaced, a new key is added. -/
def jsonSet (members : List (String × Json)) (key : String) (value : Json) :
    List (String × Json) :=
  match members with
  | [] => [(key, value)]
  | (k, v) :: rest => if k = key then (key, value) :: rest else (k, v) :: jsonSet rest key value

/-- The member of a JSON object under a key. -/
def Json.member (j : Json) (key : String) : Option Json :=
  match j with
  | Json.obj members => members.lookup key
  | _ => none

mutual
/-- The values of `FieldDescriptor::Type` with what the schema builder reads of
the field type: the value names of an enum in declaration order
(`enum_type()->value(j)->name()`) and the descriptor of a message
(`message_type()`). -/
inductive FieldType where
  | TYPE_DOUBLE | TYPE_FLOAT | TYPE_INT64 | TYPE_UINT64 | TYPE_INT32 | TYPE_FIXED64
  | TYPE_FIXED32 | TYPE_BOOL | TYPE_STRING
  | TYPE_GROUP (message_type : Descriptor)
  | TYPE_MESSAGE (message_type : Descriptor)
  | TYPE_BYTES | TYPE_UINT32
  | TYPE_ENUM (value_names : List String)
  | TYPE_SFIXED32 | TYPE_SFIXED64 | TYPE_SINT32 | TYPE_SINT64
/-- A message descriptor `google::protobuf::Descriptor` of finite nesting: its
fields in the order of `field(i)`. -/
inductive Descriptor where
  | mk (fields : FieldList)
/-- The fields of a descriptor: `name()`, `type()` and `is_repeated()` of each. -/
inductive FieldList where
  | nil
  | cons (name : String) (type : FieldType) (is_repeated : Bool) (rest : FieldList)
end

mutual
/-- Function `mssageManage::buildJsonSchemaFromDescriptor` on a descriptor that
is not null. -/
def mssageManage.buildJsonSchemaFromDescriptor : Descriptor → Json
  | Descriptor.mk fields =>
    Json.obj (jsonSet (jsonSet [] "type" (Json.str "object")) "properties"
      (Json.obj (mssageManage.buildProperties fields [])))
/-- The `for` loop of `buildJsonSchemaFromDescriptor` over the fields, from a
field on, with the members of `properties` assigned so far. -/
def mssageManage.buildProperties : FieldList → List (String × Json) → List (String × Json)
  | FieldList.nil, properties => properties
  | FieldList.cons name type is_repeated rest, properties =>
    mssageManage.buildProperties rest
      (jsonSet properties name
        (if is_repeated then
          Json.obj (jsonSet (jsonSet [] "type" (Json.str "array")) "items"
            (mssageManage.fieldSchemaOf type))
        else mssageManage.fieldSchemaOf type))
/-- The `switch (field->type())` of `buildJsonSchemaFromDescriptor`: the value
of `fieldSchema` after it. -/
def mssageManage.fieldSchemaOf : FieldType → Json
  | FieldType.TYPE_INT32 => Json.obj (jsonSet [] "type" (Json.str "integer"))
  | FieldType.TYPE_INT64 => Json.obj (jsonSet [] "type" (Json.str "integer"))
  | FieldType.TYPE_UINT32 => Json.obj (jsonSet [] "type" (Json.str "integer"))
  | FieldType.TYPE_UINT64 => Json.obj (jsonSet [] "type" (Json.str "integer"))
  | FieldType.TYPE_SINT32 => Json.obj (jsonSet [] "type" (Json.str "integer"))
  | FieldType.TYPE_SINT64 => Json.obj (jsonSet [] "type" (Json.str "integer"))
  | FieldType.TYPE_FIXED32 => Json.obj (jsonSet [] "type" (Json.str "integer"))
  | FieldType.TYPE_FIXED64 => Json.obj (jsonSet [] "type" (Json.str "integer"))
  | FieldType.TYPE_SFIXED32 => Json.obj (jsonSet [] "type" (Json.str "integer"))
  | FieldType.TYPE_SFIXED64 => Json.obj (jsonSet [] "type" (Json.str "integer"))
  | FieldType.TYPE_FLOAT => Json.obj (jsonSet [] "type" (Json.str "number"))
  | FieldType.TYPE_DOUBLE => Json.obj (jsonSet [] "type" (Json.str "number"))
  | FieldType.TYPE_BOOL => Json.obj (jsonSet [] "type" (Json.str "boolean"))
  | FieldType.TYPE_STRING => Json.obj (jsonSet [] "type" (Json.str "string"))
  | FieldType.TYPE_BYTES => Json.obj (jsonSet [] "type" (Json.str "string"))
  | FieldType.TYPE_ENUM value_names =>
    Json.obj (jsonSet (jsonSet [] "type" (Json.str "string")) "enum"
      (Json.arr (value_names.map Json.str)))
  | FieldType.TYPE_MESSAGE message_type =>
    mssageManage.buildJsonSchemaFromDescriptor message_type
  | FieldType.TYPE_GROUP _ => Json.obj (jsonSet [] "type" (Json.str "string"))
end

/-- Function `mssageManage::buildJsonSchemaFromDescriptor` with its null check. -/
def mssageManage.buildJsonSchemaFromPointer : Option Descriptor → Json
  | none => Json.null
  | some descriptor => mssageManage.buildJsonSchemaFromDescriptor descriptor

/-- The fields of a field list as a list. -/
def FieldList.toList : FieldList → List (String × FieldType × Bool)
  | FieldList.nil => []
  | FieldList.cons name type is_repeated rest => (name, type, is_repeated) :: rest.toList

/-- The field names of a field list. -/
def FieldList.names : FieldList → List String
  | FieldList.nil => []
  | FieldList.cons name _ _ rest => name :: rest.names

/-- A descriptor with a repeated integer, an enum, a nested message and a
repeated nested message. -/
def sampleFields : FieldList :=
  FieldList.cons "ids" FieldType.TYPE_INT32 true
    (FieldList.cons "mode" (FieldType.TYPE_ENUM ["OFF", "ON"]) false
      (FieldList.cons "pose"
        (FieldType.TYPE_MESSAGE
          (Descriptor.mk (FieldList.cons "x" FieldType.TYPE_DOUBLE false FieldList.nil))) false
        (FieldList.cons "tags"
          (FieldType.TYPE_MESSAGE
            (Descriptor.mk (FieldList.cons "key" FieldType.TYPE_STRING false FieldList.nil)))
          true FieldList.nil)))

/-! ## Descriptor set of a type (`protoPool.hpp`, `MessageConverter.hpp`) -/

/-- One round of the inner `for` loop of `SerializeFdSet`, on the pair of
`toAdd` and `seenDependencies`: a dependency whose name has not been seen is
marked as seen and pushed. Files are identified by their names. -/
def SerializeFdSet.visit (acc : List String × List String) (dep : String) :
    List String × List String :=
  if acc.2.contains dep then acc else (acc.1 ++ [dep], acc.2 ++ [dep])

/-- The `while (!toAdd.empty())` loop of `SerializeFdSet`, with at most `fuel`
rounds: `dependency` gives the dependencies of a file in the order of
`dependency(i)`, `fdSet` is the list of the files added to the descriptor set
so far. The result is `none` when the rounds do not suffice. -/
def SerializeFdSet.loop (dependency : String → List String) :
    Nat → List String → List String → List String → Option (List String)
  | _, [], _, fdSet => some fdSet
  | 0, _ :: _, _, _ => none
  | fuel + 1, next :: toAdd, seenDependencies, fdSet =>
    SerializeFdSet.loop dependency fuel
      ((dependency next).foldl SerializeFdSet.visit (toAdd, seenDependencies)).1
      ((dependency next).foldl SerializeFdSet.visit (toAdd, seenDependencies)).2
      (fdSet ++ [next])

/-- Function `SerializeFdSet` of `protoPool.hpp` for a descriptor that is not
null and lies in the file `root`: the files of the descriptor set in the order
in which they are added. -/
def SerializeFdSet (dependency : String → List String) (fuel : Nat) (root : String) :
    Option (List String) :=
  SerializeFdSet.loop dependency fuel [root] [root] []

/-- Function `MessageConverter::SerializeFdSet`, the same loop. -/
def MessageConverter.SerializeFdSet (dependency : String → List String) (fuel : Nat)
    (root : String) : Option (List String) :=
  SerializeFdSet.loop dependency fuel [root] [root] []

/-- A chain of `n` dependencies leads from the file `root` to the file. -/
inductive ReachIn (dependency : String → List String) (root : String) : Nat → String → Prop
  | root : ReachIn dependency root 0 root
  | step {n : Nat} {f d : String} :
      ReachIn dependency root n f → d ∈ dependency f → ReachIn dependency root (n + 1) d

/-- The file is reachable from `root` by a chain of at most `n` dependencies. -/
def ReachLe (dependency : String → List String) (root : String) (n : Nat) (f : String) :
    Prop :=
  ∃ m, m ≤ n ∧ ReachIn dependency root m f

/-- The distance of the file from `root` is `n`. -/
def IsDist (dependency : String → List String) (root : String) (f : String) (n : Nat) :
    Prop :=
  ReachIn dependency root n f ∧ ∀ m, ReachIn dependency root m f → n ≤ m

/-- The first file is at most as far from `root` as the second. -/
def Nearer (dependency : String → List String) (root : String) (a b : String) : Prop :=
  ∀ n, ReachLe dependency root n b → ReachLe dependency root n a

/-- What holds between the rounds of the loop of `SerializeFdSet` for the queue
`Q` and the files `O` added so far, the names seen being `O ++ Q`. -/
structure BfsInv (dependency : String → List String) (root : String) (V : List String)
    (Q O : List String) : Prop where
  nodup : (O ++ Q).Nodup
  reach : ∀ f ∈ O ++ Q, ∃ n, ReachIn dependency root n f
  sorted : (O ++ Q).Pairwise (Nearer dependency root)
  closed : ∀ f ∈ O, ∀ d ∈ dependency f, d ∈ O ++ Q
  near : ∀ next ∈ Q.head?, ∀ f ∈ O ++ Q, ∀ n,
    ReachLe dependency root n next → ReachLe dependency root (n + 1) f
  first : (O ++ Q).head? = some root
  inV : ∀ f ∈ O ++ Q, f ∈ V

/-- The dependencies of four files: `a.proto` depends on `b.proto` and on
`c.proto`, both depend on `d.proto`, and `c.proto` depends on `b.proto` too. -/
def sampleImports (file : String) : List String :=
  if file = "a.proto" then ["b.proto", "c.proto"]
  else if file = "b.proto" then ["d.proto"]
  else if file = "c.proto" then ["d.proto", "b.proto"]
  else []

/-! ## Text form of a message (`protoPool.hpp`) -/

/-- Structure `google::protobuf::util::JsonPrintOptions`: the four options
`getMsgJsonString` assigns, with the defaults of the library. -/
structure JsonPrintOptions where
  add_whitespace : Bool := false
  always_print_primitive_fields : Bool := false
  always_print_enums_as_ints : Bool := false
  preserve_proto_field_names : Bool := false
deriving Repr, DecidableEq

/-- The value of a primitive field of a parsed message; an enum value has its
number and its name. -/
inductive FieldValue where
  | int (v : Int)
  | bool (b : Bool)
  | str (s : String)
  | enum (number : Int) (name : String)
deriving Repr, DecidableEq

/-- A primitive field of a parsed message: the name declared in the schema
(`FieldDescriptor::name()`), the JSON name (`FieldDescriptor::json_name()`, the
lowerCamelCase form of the declared name unless the schema gives another), the
value, and whether the field is set; a field without presence is set exactly
when its value is not the default. -/
structure MessageField where
  name : String
  json_name : String
  value : FieldValue
  is_set : Bool
deriving Repr, DecidableEq

/-- A printed JSON value of a primitive field. -/
inductive JsonScalar where
  | number (v : Int)
  | bool (b : Bool)
  | text (s : String)
deriving Repr, DecidableEq

/-- The JSON value the printer writes for a field value: an enum value is
written as its number under `always_print_enums_as_ints`, as its name
otherwise. -/
def printFieldValue (options : JsonPrintOptions) : FieldValue → JsonScalar
  | FieldValue.int v => JsonScalar.number v
  | FieldValue.bool b => JsonScalar.bool b
  | FieldValue.str s => JsonScalar.text s
  | FieldValue.enum number name =>
    if options.always_print_enums_as_ints then JsonScalar.number number
    else JsonScalar.text name

/-- The members `google::protobuf::util::MessageToJsonString` prints for the
primitive fields of a message. The function belongs to the protobuf library,
which is not part of the repository; it is taken with the meaning the library
gives to the three options: a field that is not set is printed only under
`always_print_primitive_fields`, the key is the declared name under
`preserve_proto_field_names` and the JSON name otherwise, and an enum value is
a number under `always_print_enums_as_ints`. -/
def MessageToJsonMembers (options : JsonPrintOptions) (fields : List MessageField) :
    List (String × JsonScalar) :=
  (fields.filter (fun f => f.is_set || options.always_print_primitive_fields)).map
    (fun f => (if options.preserve_proto_field_names then f.name else f.json_name,
      printFieldValue options f.value))

/-- Function `mssageManage::getMsgJsonString` on the parsed message: the printer
of the library is called with the options of lines 83-87. -/
def mssageManage.getMsgJsonString {Message Text : Type}
    (MessageToJsonString : JsonPrintOptions → Message → Text) (raw_msg_class_ : Message) :
    Text :=
  let options : JsonPrintOptions :=
    { add_whitespace := true, always_print_primitive_fields := false,
      preserve_proto_field_names := false, always_print_enums_as_ints := true }
  MessageToJsonString options raw_msg_class_

/-- A bus with the topics `/a` and `/b` and a registry that knows no type. -/
def pairUnresolvedView : BusView :=
  { topics := ["/a", "/b"], msgType := fun _ => "T", hasWriter := fun _ => true,
    fdSet := fun _ => "fds" }

/-- The same two topics reported in the other order, with a registry that knows
the type `T`. -/
def swappedView : BusView :=
  { topics := ["/b", "/a"], msgType := fun _ => "T", resolves := fun _ => true,
    hasWriter := fun _ => true, fdSet := fun _ => "fds" }

/-- A bus with the topic `/a`, whose type resolves and which has no publisher. -/
def silentView : BusView :=
  { topics := ["/a"], msgType := fun _ => "T", resolves := fun _ => true,
    fdSet := fun _ => "fds" }

/-- Whether a callback call is the callback for a topic that is gone. -/
def BridgeEvent.isLost : BridgeEvent → Bool
  | .topicLost _ => true
  | _ => false

/-- A log of three messages on `/a` whose first message has the log time 0. -/
def zeroFirstLog : List (LogMessage × Env) :=
  [({ topic := "/a", logTime := 0, publishTime := 1, data := [1] }, {}),
   ({ topic := "/a", logTime := 5, publishTime := 2, data := [2] }, {}),
   ({ topic := "/a", logTime := 7, publishTime := 3, data := [3] }, {})]

/-! ## Play command: the files of the command line (`main.cpp`, `mcap_player.cpp`) -/

/-- The passes of the reader thread over `config_.input_file`, at most `fuel` of
them: at the end of the pass number `pass` (lines 352-363 of
`McapPlayer::readerLoop`) the reader, when `config_.loop` is set and
`running_` still holds (`running pass`), runs `cleanup`, `initialize` and
`readerLoop` again, on the same file; otherwise it sets `playback_done_`. The
result lists the file once per pass and tells whether `playback_done_` has
been set. -/
def McapPlayer.readerPasses (loop : Bool) (running : Nat → Bool) (input_file : String) :
    Nat → Nat → List String × Bool
  | 0, _ => ([], false)
  | fuel + 1, pass =>
    if loop && running pass then
      (input_file :: (McapPlayer.readerPasses loop running input_file fuel (pass + 1)).1,
        (McapPlayer.readerPasses loop running input_file fuel (pass + 1)).2)
    else ([input_file], true)

/-- The file loop of the play command (`main.cpp` lines 244-259): `play` starts
the reader on the file, `run` returns once `playback_done_` is set (or
`running_` is cleared), then `stop` is called and the next file follows;
`canPlay` tells whether `play` succeeds on a file. The result lists the
passes of the reader, file by file, and the exit code, `none` while `run` is
still waiting after `fuel` passes over a file. -/
def playCommandFiles (loop : Bool) (running : Nat → Bool) (canPlay : String → Bool)
    (fuel : Nat) : List String → List String × Option Nat
  | [] => ([], some 0)
  | file :: rest =>
    if canPlay file then
      if (McapPlayer.readerPasses loop running file fuel 0).2 then
        ((McapPlayer.readerPasses loop running file fuel 0).1 ++
            (playCommandFiles loop running canPlay fuel rest).1,
          (playCommandFiles loop running canPlay fuel rest).2)
      else ((McapPlayer.readerPasses loop running file fuel 0).1, none)
    else ([], some 1)

/-- A round in which the reader finds the player paused, sleeps `k` times in the
pause loop without a key, and the key `s` is handled during the next sleep. -/
def stepEnv (k : Nat) : Env :=
  { keysPause := List.replicate k [] ++ [['s']] }

/-- Three messages read while the player is not paused; the key `s` is handled
while the reader sleeps until the target time of the second message. -/
def stepWhileWaitingLog : List (LogMessage × Env) :=
  [({ topic := "/a", logTime := 1000000000, publishTime := 1, data := [1] }, {}),
   ({ topic := "/a", logTime := 2000000000, publishTime := 2, data := [2] },
    { keysWait := ['s'] }),
   ({ topic := "/a", logTime := 3000000000, publishTime := 3, data := [3] }, {})]

/-- Two messages read from the paused player, each after a step request. -/
def twoStepsLog : List (LogMessage × Env) :=
  [({ topic := "/a", logTime := 1000000000, publishTime := 1, data := [1] }, stepEnv 2),
   ({ topic := "/a", logTime := 2000000000, publishTime := 2, data := [2] }, stepEnv 0)]

/-! ## MCAP records (`cyber_to_mcap_converter.cpp`, `mcap_recorder.cpp`) -/

/-- What is handed to the MCAP writer: a schema by `addSchema`, a channel by
`addChannel`, a message by `write`. -/
inductive McapRecord where
  | schema (id : Nat) (name : String) (data : String)
  | channel (id : Nat) (topic : String) (schemaId : Nat)
  | message (channelId : Nat) (logTime : Nat) (publishTime : Nat) (data : List Nat)
deriving Repr, DecidableEq

/-- The ids the MCAP writer gives out: `addSchema` sets `schema.id` and
`addChannel` sets `channel.id`, each from the number of schemas, or of
channels, added to the writer before. The writer belongs to the MCAP library,
which is not part of the repository. -/
structure WriterIds where
  schemaId : Nat → Nat
  channelId : Nat → Nat

/-- The numbering of the MCAP library: schema ids count from 1 (0 stands for no
schema), channel ids from 0. -/
def mcapWriterIds : WriterIds :=
  { schemaId := fun n => n + 1, channelId := fun n => n }

/-- Structure `struct ChannelInfo`, without the topic, which is the key of
`channels_`. -/
structure ChannelInfo where
  message_type : String
  proto_desc : String
deriving Repr, DecidableEq

/-- The segment members of the recorder together with the writer of the current
segment: the records handed to it and the numbers of schemas and channels
added to it. -/
structure SegmentWriter where
  seg : SegmentState := {}
  records : List McapRecord := []
  schemas : Nat := 0
  channels : Nat := 0
deriving Repr, DecidableEq

/-- Function `McapRecorder::startNewSegment` with the writer it makes: nothing has
been added to the new `McapWriter`. -/
def McapRecorder.startNewSegmentWriter (config_ : RecordingConfig) (canOpen : String → Bool)
    (stamp : String) (now_s : Nat) (w : SegmentWriter) : SegmentWriter :=
  { seg := McapRecorder.startNewSegment config_ canOpen stamp now_s w.seg
    records := [], schemas := 0, channels := 0 }

/-- Function `McapRecorder::rotateSegmentIfNeeded` with the writer. -/
def McapRecorder.rotateWriterIfNeeded (config_ : RecordingConfig) (canOpen : String → Bool)
    (stamp : String) (now_s : Nat) (w : SegmentWriter) : SegmentWriter :=
  if config_.segment_interval_seconds ≤ 0 then w
  else if config_.segment_interval_seconds ≤ u64sub now_s w.seg.current_segment_start_time then
    McapRecorder.startNewSegmentWriter config_ canOpen stamp now_s w
  else w

/-- Lines 371-383 of `McapRecorder::writeMessageToMcap`: the schema id of the
message type, from `schema_cache_` or from a schema added now. -/
def McapRecorder.ensureSchema (ids : WriterIds) (w : SegmentWriter) (info : ChannelInfo) :
    SegmentWriter × Nat :=
  match w.seg.schema_cache.lookup info.message_type with
  | some schema_id => (w, schema_id)
  | none =>
    ({ w with
        seg := { w.seg with
          schema_cache := w.seg.schema_cache ++ [(info.message_type, ids.schemaId w.schemas)] }
        records := w.records ++
          [McapRecord.schema (ids.schemaId w.schemas) info.message_type info.proto_desc]
        schemas := w.schemas + 1 },
      ids.schemaId w.schemas)

/-- Lines 385-398 of `McapRecorder::writeMessageToMcap`: the channel id of the
topic, from `channel_cache_` or from a channel added now. -/
def McapRecorder.ensureChannel (ids : WriterIds) (w : SegmentWriter) (topic : String)
    (schema_id : Nat) : SegmentWriter × Nat :=
  match w.seg.channel_cache.lookup topic with
  | some channel_id => (w, channel_id)
  | none =>
    ({ w with
        seg := { w.seg with
          channel_cache := w.seg.channel_cache ++ [(topic, ids.channelId w.channels)] }
        records := w.records ++ [McapRecord.channel (ids.channelId w.channels) topic schema_id]
        channels := w.channels + 1 },
      ids.channelId w.channels)

/-- Lines 360-412 of `McapRecorder::writeMessageToMcap`, after the rotation check:
`channels_` gives the type of the topic, `logTime` is the clock. -/
def McapRecorder.writeInSegment (ids : WriterIds) (channels_ : List (String × ChannelInfo))
    (w : SegmentWriter) (m : String × RawMessage × Nat) : SegmentWriter :=
  match channels_.lookup m.1 with
  | none => w
  | some info =>
    { (McapRecorder.ensureChannel ids (McapRecorder.ensureSchema ids w info).1 m.1
        (McapRecorder.ensureSchema ids w info).2).1 with
      records :=
        (McapRecorder.ensureChannel ids (McapRecorder.ensureSchema ids w info).1 m.1
          (McapRecorder.ensureSchema ids w info).2).1.records ++
        [McapRecord.message
          (McapRecorder.ensureChannel ids (McapRecorder.ensureSchema ids w info).1 m.1
            (McapRecorder.ensureSchema ids w info).2).2
          m.2.2 m.2.1.timestamp m.2.1.message] }

/-- Function `McapRecorder::writeMessageToMcap`; the result is `none` when the
rotation has left no writer (the open failed) and the function goes on to use
it. -/
def McapRecorder.writeMessageToMcap (ids : WriterIds) (config_ : RecordingConfig)
    (canOpen : String → Bool) (stamp : String) (now_s : Nat)
    (channels_ : List (String × ChannelInfo)) (logTime : Nat) (w : SegmentWriter)
    (message : MessageItem) : Option SegmentWriter :=
  if !w.seg.writer_open then some w
  else
    match message.msg with
    | none => some w
    | some msg =>
      let w := McapRecorder.rotateWriterIfNeeded config_ canOpen stamp now_s w
      match channels_.lookup message.topic with
      | none => some w
      | some _ =>
        if !w.seg.writer_open then none
        else some (McapRecorder.writeInSegment ids channels_ w (message.topic, msg, logTime))

/-- The schema records of a list of records: type name and id. -/
def schemaEntries : List McapRecord → List (String × Nat)
  | [] => []
  | McapRecord.schema id name _ :: rest => (name, id) :: schemaEntries rest
  | _ :: rest => schemaEntries rest

/-- The channel records of a list of records: topic and id. -/
def channelEntries : List McapRecord → List (String × Nat)
  | [] => []
  | McapRecord.channel id topic _ :: rest => (topic, id) :: channelEntries rest
  | _ :: rest => channelEntries rest

/-- The channel ids of the message records of a list of records. -/
def messageIds : List McapRecord → List Nat
  | [] => []
  | McapRecord.message channelId _ _ _ :: rest => channelId :: messageIds rest
  | _ :: rest => messageIds rest

/-- What a record needs before it: a message a channel record with its channel
id, a channel a schema record with its schema id. -/
def McapRecord.declaredIn (pre : List McapRecord) : McapRecord → Prop
  | McapRecord.message channelId _ _ _ => ∃ topic schemaId,
      McapRecord.channel channelId topic schemaId ∈ pre
  | McapRecord.channel _ _ schemaId => ∃ name data, McapRecord.schema schemaId name data ∈ pre
  | McapRecord.schema _ _ _ => True

/-- Every record of the list comes after what it needs. -/
def declaredBeforeUse (records : List McapRecord) : Prop :=
  ∀ pre r post, records = pre ++ r :: post → r.declaredIn pre

/-- The messages of a list that `writeInSegment` writes: those whose topic is in
`channels_`. -/
def writtenMessages (channels_ : List (String × ChannelInfo))
    (msgs : List (String × RawMessage × Nat)) : List (String × RawMessage × Nat) :=
  msgs.filter (fun m => (channels_.lookup m.1).isSome)

/-- Two topics of one type and one topic of another. -/
def sampleChannels : List (String × ChannelInfo) :=
  [("/a", { message_type := "T", proto_desc := "dT" }),
   ("/b", { message_type := "T", proto_desc := "dT" }),
   ("/c", { message_type := "U", proto_desc := "dU" })]

/-- What holds for the writer of a segment after the messages `done` have been
handed to `writeInSegment`: the caches mirror the schema and channel records,
no type and no topic has two records, the types and topics with a record are
those of the written messages, every message record carries the id its topic
has in the channel records, and every record comes after what it needs. -/
structure SegInv (channels_ : List (String × ChannelInfo)) (w : SegmentWriter)
    (done : List (String × RawMessage × Nat)) : Prop where
  cacheS : w.seg.schema_cache = schemaEntries w.records
  cacheC : w.seg.channel_cache = channelEntries w.records
  nodupS : ((schemaEntries w.records).map Prod.fst).Nodup
  nodupC : ((channelEntries w.records).map Prod.fst).Nodup
  memS : ∀ T, T ∈ (schemaEntries w.records).map Prod.fst ↔
    ∃ m ∈ done, ∃ info, channels_.lookup m.1 = some info ∧ info.message_type = T
  memC : ∀ t, t ∈ (channelEntries w.records).map Prod.fst ↔
    ∃ m ∈ done, m.1 = t ∧ (channels_.lookup t).isSome = true
  ids : messageIds w.records =
    (writtenMessages channels_ done).map
      (fun m => ((channelEntries w.records).lookup m.1).getD 0)
  order : declaredBeforeUse w.records

/-- Five messages for the recorder: two on `/a`, one on `/b`, one on `/c` and
one on a topic that is not in `channels_`. -/
def sampleWrites : List (String × RawMessage × Nat) :=
  [("/a", { message := [1], timestamp := 5 }, 100),
   ("/b", { message := [2], timestamp := 6 }, 101),
   ("/x", { message := [9], timestamp := 6 }, 101),
   ("/a", { message := [3], timestamp := 7 }, 102),
   ("/c", { message := [4], timestamp := 8 }, 103)]

/-! ## Descriptor conversions (`common.hpp`) -/

/-- A parsed `google::protobuf::FileDescriptorProto`: its name, the names of its
dependencies in the order of `dependency(i)`, and the rest of its content. -/
structure FileDesc where
  name : String
  dependency : List String
  body : String := ""
deriving Repr, DecidableEq

/-- A parsed `cyber::proto::ProtoDesc`: `desc` is the file its `desc` bytes parse
to, `none` when they do not parse as a `FileDescriptorProto`, and
`dependencies` are its child nodes. -/
inductive ProtoDesc where
  | node (desc : Option FileDesc) (dependencies : List ProtoDesc)

/-- The field `desc` of a node, parsed. -/
def ProtoDesc.desc : ProtoDesc → Option FileDesc
  | ProtoDesc.node desc _ => desc

/-- The field `dependencies` of a node. -/
def ProtoDesc.dependencies : ProtoDesc → List ProtoDesc
  | ProtoDesc.node _ dependencies => dependencies

mutual
/-- The number of nodes of a tree. -/
def ProtoDesc.size : ProtoDesc → Nat
  | ProtoDesc.node _ dependencies => 1 + ProtoDesc.sizeList dependencies
/-- The number of nodes of a list of trees. -/
def ProtoDesc.sizeList : List ProtoDesc → Nat
  | [] => 0
  | d :: ds => d.size + ProtoDesc.sizeList ds
end

/-- The `while (!q.empty())` loop of `CyberProtoDescStringToFdSetString`, with at
most `fuel` rounds: a node whose `desc` does not parse is dropped with its
children, the file of another node is added to the set when its name has not
been seen, and its children are pushed. The result is `none` when the rounds
do not suffice. -/
def CyberProtoDescStringToFdSetString.loop :
    Nat → List ProtoDesc → List String → List FileDesc → Option (List FileDesc)
  | _, [], _, fdSet => some fdSet
  | 0, _ :: _, _, _ => none
  | fuel + 1, ProtoDesc.node none _ :: q, seen, fdSet =>
    CyberProtoDescStringToFdSetString.loop fuel q seen fdSet
  | fuel + 1, ProtoDesc.node (some file_desc_proto) dependencies :: q, seen, fdSet =>
    if seen.contains file_desc_proto.name then
      CyberProtoDescStringToFdSetString.loop fuel (q ++ dependencies) seen fdSet
    else
      CyberProtoDescStringToFdSetString.loop fuel (q ++ dependencies)
        (seen ++ [file_desc_proto.name]) (fdSet ++ [file_desc_proto])

/-- Function `CyberProtoDescStringToFdSetString` on a string that parses as the
tree `root`: the files of the descriptor set in order. -/
def CyberProtoDescStringToFdSetString (fuel : Nat) (root : ProtoDesc) :
    Option (List FileDesc) :=
  CyberProtoDescStringToFdSetString.loop fuel [root] [] []

/-- The map `fileMap` of `FdSetStringToCyberProtoDescString`: of two files with
one name the later one is found. -/
def fileMapOf (files : List FileDesc) : List (String × FileDesc) :=
  (files.map (fun f => (f.name, f))).reverse

/-- The set `allDeps` of `FdSetStringToCyberProtoDescString`: every name that
some file of the set lists as a dependency. -/
def allDepsOf : List FileDesc → List String
  | [] => []
  | f :: rest => f.dependency ++ allDepsOf rest

/-- The vector `roots` of `FdSetStringToCyberProtoDescString`. -/
def rootsOf (files : List FileDesc) : List FileDesc :=
  files.filter (fun f => !(allDepsOf files).contains f.name)

/-- The results of a list of calls, when every call has returned. -/
def allSome {α : Type} : List (Option α) → Option (List α)
  | [] => some []
  | none :: _ => none
  | some x :: rest =>
    match allSome rest with
    | none => none
    | some xs => some (x :: xs)

/-- The recursion `buildTree` of `FdSetStringToCyberProtoDescString`, to the depth
`fuel`: the node of a file holds the file and one child for every dependency
that is in `fileMap`; `none` when the depth does not suffice. -/
def FdSetStringToCyberProtoDescString.buildTree (fileMap : List (String × FileDesc)) :
    Nat → FileDesc → Option ProtoDesc
  | 0, _ => none
  | fuel + 1, file =>
    match allSome ((file.dependency.filterMap (fun depName => fileMap.lookup depName)).map
        (FdSetStringToCyberProtoDescString.buildTree fileMap fuel)) with
    | none => none
    | some dependencies => some (ProtoDesc.node (some file) dependencies)

/-- The tree the empty string parses to: a node with no child whose `desc` is
empty and parses to the empty file. -/
def emptyProtoDesc : ProtoDesc :=
  ProtoDesc.node (some { name := "", dependency := [] }) []

/-- Function `FdSetStringToCyberProtoDescString` on a string that parses as the
descriptor set `files`; the empty string is returned for an empty set. -/
def FdSetStringToCyberProtoDescString (fuel : Nat) (files : List FileDesc) :
    Option ProtoDesc :=
  match files with
  | [] => some emptyProtoDesc
  | first :: _ =>
    match (rootsOf files).head? with
    | some root =>
      FdSetStringToCyberProtoDescString.buildTree (fileMapOf files) fuel root
    | none => FdSetStringToCyberProtoDescString.buildTree (fileMapOf files) fuel first

mutual
/-- The files of the nodes of a tree. -/
def ProtoDesc.files : ProtoDesc → List FileDesc
  | ProtoDesc.node desc dependencies => desc.toList ++ ProtoDesc.filesList dependencies
/-- The files of the nodes of a list of trees. -/
def ProtoDesc.filesList : List ProtoDesc → List FileDesc
  | [] => []
  | d :: ds => d.files ++ ProtoDesc.filesList ds
end

/-- The name of the file of a node. -/
def ProtoDesc.name? (t : ProtoDesc) : Option String :=
  t.desc.map (fun f => f.name)

mutual
/-- Every node of the tree parses and the children of every node are the files
its descriptor lists as dependencies, in that order. -/
def ProtoDesc.WellFormed : ProtoDesc → Prop
  | ProtoDesc.node none _ => False
  | ProtoDesc.node (some file) dependencies =>
    dependencies.map ProtoDesc.name? = file.dependency.map some ∧
      ProtoDesc.WellFormedList dependencies
/-- Every tree of the list is well formed. -/
def ProtoDesc.WellFormedList : List ProtoDesc → Prop
  | [] => True
  | d :: ds => d.WellFormed ∧ ProtoDesc.WellFormedList ds
end

/-- A name stands for one file: two files of the list with one name are equal. -/
def NamesFiles (files : List FileDesc) : Prop :=
  ∀ f ∈ files, ∀ g ∈ files, f.name = g.name → f = g

/-- A file of the list named `a` lists `b` as a dependency. -/
def DependsOn (files : List FileDesc) (a b : String) : Prop :=
  ∃ f ∈ files, f.name = a ∧ b ∈ f.dependency

/-- The dependency relation of the files is acyclic. -/
def Acyclic (files : List FileDesc) : Prop :=
  ∀ a, ¬ Relation.TransGen (DependsOn files) a a

/-- Four files: `a.proto` depends on `b.proto` and `c.proto`, which both depend
on `d.proto`. -/
def sampleFileSet : List FileDesc :=
  [{ name := "a.proto", dependency := ["b.proto", "c.proto"] },
   { name := "b.proto", dependency := ["d.proto"] },
   { name := "c.proto", dependency := ["d.proto"] },
   { name := "d.proto", dependency := [] }]

/-- The tree of `a.proto` with the files of `sampleFileSet`. -/
def sampleTree : ProtoDesc :=
  ProtoDesc.node (some { name := "a.proto", dependency := ["b.proto", "c.proto"] })
    [ProtoDesc.node (some { name := "b.proto", dependency := ["d.proto"] })
       [ProtoDesc.node (some { name := "d.proto", dependency := [] }) []],
     ProtoDesc.node (some { name := "c.proto", dependency := ["d.proto"] })
       [ProtoDesc.node (some { name := "d.proto", dependency := [] }) []]]

/-- A rank of the file names of `sampleFileSet` that falls along every
dependency. -/
def sampleRank (name : String) : Nat :=
  if name = "a.proto" then 3
  else if name = "b.proto" then 2
  else if name = "c.proto" then 2
  else if name = "d.proto" then 1
  else 0

/-- A log of five messages on `/a`, one per second, whose first message has the
log time 0. -/
def zeroStartLog : List (LogMessage × Env) :=
  [({ topic := "/a", logTime := 0, publishTime := 10, data := [0] }, {}),
   ({ topic := "/a", logTime := 1000000000, publishTime := 11, data := [1] }, {}),
   ({ topic := "/a", logTime := 2000000000, publishTime := 12, data := [2] }, {}),
   ({ topic := "/a", logTime := 3000000000, publishTime := 13, data := [3] }, {}),
   ({ topic := "/a", logTime := 4000000000, publishTime := 14, data := [4] }, {})]

/-- Replay at speed 1 with a start offset of 3 s. -/
def threeSecondOffset : Timing := { start_offset_ns := 3000000000, scale := fun x => x }

/-- No tick of the run is a successful attempt on the topic `t`: every tick
reports the list the bridge has stored (and returns at the equality check), or
does not list `t`, or does not resolve the type of `t`. -/
def NoAttemptSucceeds (t : String) : BridgeState → List BusView → Prop
  | _, [] => True
  | b, u :: rest =>
    (u.topics = b.topics ∨ t ∉ u.topics ∨ mssageManage.init_topic u t = none) ∧
      NoAttemptSucceeds t (CyberBridge.discoverTopics b u).1 rest

/-- The bridge after its first tick on the bus with `/a` and `/b`, when a client
has then subscribed to `/a/converted`, a channel of the sink that is no topic
of the bus: `onSubscribe` has made a null entry for it. -/
def subscribedConverted : BridgeState :=
  CyberBridge.onSubscribe (CyberBridge.discoverTopics {} grownView).1 "/a/converted"

/-! # Theorems -/

/-! ## Topic filters -/

theorem mem_setInsert (s : List String) (x y : String) :
    y ∈ setInsert s x ↔ y ∈ s ∨ y = x := by
  unfold setInsert
  split
  · rename_i h
    constructor
    · exact fun hy => Or.inl hy
    · rintro (hy | rfl)
      · exact hy
      · simpa using h
  · simp

theorem mem_setInsertAll (values : List String) (s : List String) (y : String) :
    y ∈ setInsertAll s values ↔ y ∈ s ∨ y ∈ values := by
  unfold setInsertAll
  induction values generalizing s with
  | nil => simp
  | cons v vs ih =>
    rw [List.foldl_cons, ih, mem_setInsert]
    simp only [List.mem_cons]
    tauto

theorem setInsertAll_nil_eq_nil (values : List String) :
    setInsertAll [] values = [] ↔ values = [] := by
  constructor
  · intro h
    cases values with
    | nil => rfl
    | cons v vs =>
      have : v ∈ setInsertAll [] (v :: vs) := (mem_setInsertAll _ _ _).2 (Or.inr (by simp))
      rw [h] at this
      simp at this
  · rintro rfl
    rfl

theorem shouldPlayChannel_eq_true_iff (config_ : PlaybackConfig) (topic : String) :
    McapPlayer.shouldPlayChannel config_ topic = true ↔
      topic ∉ config_.black_channels ∧
        (if config_.white_channels = [] then config_.play_all = true
         else topic ∈ config_.white_channels) := by
  unfold McapPlayer.shouldPlayChannel
  by_cases hb : topic ∈ config_.black_channels
  · simp [hb]
  · by_cases hw : config_.white_channels = []
    · simp [hb, hw]
    · simp [hb, hw, List.isEmpty_iff]

theorem shouldRecordChannel_eq_true_iff (config_ : RecordingConfig) (topic : String) :
    McapRecorder.shouldRecordChannel config_ topic = true ↔
      topic ∉ config_.black_channels ∧
        (if config_.white_channels = [] then config_.record_all = true
         else topic ∈ config_.white_channels) := by
  unfold McapRecorder.shouldRecordChannel
  by_cases hb : topic ∈ config_.black_channels
  · simp [hb]
  · by_cases hw : config_.white_channels = []
    · simp [hb, hw]
    · simp [hb, hw, List.isEmpty_iff]

/-- The allow-list the play command ends up with. -/
theorem playConfigOfArgs_white (a : FilterArgs) :
    (playConfigOfArgs a).white_channels =
      if a.hasWhite then setInsertAll [] a.whiteValues else [] := by
  unfold playConfigOfArgs
  cases a.hasWhite <;> cases a.hasBlack <;> simp <;> split <;> rfl

/-- The deny-list the play command ends up with. -/
theorem playConfigOfArgs_black (a : FilterArgs) :
    (playConfigOfArgs a).black_channels =
      if a.hasBlack then setInsertAll [] a.blackValues else [] := by
  unfold playConfigOfArgs
  cases a.hasWhite <;> cases a.hasBlack <;> simp <;> split <;> rfl

/-- The play command leaves `play_all` set exactly when the allow-list is empty. -/
theorem playConfigOfArgs_play_all (a : FilterArgs) :
    (playConfigOfArgs a).play_all = true ↔ (playConfigOfArgs a).white_channels = [] := by
  unfold playConfigOfArgs
  cases a.hasWhite <;> cases a.hasBlack <;> simp <;> split <;> simp_all [List.isEmpty_iff]

/-! ## Player: writers and the reader loop without stop, pause or offset -/

theorem initializeChannel_writers_subset {F : Type} (ops : FactoryOps F)
    (config_ : PlaybackConfig) (schemas : Nat → Option Schema) (hasNode : Bool)
    (st : F × List String) (channel : Channel) (topic : String)
    (h : topic ∈ (McapPlayer.initializeChannel ops config_ schemas hasNode st channel).2) :
    topic ∈ st.2 ∨
      (McapPlayer.shouldPlayChannel config_ topic = true ∧ channel.topic = topic) := by
  unfold McapPlayer.initializeChannel at h
  by_cases hp : McapPlayer.shouldPlayChannel config_ channel.topic = true
  · simp only [hp, Bool.not_true, Bool.false_eq_true, if_false] at h
    split at h
    · exact Or.inl h
    · split at h
      · exact Or.inl h
      · generalize McapPlayer.ensureRegistered ops st.1 _ = reg at h
        cases hr : reg.2 <;> cases hasNode <;>
          simp only [hr, Bool.not_true, Bool.not_false, Bool.false_eq_true, if_false,
            if_true] at h
        · exact Or.inl h
        · exact Or.inl h
        · exact Or.inl h
        · rcases (mem_setInsert _ _ _).1 h with h | h
          · exact Or.inl h
          · subst h
            exact Or.inr ⟨hp, rfl⟩
  · simp only [hp, Bool.not_false, if_true] at h
    exact Or.inl h

theorem initializeWriters_subset_aux {F : Type} (ops : FactoryOps F)
    (config_ : PlaybackConfig) (schemas : Nat → Option Schema) (hasNode : Bool)
    (channels : List Channel) (st : F × List String) (topic : String)
    (h : topic ∈
      (channels.foldl (McapPlayer.initializeChannel ops config_ schemas hasNode) st).2) :
    topic ∈ st.2 ∨
      (McapPlayer.shouldPlayChannel config_ topic = true ∧
        ∃ ch ∈ channels, ch.topic = topic) := by
  induction channels generalizing st with
  | nil => exact Or.inl h
  | cons c cs ih =>
    rw [List.foldl_cons] at h
    rcases ih _ h with h1 | ⟨hp, ch, hch, ht⟩
    · rcases initializeChannel_writers_subset ops config_ schemas hasNode st c topic h1 with
        h2 | ⟨hp, ht⟩
      · exact Or.inl h2
      · exact Or.inr ⟨hp, c, List.mem_cons_self _ _, ht⟩
    · exact Or.inr ⟨hp, ch, List.mem_cons_of_mem _ hch, ht⟩

theorem initializeChannel_playable {F : Type} (ops : FactoryOps F)
    (config_ : PlaybackConfig) (schemas : Nat → Option Schema) (factory : F)
    (ws : List String) (channel : Channel)
    (h : ∃ sc, schemas channel.schemaId = some sc ∧ sc.encoding = "protobuf" ∧
      ops.FindMessageTypeByName factory sc.name = true) :
    McapPlayer.initializeChannel ops config_ schemas true (factory, ws) channel =
      (factory, if McapPlayer.shouldPlayChannel config_ channel.topic then
        setInsert ws channel.topic else ws) := by
  obtain ⟨sc, hsc, henc, hfind⟩ := h
  unfold McapPlayer.initializeChannel
  by_cases hp : McapPlayer.shouldPlayChannel config_ channel.topic = true
  · simp [hp, hsc, henc, hfind, McapPlayer.ensureRegistered]
  · simp [hp]

theorem initializeWriters_playable_aux {F : Type} (ops : FactoryOps F)
    (config_ : PlaybackConfig) (schemas : Nat → Option Schema) (factory : F)
    (channels : List Channel) (ws : List String) (topic : String)
    (h : Playable ops schemas factory channels) :
    topic ∈ (channels.foldl (McapPlayer.initializeChannel ops config_ schemas true)
        (factory, ws)).2 ↔
      topic ∈ ws ∨ (McapPlayer.shouldPlayChannel config_ topic = true ∧
        ∃ ch ∈ channels, ch.topic = topic) := by
  induction channels generalizing ws with
  | nil => simp
  | cons c cs ih =>
    have hc := h c (List.mem_cons_self _ _)
    have hcs : Playable ops schemas factory cs := fun ch hch => h ch (List.mem_cons_of_mem _ hch)
    rw [List.foldl_cons, initializeChannel_playable ops config_ schemas factory ws c hc, ih _ hcs]
    by_cases hp : McapPlayer.shouldPlayChannel config_ c.topic = true
    · simp only [hp, if_true, mem_setInsert, List.mem_cons, exists_eq_or_imp]
      constructor
      · rintro ((h1 | rfl) | h2)
        · exact Or.inl h1
        · exact Or.inr ⟨hp, Or.inl rfl⟩
        · exact Or.inr ⟨h2.1, Or.inr h2.2⟩
      · rintro (h1 | ⟨h2, h3 | h3⟩)
        · exact Or.inl (Or.inl h1)
        · exact Or.inl (Or.inr h3.symm)
        · exact Or.inr ⟨h2, h3⟩
    · simp only [hp, Bool.false_eq_true, if_false, List.mem_cons, exists_eq_or_imp]
      constructor
      · rintro (h1 | h2)
        · exact Or.inl h1
        · exact Or.inr ⟨h2.1, Or.inr h2.2⟩
      · rintro (h1 | ⟨h2, h3 | h3⟩)
        · exact Or.inl h1
        · rw [h3] at hp
          exact absurd h2 hp
        · exact Or.inr ⟨h2, h3⟩

@[simp] theorem advance_published (st : ReaderState) (d : Nat) :
    (st.advance d).published = st.published := rfl

@[simp] theorem advance_first (st : ReaderState) (d : Nat) :
    (st.advance d).first_message_time = st.first_message_time := rfl

@[simp] theorem advance_controls (st : ReaderState) (d : Nat) :
    (st.advance d).controls = st.controls := rfl

@[simp] theorem advance_stopped (st : ReaderState) (d : Nat) :
    (st.advance d).stopped = st.stopped := rfl

@[simp] theorem advance_offset_applied (st : ReaderState) (d : Nat) :
    (st.advance d).offset_applied = st.offset_applied := rfl

@[simp] theorem advance_now (st : ReaderState) (d : Nat) :
    (st.advance d).now = st.now + d := rfl

theorem pauseLoop_not_paused (c : Controls) (now start : Nat) (script : List (List Char))
    (h : c.paused = false) :
    McapPlayer.pauseLoop c now start script = ⟨c, now, start, false, false⟩ := by
  cases script <;> simp [McapPlayer.pauseLoop, h]

theorem publishRound_published (t : Timing) (st : ReaderState) (message : LogMessage)
    (rel : Nat) (e : Env) :
    ∃ p, (McapPlayer.publishRound t st message rel e).published = st.published ++ [p] ∧
      p.content = message ∧
      p.target = McapPlayer.targetPlaybackTime t st.playback_start_time rel :=
  ⟨_, rfl, rfl, rfl⟩

theorem publishRound_first (t : Timing) (st : ReaderState) (message : LogMessage)
    (rel : Nat) (e : Env) :
    (McapPlayer.publishRound t st message rel e).first_message_time = st.first_message_time :=
  rfl

theorem applyOffset_published (t : Timing) (st : ReaderState) :
    (McapPlayer.applyOffset t st).published = st.published := by
  unfold McapPlayer.applyOffset
  split <;> rfl

theorem applyOffset_first (t : Timing) (st : ReaderState) :
    (McapPlayer.applyOffset t st).first_message_time = st.first_message_time := by
  unfold McapPlayer.applyOffset
  split <;> rfl

theorem applyOffset_controls (t : Timing) (st : ReaderState) :
    (McapPlayer.applyOffset t st).controls = st.controls := by
  unfold McapPlayer.applyOffset
  split <;> rfl

theorem captureFirst_published (st : ReaderState) (message : LogMessage) :
    (McapPlayer.captureFirst st message).published = st.published := by
  unfold McapPlayer.captureFirst
  split <;> rfl

theorem captureFirst_controls (st : ReaderState) (message : LogMessage) :
    (McapPlayer.captureFirst st message).controls = st.controls := by
  unfold McapPlayer.captureFirst
  split <;> rfl

theorem captureFirst_stopped (st : ReaderState) (message : LogMessage) :
    (McapPlayer.captureFirst st message).stopped = st.stopped := by
  unfold McapPlayer.captureFirst
  split <;> rfl

theorem publishRound_quiet (t : Timing) (st : ReaderState) (message : LogMessage)
    (rel : Nat) (e : Env) (hp : st.controls.paused = false) (hq : e.quiet = true) :
    (McapPlayer.publishRound t st message rel e).controls.paused = false ∧
      (McapPlayer.publishRound t st message rel e).stopped = false := by
  simp only [Env.quiet, Bool.and_eq_true, Bool.not_eq_true', List.isEmpty_iff] at hq
  obtain ⟨⟨_, hkb⟩, hkw⟩ := hq
  simp [McapPlayer.publishRound, hkb, hkw, pauseLoop_not_paused, hp]

theorem readerBody_not_writer (writers_ : List String) (t : Timing) (st : ReaderState)
    (message : LogMessage) (e : Env) (hw : message.topic ∉ writers_) :
    McapPlayer.readerBody writers_ t st message e = st := by
  simp [McapPlayer.readerBody, hw]

theorem readerBody_skip (writers_ : List String) (t : Timing) (st : ReaderState)
    (message : LogMessage) (e : Env) (hw : message.topic ∈ writers_)
    (h : 0 < t.start_offset_ns ∧
      u64sub message.logTime (McapPlayer.captureFirst st message).first_message_time <
        t.start_offset_ns) :
    McapPlayer.readerBody writers_ t st message e = McapPlayer.captureFirst st message := by
  simp [McapPlayer.readerBody, hw, h]

theorem readerBody_publish (writers_ : List String) (t : Timing) (st : ReaderState)
    (message : LogMessage) (e : Env) (hw : message.topic ∈ writers_)
    (h : ¬ (0 < t.start_offset_ns ∧
      u64sub message.logTime (McapPlayer.captureFirst st message).first_message_time <
        t.start_offset_ns)) :
    McapPlayer.readerBody writers_ t st message e =
      McapPlayer.publishRound t (McapPlayer.applyOffset t (McapPlayer.captureFirst st message))
        message (u64sub message.logTime (McapPlayer.captureFirst st message).first_message_time)
        e := by
  simp only [McapPlayer.readerBody]
  rw [if_neg (by simpa using hw), if_neg h]

theorem readerBody_quiet (writers_ : List String) (t : Timing) (st : ReaderState)
    (message : LogMessage) (e : Env) (hoff : t.start_offset_ns = 0)
    (hp : st.controls.paused = false) (hs : st.stopped = false) (hq : e.quiet = true) :
    (McapPlayer.readerBody writers_ t st message e).published.map Publication.content =
        st.published.map Publication.content ++
          (if writers_.contains message.topic then [message] else []) ∧
      (McapPlayer.readerBody writers_ t st message e).controls.paused = false ∧
      (McapPlayer.readerBody writers_ t st message e).stopped = false := by
  by_cases hw : message.topic ∈ writers_
  · have hnoskip : ¬ (0 < t.start_offset_ns ∧
        u64sub message.logTime (McapPlayer.captureFirst st message).first_message_time <
          t.start_offset_ns) := by
      rw [hoff]
      exact fun h => absurd h.1 (Nat.lt_irrefl 0)
    rw [readerBody_publish writers_ t st message e hw hnoskip]
    obtain ⟨p, hpub, hcontent, _⟩ := publishRound_published t
      (McapPlayer.applyOffset t (McapPlayer.captureFirst st message)) message
      (u64sub message.logTime (McapPlayer.captureFirst st message).first_message_time) e
    have hp2 : (McapPlayer.applyOffset t (McapPlayer.captureFirst st message)).controls.paused =
        false := by
      rw [applyOffset_controls, captureFirst_controls]
      exact hp
    refine ⟨?_, publishRound_quiet t _ message _ e hp2 hq⟩
    rw [hpub, applyOffset_published, captureFirst_published]
    rw [if_pos (by simpa using hw)]
    simp only [List.map_append, List.map_cons, List.map_nil, hcontent]
  · rw [readerBody_not_writer writers_ t st message e hw, if_neg (by simpa using hw)]
    simp [hp, hs]

theorem readerLoopFrom_cons_go (writers_ : List String) (t : Timing) (st : ReaderState)
    (message : LogMessage) (e : Env) (rest : List (LogMessage × Env))
    (h1 : e.stop = false) (h2 : st.stopped = false) :
    McapPlayer.readerLoopFrom writers_ t st ((message, e) :: rest) =
      McapPlayer.readerLoopFrom writers_ t
        (McapPlayer.readerBody writers_ t (st.advance e.elapsed) message e)
        rest := by
  simp [McapPlayer.readerLoopFrom, h1, h2]

theorem readerLoopFrom_stopped (writers_ : List String) (t : Timing) (st : ReaderState)
    (log : List (LogMessage × Env)) (h : st.stopped = true) :
    McapPlayer.readerLoopFrom writers_ t st log = st := by
  cases log with
  | nil => rfl
  | cons x xs =>
    obtain ⟨message, e⟩ := x
    simp [McapPlayer.readerLoopFrom, h]

theorem readerLoopFrom_cons_stop (writers_ : List String) (t : Timing) (st : ReaderState)
    (message : LogMessage) (e : Env) (rest : List (LogMessage × Env))
    (h1 : e.stop = true) (h2 : st.stopped = false) :
    McapPlayer.readerLoopFrom writers_ t st ((message, e) :: rest) =
      { st.advance e.elapsed with stopped := true } := by
  simp [McapPlayer.readerLoopFrom, h1, h2]

/-- The three ways a round of the reader loop can go. -/
theorem readerLoopFrom_cons_cases (writers_ : List String) (t : Timing) (st : ReaderState)
    (message : LogMessage) (e : Env) (rest : List (LogMessage × Env)) :
    (st.stopped = true ∧ McapPlayer.readerLoopFrom writers_ t st ((message, e) :: rest) = st) ∨
    (st.stopped = false ∧ e.stop = true ∧
      McapPlayer.readerLoopFrom writers_ t st ((message, e) :: rest) =
        { st.advance e.elapsed with stopped := true }) ∨
    (st.stopped = false ∧ e.stop = false ∧
      McapPlayer.readerLoopFrom writers_ t st ((message, e) :: rest) =
        McapPlayer.readerLoopFrom writers_ t
          (McapPlayer.readerBody writers_ t (st.advance e.elapsed) message e)
          rest) := by
  rcases Bool.eq_false_or_eq_true st.stopped with h2 | h2
  · exact Or.inl ⟨h2, readerLoopFrom_stopped writers_ t st _ h2⟩
  · rcases Bool.eq_false_or_eq_true e.stop with h1 | h1
    · exact Or.inr (Or.inl ⟨h2, h1, readerLoopFrom_cons_stop writers_ t st message e rest h1 h2⟩)
    · exact Or.inr (Or.inr ⟨h2, h1, readerLoopFrom_cons_go writers_ t st message e rest h1 h2⟩)

theorem readerLoopFrom_quiet (writers_ : List String) (t : Timing)
    (log : List (LogMessage × Env)) (st : ReaderState) (hoff : t.start_offset_ns = 0)
    (hp : st.controls.paused = false) (hs : st.stopped = false)
    (hq : ∀ x ∈ log, x.2.quiet = true) :
    (McapPlayer.readerLoopFrom writers_ t st log).published.map Publication.content =
      st.published.map Publication.content ++
        (log.map Prod.fst).filter (fun m => writers_.contains m.topic) := by
  induction log generalizing st with
  | nil => simp [McapPlayer.readerLoopFrom]
  | cons x xs ih =>
    obtain ⟨message, e⟩ := x
    have hqe : e.quiet = true := hq (message, e) (List.mem_cons_self _ _)
    have hstop : e.stop = false := by
      simp only [Env.quiet, Bool.and_eq_true, Bool.not_eq_true'] at hqe
      exact hqe.1.1
    obtain ⟨hb1, hb2, hb3⟩ := readerBody_quiet writers_ t
      (st.advance e.elapsed) message e hoff hp hs hqe
    rw [readerLoopFrom_cons_go writers_ t st message e xs hstop hs,
      ih _ hb2 hb3 (fun y hy => hq y (List.mem_cons_of_mem _ hy)), hb1]
    by_cases hw : message.topic ∈ writers_
    · simp [hw, List.filter_cons]
    · simp [hw, List.filter_cons]

theorem readerBody_published_topic (writers_ : List String) (t : Timing) (st : ReaderState)
    (message : LogMessage) (e : Env) (p : Publication)
    (h : p ∈ (McapPlayer.readerBody writers_ t st message e).published) :
    p ∈ st.published ∨ p.topic ∈ writers_ := by
  by_cases hw : message.topic ∈ writers_
  · by_cases hskip : 0 < t.start_offset_ns ∧
        u64sub message.logTime (McapPlayer.captureFirst st message).first_message_time <
          t.start_offset_ns
    · rw [readerBody_skip writers_ t st message e hw hskip, captureFirst_published] at h
      exact Or.inl h
    · rw [readerBody_publish writers_ t st message e hw hskip] at h
      obtain ⟨q, hq, hcontent, _⟩ := publishRound_published t
        (McapPlayer.applyOffset t (McapPlayer.captureFirst st message)) message
        (u64sub message.logTime (McapPlayer.captureFirst st message).first_message_time) e
      rw [hq, applyOffset_published, captureFirst_published, List.mem_append,
        List.mem_singleton] at h
      rcases h with h | h
      · exact Or.inl h
      · right
        have : p.topic = message.topic := by
          have h3 : p.content.topic = message.topic := by rw [h, hcontent]
          exact h3
        rw [this]
        exact hw
  · rw [readerBody_not_writer writers_ t st message e hw] at h
    exact Or.inl h

theorem readerLoopFrom_published_topic (writers_ : List String) (t : Timing)
    (log : List (LogMessage × Env)) (st : ReaderState) (p : Publication)
    (h : p ∈ (McapPlayer.readerLoopFrom writers_ t st log).published) :
    p ∈ st.published ∨ p.topic ∈ writers_ := by
  induction log generalizing st with
  | nil => exact Or.inl h
  | cons x xs ih =>
    obtain ⟨message, e⟩ := x
    rcases readerLoopFrom_cons_cases writers_ t st message e xs with
      ⟨_, hr⟩ | ⟨_, _, hr⟩ | ⟨_, _, hr⟩
    · rw [hr] at h
      exact Or.inl h
    · rw [hr] at h
      exact Or.inl h
    · rw [hr] at h
      rcases ih _ h with h | h
      · exact readerBody_published_topic writers_ t
          (st.advance e.elapsed) message e p h
      · exact Or.inr h

/-- What the play command's filter amounts to, in the words of the allow-list
and the deny-list given on the command line. -/
theorem shouldPlayChannel_playConfigOfArgs (a : FilterArgs) (topic : String) :
    McapPlayer.shouldPlayChannel (playConfigOfArgs a) topic = true ↔
      ((if a.hasWhite then a.whiteValues else []) = [] ∨
          topic ∈ (if a.hasWhite then a.whiteValues else [])) ∧
        topic ∉ (if a.hasBlack then a.blackValues else []) := by
  rw [shouldPlayChannel_eq_true_iff, playConfigOfArgs_play_all, playConfigOfArgs_white,
    playConfigOfArgs_black]
  have hA : ∀ x, x ∈ (if a.hasWhite then setInsertAll [] a.whiteValues else []) ↔
      x ∈ (if a.hasWhite then a.whiteValues else []) := by
    intro x
    cases a.hasWhite <;> simp [mem_setInsertAll]
  have hD : ∀ x, x ∈ (if a.hasBlack then setInsertAll [] a.blackValues else []) ↔
      x ∈ (if a.hasBlack then a.blackValues else []) := by
    intro x
    cases a.hasBlack <;> simp [mem_setInsertAll]
  have hE : (if a.hasWhite then setInsertAll [] a.whiteValues else []) = [] ↔
      (if a.hasWhite then a.whiteValues else []) = [] := by
    cases a.hasWhite <;> simp [setInsertAll_nil_eq_nil]
  rw [hD]
  by_cases hw : (if a.hasWhite then setInsertAll [] a.whiteValues else []) = []
  · have hw2 := hE.1 hw
    rw [if_pos hw]
    constructor
    · exact fun h => ⟨Or.inl hw2, h.1⟩
    · exact fun h => ⟨h.2, hw⟩
  · have hw2 : ¬ (if a.hasWhite then a.whiteValues else []) = [] := fun h => hw (hE.2 h)
    rw [if_neg hw, hA]
    constructor
    · exact fun h => ⟨Or.inr h.2, h.1⟩
    · rintro ⟨h1 | h1, h2⟩
      · exact absurd h1 hw2
      · exact ⟨h2, h1⟩

/-! ## C1, C2, C8, C9 -/

/-- C1: for a playback configuration built by the play command from the
allow-list `A` and the deny-list `D` of the command line, `play_all` is set
exactly when the allow-list is empty and `shouldPlayChannel topic` holds if
and only if `topic` is in (`A` if `A` is non-empty, else every topic) minus
`D`. A writer is created only for topics of that set, and for exactly the
channel topics of that set when every channel of the file has a protobuf
schema of a known type; the reader loop publishes only on topics that have a
writer, and in a run without stop request, pause or start offset it publishes
exactly the messages of the log whose topic is in the set. -/
theorem C1_play_filter_allow_minus_deny (a : FilterArgs) (topic : String) :
    ((playConfigOfArgs a).play_all = true ↔ (playConfigOfArgs a).white_channels = []) ∧
    (McapPlayer.shouldPlayChannel (playConfigOfArgs a) topic = true ↔
      ((if a.hasWhite then a.whiteValues else []) = [] ∨
          topic ∈ (if a.hasWhite then a.whiteValues else [])) ∧
        topic ∉ (if a.hasBlack then a.blackValues else [])) ∧
    (∀ (F : Type) (ops : FactoryOps F) (schemas : Nat → Option Schema) (hasNode : Bool)
        (factory : F) (channels : List Channel),
      topic ∈ (McapPlayer.initializeWriters ops (playConfigOfArgs a) schemas hasNode factory
          channels).2 →
        McapPlayer.shouldPlayChannel (playConfigOfArgs a) topic = true ∧
          ∃ ch ∈ channels, ch.topic = topic) ∧
    (∀ (F : Type) (ops : FactoryOps F) (schemas : Nat → Option Schema) (factory : F)
        (channels : List Channel), Playable ops schemas factory channels →
      (topic ∈ (McapPlayer.initializeWriters ops (playConfigOfArgs a) schemas true factory
          channels).2 ↔
        McapPlayer.shouldPlayChannel (playConfigOfArgs a) topic = true ∧
          ∃ ch ∈ channels, ch.topic = topic)) ∧
    (∀ (writers_ : List String) (t : Timing) (controls : Controls) (now : Nat)
        (log : List (LogMessage × Env)),
      ∀ p ∈ (McapPlayer.readerLoop writers_ t controls now log).published,
        p.topic ∈ writers_) ∧
    (∀ (F : Type) (ops : FactoryOps F) (schemas : Nat → Option Schema) (factory : F)
        (channels : List Channel) (t : Timing) (controls : Controls) (now : Nat)
        (log : List (LogMessage × Env)),
      Playable ops schemas factory channels →
      (∀ x ∈ log, ∃ ch ∈ channels, ch.topic = x.1.topic) →
      t.start_offset_ns = 0 → controls.paused = false → (∀ x ∈ log, x.2.quiet = true) →
      (McapPlayer.readerLoop
          (McapPlayer.initializeWriters ops (playConfigOfArgs a) schemas true factory channels).2
          t controls now log).published.map Publication.content =
        (log.map Prod.fst).filter
          (fun m => McapPlayer.shouldPlayChannel (playConfigOfArgs a) m.topic)) := by
  refine ⟨playConfigOfArgs_play_all a, shouldPlayChannel_playConfigOfArgs a topic, ?_, ?_, ?_, ?_⟩
  · intro F ops schemas hasNode factory channels h
    rcases initializeWriters_subset_aux ops _ schemas hasNode channels (factory, []) topic h with
      h | h
    · simp at h
    · exact h
  · intro F ops schemas factory channels hplay
    unfold McapPlayer.initializeWriters
    rw [initializeWriters_playable_aux ops _ schemas factory channels [] topic hplay]
    simp
  · intro writers_ t controls now log p hp
    rcases readerLoopFrom_published_topic writers_ t log _ p hp with h | h
    · simp at h
    · exact h
  · intro F ops schemas factory channels t controls now log hplay hch hoff hpaused hquiet
    unfold McapPlayer.readerLoop
    rw [readerLoopFrom_quiet _ t log _ hoff hpaused rfl hquiet]
    simp only [List.map_nil, List.nil_append]
    apply List.filter_congr
    intro m hm
    obtain ⟨x, hx, rfl⟩ := List.mem_map.1 hm
    have hiff := initializeWriters_playable_aux ops (playConfigOfArgs a) schemas factory channels
      [] x.1.topic hplay
    unfold McapPlayer.initializeWriters
    by_cases hs : McapPlayer.shouldPlayChannel (playConfigOfArgs a) x.1.topic = true
    · rw [hs]
      simpa using hiff.2 (Or.inr ⟨hs, hch x hx⟩)
    · have : x.1.topic ∉ (channels.foldl
          (McapPlayer.initializeChannel ops (playConfigOfArgs a) schemas true) (factory, [])).2 := by
        intro hmem
        rcases hiff.1 hmem with h | h
        · simp at h
        · exact hs h.1
      simp only [Bool.not_eq_true] at hs
      rw [hs]
      simpa using this

/-- C2: in a run with start offset 0, without stop request and without pause,
on a log all of whose messages are on topics that have a writer, the reader
loop publishes the messages of the log one for one and in order: each
publication has the topic, the payload bytes and, as time stamp, the publish
time of the log message at its place. So as many messages are published as
the log holds, and when the log is in non-decreasing log-time order the
publications are too. -/
theorem C2_replay_identity (writers_ : List String) (t : Timing) (controls : Controls)
    (now : Nat) (log : List (LogMessage × Env))
    (hwriters : ∀ x ∈ log, x.1.topic ∈ writers_)
    (hoff : t.start_offset_ns = 0) (hpaused : controls.paused = false)
    (hquiet : ∀ x ∈ log, x.2.quiet = true) :
    (McapPlayer.readerLoop writers_ t controls now log).published.map
        (fun p => (p.topic, p.msg.message, p.msg.timestamp)) =
      log.map (fun x => (x.1.topic, x.1.data, x.1.publishTime)) ∧
    (McapPlayer.readerLoop writers_ t controls now log).published.map Publication.content =
      log.map Prod.fst ∧
    (McapPlayer.readerLoop writers_ t controls now log).published.length = log.length ∧
    ((log.map (fun x => x.1.logTime)).Pairwise (fun x y => x ≤ y) →
      ((McapPlayer.readerLoop writers_ t controls now log).published.map
        (fun p => p.logTime)).Pairwise (fun x y => x ≤ y)) := by
  have hcontent : (McapPlayer.readerLoop writers_ t controls now log).published.map
      Publication.content = log.map Prod.fst := by
    unfold McapPlayer.readerLoop
    rw [readerLoopFrom_quiet writers_ t log _ hoff hpaused rfl hquiet]
    simp only [List.map_nil, List.nil_append]
    rw [List.filter_eq_self]
    intro m hm
    obtain ⟨x, hx, rfl⟩ := List.mem_map.1 hm
    simpa using hwriters x hx
  have hlen : (McapPlayer.readerLoop writers_ t controls now log).published.length =
      log.length := by
    have := congrArg List.length hcontent
    simpa using this
  refine ⟨?_, hcontent, hlen, ?_⟩
  · have := congrArg (List.map (fun m : LogMessage => (m.topic, m.data, m.publishTime))) hcontent
    simpa [List.map_map, Function.comp_def, Publication.content] using this
  · intro hsorted
    have := congrArg (List.map (fun m : LogMessage => m.logTime)) hcontent
    simp only [List.map_map, Function.comp_def, Publication.content] at this
    rw [this]
    exact hsorted

/-- Witness of C1: `play -c /a /b -k /b` on a file with the channels `/a`
and `/b` accepts `/a`, and publishes the two messages on `/a`. -/
theorem C1_play_filter_allow_minus_deny_witness :
    McapPlayer.shouldPlayChannel
        (playConfigOfArgs
          { hasWhite := true, whiteValues := ["/a", "/b"], hasBlack := true,
            blackValues := ["/b"] }) "/a" = true ∧
      (McapPlayer.readerLoop
          (McapPlayer.initializeWriters knowingFactory
            (playConfigOfArgs
              { hasWhite := true, whiteValues := ["/a", "/b"], hasBlack := true,
                blackValues := ["/b"] })
            (fun _ => some { name := "T", encoding := "protobuf", data := "d" }) true ()
            [{ topic := "/a", schemaId := 1 }, { topic := "/b", schemaId := 1 }]).2
          unitTiming {} 5000 sampleLog).published.map Publication.content =
        (sampleLog.map Prod.fst).filter
          (fun m => McapPlayer.shouldPlayChannel
            (playConfigOfArgs
              { hasWhite := true, whiteValues := ["/a", "/b"], hasBlack := true,
                blackValues := ["/b"] }) m.topic) :=
  ⟨(C1_play_filter_allow_minus_deny _ "/a").2.1.2 (by decide),
   (C1_play_filter_allow_minus_deny
      { hasWhite := true, whiteValues := ["/a", "/b"], hasBlack := true,
        blackValues := ["/b"] } "/a").2.2.2.2.2 Unit knowingFactory
      (fun _ => some { name := "T", encoding := "protobuf", data := "d" }) ()
      [{ topic := "/a", schemaId := 1 }, { topic := "/b", schemaId := 1 }]
      unitTiming {} 5000 sampleLog
      (by intro ch _; exact ⟨_, rfl, rfl, rfl⟩)
      (by decide) rfl rfl (by decide)⟩

/-- Witness of C2: the three messages of the sample log are published one for
one when both topics have a writer. -/
theorem C2_replay_identity_witness :
    (McapPlayer.readerLoop ["/a", "/b"] unitTiming {} 5000 sampleLog).published.map
        (fun p => (p.topic, p.msg.message, p.msg.timestamp)) =
      [("/a", [1, 2], 900), ("/b", [3], 1900), ("/a", [], 2900)] :=
  (C2_replay_identity ["/a", "/b"] unitTiming {} 5000 sampleLog (by decide) rfl rfl
    (by decide)).1

/-- C8: a topic of the deny-list is rejected by `shouldRecordChannel` and by
`shouldPlayChannel`, whatever the allow-list and the flags `record_all` and
`play_all` are, also when the topic is in the allow-list. -/
theorem C8_deny_list_wins (rc : RecordingConfig) (pc : PlaybackConfig) (topic : String) :
    (topic ∈ rc.black_channels → McapRecorder.shouldRecordChannel rc topic = false) ∧
    (topic ∈ pc.black_channels → McapPlayer.shouldPlayChannel pc topic = false) := by
  constructor
  · intro h
    simp [McapRecorder.shouldRecordChannel, h]
  · intro h
    simp [McapPlayer.shouldPlayChannel, h]

/-- Witness of C8: `/a` is on both lists and is rejected by both filters. -/
theorem C8_deny_list_wins_witness :
    McapRecorder.shouldRecordChannel
        { white_channels := ["/a"], black_channels := ["/a"], record_all := true } "/a" = false ∧
      McapPlayer.shouldPlayChannel
        { white_channels := ["/a"], black_channels := ["/a"], play_all := true } "/a" = false :=
  ⟨(C8_deny_list_wins { white_channels := ["/a"], black_channels := ["/a"], record_all := true }
      {} "/a").1 (by decide),
   (C8_deny_list_wins {} { white_channels := ["/a"], black_channels := ["/a"], play_all := true }
      "/a").2 (by decide)⟩

/-- C9: filtering is idempotent. Keeping the topics (or the messages, by their
topic) that `shouldPlayChannel` or `shouldRecordChannel` accepts and filtering
the result again under the same configuration gives the list of the first
pass, for every allow-list, deny-list and value of the flag. -/
theorem C9_filter_idempotent (rc : RecordingConfig) (pc : PlaybackConfig)
    (topics : List String) (messages : List LogMessage) :
    (topics.filter (McapPlayer.shouldPlayChannel pc)).filter (McapPlayer.shouldPlayChannel pc) =
        topics.filter (McapPlayer.shouldPlayChannel pc) ∧
    (topics.filter (McapRecorder.shouldRecordChannel rc)).filter
        (McapRecorder.shouldRecordChannel rc) =
        topics.filter (McapRecorder.shouldRecordChannel rc) ∧
    (messages.filter (fun m => McapPlayer.shouldPlayChannel pc m.topic)).filter
        (fun m => McapPlayer.shouldPlayChannel pc m.topic) =
        messages.filter (fun m => McapPlayer.shouldPlayChannel pc m.topic) ∧
    (messages.filter (fun m => McapRecorder.shouldRecordChannel rc m.topic)).filter
        (fun m => McapRecorder.shouldRecordChannel rc m.topic) =
        messages.filter (fun m => McapRecorder.shouldRecordChannel rc m.topic) := by
  refine ⟨?_, ?_, ?_, ?_⟩ <;> simp [List.filter_filter]

/-! ## Recorder: the message queue (C3, C4) -/

theorem onMessage_running (st : RecorderState) (topic : String) (msg : RawMessage)
    (h : st.running = true) :
    (McapRecorder.onMessage st topic msg).running = true ∧
      (McapRecorder.onMessage st topic msg).message_queue =
        st.message_queue ++ [{ topic := topic, msg := some msg }] := by
  unfold McapRecorder.onMessage
  simp [h]

theorem onMessages_running (calls : List (String × RawMessage)) (st : RecorderState)
    (h : st.running = true) :
    (McapRecorder.onMessages st calls).running = true ∧
      (McapRecorder.onMessages st calls).message_queue =
        st.message_queue ++ calls.map (fun c => { topic := c.1, msg := some c.2 }) := by
  induction calls generalizing st with
  | nil => simp [McapRecorder.onMessages, h]
  | cons c cs ih =>
    obtain ⟨h1, h2⟩ := onMessage_running st c.1 c.2 h
    have := ih (McapRecorder.onMessage st c.1 c.2) h1
    simp only [McapRecorder.onMessages, List.foldl_cons] at this ⊢
    rw [this.1, this.2, h2]
    simp

/-- C3, as the code has it: the queue of the recorder has no capacity. While
the recorder runs, every call of `onMessage` puts the incoming message at the
back of the queue and removes nothing, so after any sequence of calls the
queue holds what it held before followed by all delivered messages in order,
and its length has grown by the number of calls. -/
theorem C3_onMessage_appends (st : RecorderState) (calls : List (String × RawMessage))
    (h : st.running = true) :
    (McapRecorder.onMessages st calls).message_queue =
        st.message_queue ++ calls.map (fun c => { topic := c.1, msg := some c.2 }) ∧
      (McapRecorder.onMessages st calls).message_queue.length =
        st.message_queue.length + calls.length := by
  obtain ⟨_, h2⟩ := onMessages_running calls st h
  rw [h2]
  simp

/-- Witness of C3: two deliveries on `/a` to a running recorder that already
holds one message leave three messages in the queue, the old one first. -/
theorem C3_onMessage_appends_witness :
    (McapRecorder.onMessages
        { running := true,
          message_queue := [{ topic := "/a", msg := some { message := [0], timestamp := 6 } }] }
        [("/a", { message := [1], timestamp := 7 }),
         ("/a", { message := [2], timestamp := 8 })]).message_queue =
      [{ topic := "/a", msg := some { message := [0], timestamp := 6 } },
       { topic := "/a", msg := some { message := [1], timestamp := 7 } },
       { topic := "/a", msg := some { message := [2], timestamp := 8 } }] :=
  (C3_onMessage_appends
    { running := true,
      message_queue := [{ topic := "/a", msg := some { message := [0], timestamp := 6 } }] }
    [("/a", { message := [1], timestamp := 7 }),
     ("/a", { message := [2], timestamp := 8 })] rfl).1

/-- C3 fails as stated: no capacity bounds the queue. For every `N`, `N + 1`
deliveries of a one-byte message on the topic `/a` to a running recorder with
an empty queue leave `N + 1` messages in the queue; none is dropped and there
is no drop counter. -/
theorem C3_queue_not_bounded :
    ¬ ∃ N : Nat, ∀ calls : List (String × RawMessage),
      (McapRecorder.onMessages { running := true } calls).message_queue.length ≤ N := by
  rintro ⟨N, hN⟩
  have h := hN (List.replicate (N + 1) ("/a", { message := [1], timestamp := 1 }))
  obtain ⟨_, h2⟩ := onMessages_running
    (List.replicate (N + 1) ("/a", { message := [1], timestamp := 1 })) { running := true } rfl
  rw [h2] at h
  simp at h

theorem writerLoop_drain {σ : Type} (write : MessageItem → σ → σ) (q : List MessageItem)
    (st : RecorderState) (file : σ) (fuel : Nat)
    (hrun : st.running = false) (hq : st.message_queue = q) (hfuel : q.length ≤ fuel) :
    ∃ r, McapRecorder.writerLoop write fuel (st, file) = some r ∧
      r.2 = q.foldl (fun f m => write m f) file ∧
      r.1.message_queue = [] ∧ r.1.running = false ∧ r.1.stopped = st.stopped ∧
      r.1.total_messages = st.total_messages + q.length := by
  induction q generalizing st file fuel with
  | nil =>
    refine ⟨(st, file), ?_, rfl, hq, hrun, rfl, rfl⟩
    unfold McapRecorder.writerLoop
    simp [hrun, hq]
  | cons m ms ih =>
    cases fuel with
    | zero => simp at hfuel
    | succ n =>
      have hlen : ms.length ≤ n := by simpa using hfuel
      obtain ⟨r, hr, h1, h2, h3, h4, h5⟩ := ih
        (McapRecorder.writerRound write (st, file)).1 (write m file) n
        (by simp [McapRecorder.writerRound, hq, hrun])
        (by simp [McapRecorder.writerRound, hq]) hlen
      refine ⟨r, ?_, ?_, h2, h3, ?_, ?_⟩
      · rw [McapRecorder.writerLoop]
        have hround : McapRecorder.writerRound write (st, file) =
            ((McapRecorder.writerRound write (st, file)).1, write m file) := by
          simp [McapRecorder.writerRound, hq]
        simp only [hrun, hq, List.isEmpty_cons, Bool.not_false, Bool.or_true, if_true]
        rw [hround]
        exact hr
      · rw [h1]
        rfl
      · rw [h4]
        simp [McapRecorder.writerRound, hq]
      · rw [h5]
        simp [McapRecorder.writerRound, hq]
        omega

/-- C4: when `stop` clears the running flag of a running recorder whose queue
holds `q`, the writer loop ends (fuel for one round per queued message is
enough) after having handed the messages of `q` to `writeMessageToMcap` one
by one in the order of the queue; the writer is closed after that, on the
state the last write left, and the queue is empty at the end. -/
theorem C4_stop_drains_queue {σ : Type} (write : MessageItem → σ → σ) (closeWriter : σ → σ)
    (st : RecorderState) (file : σ) (fuel : Nat)
    (hrun : st.running = true) (hfuel : st.message_queue.length ≤ fuel) :
    (∃ w, McapRecorder.writerLoop write fuel
          ({ st with running := false, stopped := true }, file) = some w ∧
        w.2 = st.message_queue.foldl (fun f m => write m f) file ∧
        w.1.message_queue = []) ∧
    (∃ r, McapRecorder.stop write closeWriter fuel (st, file) = some r ∧
        r.2 = closeWriter (st.message_queue.foldl (fun f m => write m f) file) ∧
        r.1.message_queue = [] ∧ r.1.running = false ∧ r.1.stopped = true ∧
        r.1.total_messages = st.total_messages + st.message_queue.length) := by
  obtain ⟨w, hw, h1, h2, h3, h4, h5⟩ := writerLoop_drain write st.message_queue
    { st with running := false, stopped := true } file fuel rfl rfl hfuel
  refine ⟨⟨w, hw, h1, h2⟩, McapRecorder.cleanup closeWriter w, ?_, ?_, rfl, ?_, ?_, ?_⟩
  · simp only [McapRecorder.stop, hrun, Bool.not_true, Bool.false_eq_true, if_false]
    rw [hw]
  · simp [McapRecorder.cleanup, h1]
  · simpa [McapRecorder.cleanup] using h3
  · simpa [McapRecorder.cleanup] using h4
  · simpa [McapRecorder.cleanup] using h5

/-- Witness of C4: with the written messages collected in a list and the
close marked by an empty message on the topic `closed`, stopping a recorder
that holds two messages writes the two in order and closes after them. -/
theorem C4_stop_drains_queue_witness :
    ∃ r, McapRecorder.stop (fun m (tr : List MessageItem) => tr ++ [m])
        (fun tr => tr ++ [{ topic := "closed", msg := none }]) 2
        ({ running := true,
           message_queue :=
             [{ topic := "/a", msg := some { message := [1], timestamp := 7 } },
              { topic := "/b", msg := some { message := [2], timestamp := 8 } }] },
         []) = some r ∧
      r.2 = [{ topic := "/a", msg := some { message := [1], timestamp := 7 } },
             { topic := "/b", msg := some { message := [2], timestamp := 8 } },
             { topic := "closed", msg := none }] ∧
      r.1.message_queue = [] ∧ r.1.running = false := by
  obtain ⟨r, h1, h2, h3, h4, _⟩ := (C4_stop_drains_queue
    (fun m (tr : List MessageItem) => tr ++ [m])
    (fun tr => tr ++ [{ topic := "closed", msg := none }])
    { running := true,
      message_queue :=
        [{ topic := "/a", msg := some { message := [1], timestamp := 7 } },
         { topic := "/b", msg := some { message := [2], timestamp := 8 } }] }
    [] 2 rfl (by decide)).2
  exact ⟨r, h1, h2, h3, h4⟩

/-! ## Live bridge: subscriber counting (C5) -/

/-- C5 at the failing input: after one subscribe on the channel the count is 1
and the reader of `/a` is attached; the unsubscribe that follows brings the
count back to 0 but leaves the reader attached, because the callback compares
the count it had before the decrement (1) with 0 and returns. Only a further
unsubscribe (count -1) detaches the reader. -/
theorem C5_unsubscribe_to_zero_keeps_reader :
    (FoxgloveServer.onSubscribe sampleServer 1).subCount "/a" = some 1 ∧
    "/a" ∈ (FoxgloveServer.onSubscribe sampleServer 1).bridge.readers ∧
    (FoxgloveServer.onUnsubscribe (FoxgloveServer.onSubscribe sampleServer 1) 1).subCount "/a" =
      some 0 ∧
    "/a" ∈ (FoxgloveServer.onUnsubscribe
      (FoxgloveServer.onSubscribe sampleServer 1) 1).bridge.readers ∧
    (FoxgloveServer.onUnsubscribe (FoxgloveServer.onUnsubscribe
      (FoxgloveServer.onSubscribe sampleServer 1) 1) 1).subCount "/a" = some (-1) ∧
    "/a" ∉ (FoxgloveServer.onUnsubscribe (FoxgloveServer.onUnsubscribe
      (FoxgloveServer.onSubscribe sampleServer 1) 1) 1).bridge.readers := by
  decide

/-! ## Recorder: segment rotation (C10) -/

theorem u64sub_of_le (a b : Nat) (hle : b ≤ a) (ha : a < U64) : u64sub a b = a - b := by
  unfold u64sub
  unfold U64 at *
  norm_num at *
  omega

theorem startNewSegment_start (config_ : RecordingConfig) (canOpen : String → Bool)
    (stamp : String) (now_s : Nat) (s : SegmentState) :
    (McapRecorder.startNewSegment config_ canOpen stamp now_s s).current_segment_start_time =
      now_s := by
  unfold McapRecorder.startNewSegment
  simp only
  split <;> rfl

theorem startNewSegment_opened (config_ : RecordingConfig) (canOpen : String → Bool)
    (stamp : String) (now_s : Nat) (s : SegmentState) (hopen : ∀ f, canOpen f = true) :
    (McapRecorder.startNewSegment config_ canOpen stamp now_s s).opened.length =
      s.opened.length + 1 := by
  have h1 : (McapRecorder.ensureBaseTimestamp stamp (McapRecorder.closeSegment s)).opened =
      s.opened := by
    unfold McapRecorder.ensureBaseTimestamp McapRecorder.closeSegment
    split <;> split <;> rfl
  unfold McapRecorder.startNewSegment
  simp only [hopen, if_true, List.length_append, List.length_singleton, h1]

theorem lastReading_cons (t p : Nat) (ps : List Nat) :
    lastReading t (p :: ps) = lastReading p ps := by
  cases ps <;> simp [lastReading, List.getLastD]

theorem continuousFrom_le_last (polls : List Nat) (t : Nat) (h : ContinuousFrom t polls) :
    t ≤ lastReading t polls := by
  induction polls generalizing t with
  | nil => simp [lastReading, List.getLastD]
  | cons p ps ih =>
    obtain ⟨h1, _, h3⟩ := h
    rw [lastReading_cons]
    exact Nat.le_trans h1 (ih p h3)

theorem session_invariant (config_ : RecordingConfig) (canOpen : String → Bool)
    (stamp : String) (t0 : Nat) (hS : 0 < config_.segment_interval_seconds)
    (hopen : ∀ f, canOpen f = true) (polls : List Nat) (t : Nat) (s : SegmentState) (k : Nat)
    (hstart : s.current_segment_start_time = t0 + k * config_.segment_interval_seconds)
    (hlo : t0 + k * config_.segment_interval_seconds ≤ t)
    (hhi : t < t0 + k * config_.segment_interval_seconds + config_.segment_interval_seconds)
    (hlen : s.opened.length = k + 1)
    (hcont : ContinuousFrom t polls) (hfit : lastReading t polls < U64) :
    (polls.foldl
        (fun s now_s => McapRecorder.rotateSegmentIfNeeded config_ canOpen stamp now_s s)
        s).opened.length =
      (lastReading t polls - t0) / config_.segment_interval_seconds + 1 := by
  induction polls generalizing t s k with
  | nil =>
    simp only [List.foldl_nil, lastReading, List.getLastD]
    rw [hlen]
    congr 1
    symm
    apply Nat.div_eq_of_lt_le
    · omega
    · rw [Nat.succ_mul]
      omega
  | cons p ps ih =>
    obtain ⟨hp1, hp2, hrest⟩ := hcont
    rw [lastReading_cons] at hfit ⊢
    have hpfit : p < U64 := Nat.lt_of_le_of_lt (continuousFrom_le_last ps p hrest) hfit
    have hmul : (k + 1) * config_.segment_interval_seconds =
        k * config_.segment_interval_seconds + config_.segment_interval_seconds :=
      Nat.succ_mul k _
    rw [List.foldl_cons]
    have hsub : u64sub p s.current_segment_start_time = p - s.current_segment_start_time :=
      u64sub_of_le p _ (by omega) hpfit
    by_cases hrot : config_.segment_interval_seconds ≤ p - s.current_segment_start_time
    · have hstep : McapRecorder.rotateSegmentIfNeeded config_ canOpen stamp p s =
          McapRecorder.startNewSegment config_ canOpen stamp p s := by
        unfold McapRecorder.rotateSegmentIfNeeded
        rw [if_neg (by omega), hsub, if_pos hrot]
      rw [hstep]
      have hp : p = t0 + (k + 1) * config_.segment_interval_seconds := by
        rw [hstart] at hrot
        omega
      exact ih p _ (k + 1) (by rw [startNewSegment_start]; exact hp) (by omega)
        (by omega)
        (by rw [startNewSegment_opened _ _ _ _ _ hopen, hlen]) hrest hfit
    · have hstep : McapRecorder.rotateSegmentIfNeeded config_ canOpen stamp p s = s := by
        unfold McapRecorder.rotateSegmentIfNeeded
        rw [if_neg (by omega), hsub, if_neg hrot]
      rw [hstep]
      exact ih p s k hstart (by omega) (by rw [hstart] at hrot; omega) hlen hrest hfit

/-- C10, as the code has it: with a segment interval of `S > 0` seconds and a
writer that can open every file, a session that starts when the clock reads
`t0` seconds and polls `rotateSegmentIfNeeded` without missing a second until
the clock reads `t0 + L` opens `L / S + 1` files (the quotient rounded down),
the file opened by `initialize` included; that is `ceil (L / S)` files exactly
when `S` does not divide `L`. -/
theorem C10_segments_floor_plus_one (config_ : RecordingConfig) (canOpen : String → Bool)
    (stamp : String) (t0 : Nat) (polls : List Nat)
    (hS : 0 < config_.segment_interval_seconds) (hopen : ∀ f, canOpen f = true)
    (hcont : ContinuousFrom t0 polls) (hfit : lastReading t0 polls < U64) :
    (McapRecorder.session config_ canOpen stamp t0 polls).opened.length =
      (lastReading t0 polls - t0) / config_.segment_interval_seconds + 1 := by
  unfold McapRecorder.session
  exact session_invariant config_ canOpen stamp t0 hS hopen polls t0 _ 0
    (by rw [startNewSegment_start]; simp) (by simp) (by simpa using hS)
    (by rw [startNewSegment_opened _ _ _ _ _ hopen]; rfl) hcont hfit

/-- Witness of C10: interval 2 s, polls at every second of a session of 5 s:
three files. -/
theorem C10_segments_floor_plus_one_witness :
    (McapRecorder.session { output_file := "out", segment_interval_seconds := 2 }
        (fun _ => true) "20240101_000000" 100 [101, 102, 103, 104, 105]).opened.length =
      (lastReading 100 [101, 102, 103, 104, 105] - 100) / 2 + 1 :=
  C10_segments_floor_plus_one { output_file := "out", segment_interval_seconds := 2 }
    (fun _ => true) "20240101_000000" 100 [101, 102, 103, 104, 105]
    (by decide) (fun _ => rfl) (by decide) (by decide)

set_option maxRecDepth 100000 in
/-- C10 fails as stated: with interval 2 s, a session that `initialize` starts
when the clock reads 100.3 s and that polls every 50 ms for 4 s (80 polls,
the last one at 104.3 s) opens three files, `out_0.mcap`, `out_1.mcap` and
`out_2.mcap` (the third one when the clock reaches 104 s), while
`ceil (4 / 2) = 2`. -/
theorem C10_not_ceil :
    ContinuousFrom (100300 / 1000) (pollReadings 100300 50 80) ∧
    lastReading (100300 / 1000) (pollReadings 100300 50 80) = 100300 / 1000 + 4 ∧
    (McapRecorder.session { output_file := "out", segment_interval_seconds := 2 }
        (fun _ => true) "20240101_000000" (100300 / 1000) (pollReadings 100300 50 80)).opened =
      ["out_0.mcap", "out_1.mcap", "out_2.mcap"] ∧
    ⌈(4 : ℚ) / 2⌉₊ = 2 ∧
    (McapRecorder.session { output_file := "out", segment_interval_seconds := 2 }
        (fun _ => true) "20240101_000000" (100300 / 1000)
        (pollReadings 100300 50 80)).opened.length ≠ ⌈(4 : ℚ) / 2⌉₊ := by
  have hceil : ⌈(4 : ℚ) / 2⌉₊ = 2 := by norm_num
  refine ⟨by decide, by decide, by decide, hceil, ?_⟩
  rw [hceil]
  decide

/-! ## Player: pause (C6) -/

/-- C6 at the failing input (speed 1, clock at 5.0 s when the loop starts):
without pause the three messages are published at 5.0 s, 6.0 s and 7.0 s.
With a pause of 0.3 s in the pause loop of the second message, that message
is still published at 6.0 s, one second after the first one and not 1.3 s
after it, because its target time was computed before the pause loop and is
not computed again; only the third message is 0.3 s late (7.3 s). -/
theorem C6_message_in_pause_loop_not_delayed :
    (McapPlayer.readerLoop ["/a"] unitTiming {} 5000000000 steadyLog).published.map
        (fun p => p.wallTime) = [5000000000, 6000000000, 7000000000] ∧
    (McapPlayer.readerLoop ["/a"] unitTiming {} 5000000000 pausedLog).published.map
        (fun p => p.wallTime) = [5000000000, 6000000000, 7300000000] ∧
    (McapPlayer.readerLoop ["/a"] unitTiming {} 5000000000 pausedLog).playback_start_time =
        5000000000 + 3 * pauseSleepNs := by
  decide

/-! ## Player: start offset (C7) -/

theorem u64sub_self (a : Nat) : u64sub a a = 0 := by
  unfold u64sub
  have h : a % U64 < U64 := Nat.mod_lt _ (by unfold U64; norm_num)
  have h2 : a % U64 + (U64 - a % U64) = U64 := by omega
  rw [h2, Nat.mod_self]

theorem captureFirst_of_ne (st : ReaderState) (message : LogMessage)
    (h : st.first_message_time ≠ 0) : McapPlayer.captureFirst st message = st := by
  unfold McapPlayer.captureFirst
  rw [if_neg h]

theorem captureFirst_first_of_eq (st : ReaderState) (message : LogMessage)
    (h : st.first_message_time = 0) :
    (McapPlayer.captureFirst st message).first_message_time = message.logTime := by
  unfold McapPlayer.captureFirst
  rw [if_pos h]

theorem captureFirst_offset_applied (st : ReaderState) (message : LogMessage) :
    (McapPlayer.captureFirst st message).offset_applied = st.offset_applied := by
  unfold McapPlayer.captureFirst
  split <;> rfl

theorem captureFirst_now (st : ReaderState) (message : LogMessage) :
    (McapPlayer.captureFirst st message).now = st.now := by
  unfold McapPlayer.captureFirst
  split <;> rfl

/-- A round on a state that has not captured a first log time publishes
nothing when the start offset is positive: the message is not on a played
topic, or its relative log time is 0. -/
theorem readerBody_first_zero (writers_ : List String) (t : Timing) (st : ReaderState)
    (message : LogMessage) (e : Env) (hs : 0 < t.start_offset_ns)
    (hf : st.first_message_time = 0) :
    McapPlayer.readerBody writers_ t st message e =
      if message.topic ∈ writers_ then McapPlayer.captureFirst st message else st := by
  by_cases hw : message.topic ∈ writers_
  · rw [if_pos hw]
    apply readerBody_skip writers_ t st message e hw
    rw [captureFirst_first_of_eq st message hf, u64sub_self]
    exact ⟨hs, hs⟩
  · rw [if_neg hw]
    exact readerBody_not_writer writers_ t st message e hw

/-- A round on a state that has captured the first log time `f`, for a
message whose log time is not before `f`: the message is published exactly
when it is on a played topic and its log time is at least `f` plus the start
offset. -/
theorem readerBody_first_nonzero (writers_ : List String) (t : Timing) (st : ReaderState)
    (message : LogMessage) (e : Env) (hs : 0 < t.start_offset_ns)
    (hf : st.first_message_time ≠ 0)
    (hle : st.first_message_time ≤ message.logTime) (hfit : message.logTime < U64) :
    McapPlayer.readerBody writers_ t st message e =
      if message.topic ∈ writers_ ∧ st.first_message_time + t.start_offset_ns ≤ message.logTime
      then McapPlayer.publishRound t (McapPlayer.applyOffset t st) message
        (message.logTime - st.first_message_time) e
      else st := by
  by_cases hw : message.topic ∈ writers_
  · have hrel : u64sub message.logTime (McapPlayer.captureFirst st message).first_message_time =
        message.logTime - st.first_message_time := by
      rw [captureFirst_of_ne st message hf]
      exact u64sub_of_le _ _ hle hfit
    by_cases hoff : st.first_message_time + t.start_offset_ns ≤ message.logTime
    · rw [if_pos ⟨hw, hoff⟩, readerBody_publish writers_ t st message e hw
        (by rw [hrel]; omega), hrel, captureFirst_of_ne st message hf]
    · rw [if_neg (fun h => hoff h.2), readerBody_skip writers_ t st message e hw
        (by rw [hrel]; omega), captureFirst_of_ne st message hf]
  · rw [if_neg (fun h => hw h.1)]
    exact readerBody_not_writer writers_ t st message e hw

theorem readerBody_first_stable (writers_ : List String) (t : Timing) (st : ReaderState)
    (message : LogMessage) (e : Env) (hf : st.first_message_time ≠ 0) :
    (McapPlayer.readerBody writers_ t st message e).first_message_time =
      st.first_message_time := by
  by_cases hw : message.topic ∈ writers_
  · by_cases hskip : 0 < t.start_offset_ns ∧
        u64sub message.logTime (McapPlayer.captureFirst st message).first_message_time <
          t.start_offset_ns
    · rw [readerBody_skip writers_ t st message e hw hskip, captureFirst_of_ne st message hf]
    · rw [readerBody_publish writers_ t st message e hw hskip, publishRound_first,
        applyOffset_first, captureFirst_of_ne st message hf]
  · rw [readerBody_not_writer writers_ t st message e hw]

theorem readerLoopFrom_first_stable (writers_ : List String) (t : Timing)
    (log : List (LogMessage × Env)) (st : ReaderState) (hf : st.first_message_time ≠ 0) :
    (McapPlayer.readerLoopFrom writers_ t st log).first_message_time =
      st.first_message_time := by
  induction log generalizing st with
  | nil => rfl
  | cons x xs ih =>
    obtain ⟨message, e⟩ := x
    rcases readerLoopFrom_cons_cases writers_ t st message e xs with
      ⟨_, hr⟩ | ⟨_, _, hr⟩ | ⟨_, _, hr⟩
    · rw [hr]
    · rw [hr]
      rfl
    · have h1 := readerBody_first_stable writers_ t (st.advance e.elapsed) message e hf
      rw [hr, ih _ (by rw [h1]; exact hf), h1]
      rfl

theorem passesOffset_eq_true (writers_ : List String) (t : Timing) (f : Nat) (m : LogMessage) :
    passesOffset writers_ t f m = true ↔
      m.topic ∈ writers_ ∧ f + t.start_offset_ns ≤ m.logTime := by
  simp [passesOffset]

theorem readerLoopFrom_offset_nonzero (writers_ : List String) (t : Timing)
    (hs : 0 < t.start_offset_ns) (log : List (LogMessage × Env)) (st : ReaderState)
    (hf : st.first_message_time ≠ 0)
    (hlog : ∀ x ∈ log, st.first_message_time ≤ x.1.logTime ∧ x.1.logTime < U64) :
    (∀ p ∈ (McapPlayer.readerLoopFrom writers_ t st log).published,
      p ∈ st.published ∨ st.first_message_time + t.start_offset_ns ≤ p.logTime) ∧
    ((McapPlayer.readerLoopFrom writers_ t st log).stopped = false →
      (McapPlayer.readerLoopFrom writers_ t st log).published.map Publication.content =
        st.published.map Publication.content ++
          (log.map Prod.fst).filter (passesOffset writers_ t st.first_message_time)) := by
  induction log generalizing st with
  | nil =>
    exact ⟨fun p hp => Or.inl hp, fun _ => by simp [McapPlayer.readerLoopFrom]⟩
  | cons x xs ih =>
    obtain ⟨message, e⟩ := x
    have hm := hlog (message, e) (List.mem_cons_self _ _)
    have hxs : ∀ x ∈ xs, st.first_message_time ≤ x.1.logTime ∧ x.1.logTime < U64 :=
      fun y hy => hlog y (List.mem_cons_of_mem _ hy)
    rcases readerLoopFrom_cons_cases writers_ t st message e xs with
      ⟨hst, hr⟩ | ⟨_, _, hr⟩ | ⟨_, _, hr⟩
    · rw [hr]
      exact ⟨fun p hp => Or.inl hp, fun h => by rw [hst] at h; exact absurd h (by decide)⟩
    · rw [hr]
      exact ⟨fun p hp => Or.inl hp, fun h => absurd h (by simp)⟩
    · rw [hr]
      have hbody := readerBody_first_nonzero writers_ t (st.advance e.elapsed) message e hs hf
        hm.1 hm.2
      simp only [advance_first] at hbody
      by_cases hpass : message.topic ∈ writers_ ∧
          st.first_message_time + t.start_offset_ns ≤ message.logTime
      · rw [if_pos hpass] at hbody
        obtain ⟨q, hq, hcontent, _⟩ := publishRound_published t
          (McapPlayer.applyOffset t (st.advance e.elapsed)) message
          (message.logTime - st.first_message_time) e
        rw [applyOffset_published, advance_published] at hq
        have hfirst : (McapPlayer.readerBody writers_ t (st.advance e.elapsed) message
            e).first_message_time = st.first_message_time := by
          rw [hbody, publishRound_first, applyOffset_first, advance_first]
        obtain ⟨ih1, ih2⟩ := ih (McapPlayer.readerBody writers_ t (st.advance e.elapsed) message e)
          (by rw [hfirst]; exact hf) (by rw [hfirst]; exact hxs)
        rw [hfirst] at ih1 ih2
        rw [hbody] at ih1 ih2
        rw [hbody]
        constructor
        · intro p hp
          rcases ih1 p hp with h | h
          · rw [hq, List.mem_append, List.mem_singleton] at h
            rcases h with h | h
            · exact Or.inl h
            · right
              have : p.logTime = message.logTime := by
                have h3 : p.content.logTime = message.logTime := by rw [h, hcontent]
                exact h3
              rw [this]
              exact hpass.2
          · exact Or.inr h
        · intro hstopped
          rw [ih2 hstopped, hq]
          have hp2 : passesOffset writers_ t st.first_message_time message = true :=
            (passesOffset_eq_true _ _ _ _).2 hpass
          simp [List.filter_cons, hp2, hcontent]
      · rw [if_neg hpass] at hbody
        obtain ⟨ih1, ih2⟩ := ih (st.advance e.elapsed) hf hxs
        rw [hbody]
        simp only [advance_published, advance_first] at ih1 ih2
        refine ⟨ih1, fun hstopped => ?_⟩
        rw [ih2 hstopped]
        have hp2 : passesOffset writers_ t st.first_message_time message = false := by
          rw [← Bool.not_eq_true, passesOffset_eq_true]
          exact hpass
        simp [List.filter_cons, hp2]

theorem readerLoopFrom_offset_zero (writers_ : List String) (t : Timing)
    (hs : 0 < t.start_offset_ns) (log : List (LogMessage × Env)) (st : ReaderState)
    (hf : st.first_message_time = 0)
    (hsorted : (log.map (fun x => x.1.logTime)).Pairwise (fun a b => a ≤ b))
    (hfit : ∀ x ∈ log, x.1.logTime < U64) :
    (∀ p ∈ (McapPlayer.readerLoopFrom writers_ t st log).published,
      p ∈ st.published ∨
        (McapPlayer.readerLoopFrom writers_ t st log).first_message_time + t.start_offset_ns ≤
          p.logTime) ∧
    ((McapPlayer.readerLoopFrom writers_ t st log).stopped = false →
      (McapPlayer.readerLoopFrom writers_ t st log).published.map Publication.content =
        st.published.map Publication.content ++
          (log.map Prod.fst).filter (passesOffset writers_ t
            (McapPlayer.readerLoopFrom writers_ t st log).first_message_time)) := by
  induction log generalizing st with
  | nil =>
    exact ⟨fun p hp => Or.inl hp, fun _ => by simp [McapPlayer.readerLoopFrom]⟩
  | cons x xs ih =>
    obtain ⟨message, e⟩ := x
    rw [List.map_cons, List.pairwise_cons] at hsorted
    obtain ⟨hhead, htail⟩ := hsorted
    have hxs : ∀ x ∈ xs, x.1.logTime < U64 := fun y hy => hfit y (List.mem_cons_of_mem _ hy)
    rcases readerLoopFrom_cons_cases writers_ t st message e xs with
      ⟨hst, hr⟩ | ⟨_, _, hr⟩ | ⟨_, _, hr⟩
    · rw [hr]
      exact ⟨fun p hp => Or.inl hp, fun h => by rw [hst] at h; exact absurd h (by decide)⟩
    · rw [hr]
      exact ⟨fun p hp => Or.inl hp, fun h => absurd h (by simp)⟩
    · rw [hr]
      have hbody := readerBody_first_zero writers_ t (st.advance e.elapsed) message e hs hf
      rw [hbody]
      by_cases hw : message.topic ∈ writers_
      · rw [if_pos hw]
        by_cases hzero : message.logTime = 0
        · have hf1 : (McapPlayer.captureFirst (st.advance e.elapsed) message).first_message_time =
              0 := by
            rw [captureFirst_first_of_eq (st.advance e.elapsed) message hf, hzero]
          obtain ⟨ih1, ih2⟩ := ih _ hf1 htail hxs
          rw [captureFirst_published, advance_published] at ih1 ih2
          refine ⟨ih1, fun hstopped => ?_⟩
          rw [ih2 hstopped]
          have hp2 : passesOffset writers_ t
              (McapPlayer.readerLoopFrom writers_ t
                (McapPlayer.captureFirst (st.advance e.elapsed) message) xs).first_message_time
              message = false := by
            rw [← Bool.not_eq_true, passesOffset_eq_true]
            omega
          simp [List.filter_cons, hp2]
        · have hf1 : (McapPlayer.captureFirst (st.advance e.elapsed) message).first_message_time =
              message.logTime := captureFirst_first_of_eq (st.advance e.elapsed) message hf
          have hne : (McapPlayer.captureFirst (st.advance e.elapsed) message).first_message_time ≠
              0 := by
            rw [hf1]
            exact hzero
          have hstable := readerLoopFrom_first_stable writers_ t xs _ hne
          obtain ⟨ih1, ih2⟩ := readerLoopFrom_offset_nonzero writers_ t hs xs
            (McapPlayer.captureFirst (st.advance e.elapsed) message) hne
            (by
              intro y hy
              rw [hf1]
              exact ⟨hhead _ (List.mem_map_of_mem (fun x => x.1.logTime) hy), hxs y hy⟩)
          rw [captureFirst_published, advance_published] at ih1 ih2
          rw [hstable]
          refine ⟨ih1, fun hstopped => ?_⟩
          rw [ih2 hstopped, hf1]
          have hp2 : passesOffset writers_ t message.logTime message = false := by
            rw [← Bool.not_eq_true, passesOffset_eq_true]
            omega
          simp [List.filter_cons, hp2]
      · rw [if_neg hw]
        obtain ⟨ih1, ih2⟩ := ih (st.advance e.elapsed) hf htail hxs
        rw [advance_published] at ih1 ih2
        refine ⟨ih1, fun hstopped => ?_⟩
        rw [ih2 hstopped]
        have hp2 : passesOffset writers_ t
            (McapPlayer.readerLoopFrom writers_ t (st.advance e.elapsed) xs).first_message_time
            message = false := by
          rw [← Bool.not_eq_true, passesOffset_eq_true]
          exact fun h => hw h.1
        simp [List.filter_cons, hp2]

theorem readerLoopFrom_append (writers_ : List String) (t : Timing)
    (l1 l2 : List (LogMessage × Env)) (st : ReaderState) :
    McapPlayer.readerLoopFrom writers_ t st (l1 ++ l2) =
      McapPlayer.readerLoopFrom writers_ t (McapPlayer.readerLoopFrom writers_ t st l1) l2 := by
  induction l1 generalizing st with
  | nil => rfl
  | cons x xs ih =>
    obtain ⟨message, e⟩ := x
    rw [List.cons_append]
    rcases Bool.eq_false_or_eq_true st.stopped with h2 | h2
    · rw [readerLoopFrom_stopped writers_ t st _ h2, readerLoopFrom_stopped writers_ t st _ h2,
        readerLoopFrom_stopped writers_ t st _ h2]
    · rcases Bool.eq_false_or_eq_true e.stop with h1 | h1
      · rw [readerLoopFrom_cons_stop writers_ t st message e _ h1 h2,
          readerLoopFrom_cons_stop writers_ t st message e _ h1 h2,
          readerLoopFrom_stopped writers_ t _ _ rfl]
      · rw [readerLoopFrom_cons_go writers_ t st message e _ h1 h2,
          readerLoopFrom_cons_go writers_ t st message e _ h1 h2, ih]

theorem readerBody_published_extends (writers_ : List String) (t : Timing) (st : ReaderState)
    (message : LogMessage) (e : Env) :
    ∃ l, (McapPlayer.readerBody writers_ t st message e).published = st.published ++ l := by
  by_cases hw : message.topic ∈ writers_
  · by_cases hskip : 0 < t.start_offset_ns ∧
        u64sub message.logTime (McapPlayer.captureFirst st message).first_message_time <
          t.start_offset_ns
    · rw [readerBody_skip writers_ t st message e hw hskip, captureFirst_published]
      exact ⟨[], by simp⟩
    · rw [readerBody_publish writers_ t st message e hw hskip]
      obtain ⟨q, hq, _, _⟩ := publishRound_published t
        (McapPlayer.applyOffset t (McapPlayer.captureFirst st message)) message
        (u64sub message.logTime (McapPlayer.captureFirst st message).first_message_time) e
      rw [hq, applyOffset_published, captureFirst_published]
      exact ⟨[q], rfl⟩
  · rw [readerBody_not_writer writers_ t st message e hw]
    exact ⟨[], by simp⟩

theorem readerLoopFrom_published_extends (writers_ : List String) (t : Timing)
    (log : List (LogMessage × Env)) (st : ReaderState) :
    ∃ l, (McapPlayer.readerLoopFrom writers_ t st log).published = st.published ++ l := by
  induction log generalizing st with
  | nil => exact ⟨[], by simp [McapPlayer.readerLoopFrom]⟩
  | cons x xs ih =>
    obtain ⟨message, e⟩ := x
    rcases readerLoopFrom_cons_cases writers_ t st message e xs with
      ⟨_, hr⟩ | ⟨_, _, hr⟩ | ⟨_, _, hr⟩
    · rw [hr]
      exact ⟨[], by simp⟩
    · rw [hr]
      exact ⟨[], by simp⟩
    · rw [hr]
      obtain ⟨l1, h1⟩ := readerBody_published_extends writers_ t (st.advance e.elapsed) message e
      obtain ⟨l2, h2⟩ := ih (McapPlayer.readerBody writers_ t (st.advance e.elapsed) message e)
      rw [h2, h1, advance_published]
      exact ⟨l1 ++ l2, by simp⟩

theorem readerBody_offsetInv (writers_ : List String) (t : Timing) (st : ReaderState)
    (message : LogMessage) (e : Env) (h : OffsetInv st) :
    OffsetInv (McapPlayer.readerBody writers_ t st message e) := by
  by_cases hw : message.topic ∈ writers_
  · by_cases hskip : 0 < t.start_offset_ns ∧
        u64sub message.logTime (McapPlayer.captureFirst st message).first_message_time <
          t.start_offset_ns
    · rw [readerBody_skip writers_ t st message e hw hskip]
      unfold OffsetInv
      rw [captureFirst_published, captureFirst_offset_applied]
      exact h
    · rw [readerBody_publish writers_ t st message e hw hskip]
      obtain ⟨q, hq, _, _⟩ := publishRound_published t
        (McapPlayer.applyOffset t (McapPlayer.captureFirst st message)) message
        (u64sub message.logTime (McapPlayer.captureFirst st message).first_message_time) e
      intro _
      rw [hq]
      simp
  · rw [readerBody_not_writer writers_ t st message e hw]
    exact h

theorem readerLoopFrom_offsetInv (writers_ : List String) (t : Timing)
    (log : List (LogMessage × Env)) (st : ReaderState) (h : OffsetInv st) :
    OffsetInv (McapPlayer.readerLoopFrom writers_ t st log) := by
  induction log generalizing st with
  | nil => exact h
  | cons x xs ih =>
    obtain ⟨message, e⟩ := x
    rcases readerLoopFrom_cons_cases writers_ t st message e xs with
      ⟨_, hr⟩ | ⟨_, _, hr⟩ | ⟨_, _, hr⟩
    · rw [hr]
      exact h
    · rw [hr]
      exact h
    · rw [hr]
      exact ih _ (readerBody_offsetInv writers_ t _ message e h)

theorem applyOffset_reset (t : Timing) (st : ReaderState) (hs : 0 < t.start_offset_ns)
    (h : st.offset_applied = false) :
    (McapPlayer.applyOffset t st).playback_start_time = st.now := by
  unfold McapPlayer.applyOffset
  rw [if_pos (by simp [h, hs])]

/-- The round that makes the first publication, seen from the state `st` it
starts in (nothing published yet): the message is on a played topic, the
first log time was captured before, and the target time of the publication is
the clock at the start of the round plus the scaled relative time. -/
theorem readerLoopFrom_first_publication (writers_ : List String) (t : Timing)
    (hs : 0 < t.start_offset_ns) (st : ReaderState) (message : LogMessage) (e : Env)
    (hinv : OffsetInv st) (hnil : st.published = [])
    (hpub : (McapPlayer.readerLoopFrom writers_ t st [(message, e)]).published ≠ []) :
    ∃ p, (McapPlayer.readerLoopFrom writers_ t st [(message, e)]).published = [p] ∧
      p.content = message ∧
      (McapPlayer.readerLoopFrom writers_ t st [(message, e)]).first_message_time ≠ 0 ∧
      p.target = u64add (st.now + e.elapsed)
        (t.scale (u64sub
          (u64sub message.logTime
            (McapPlayer.readerLoopFrom writers_ t st [(message, e)]).first_message_time)
          t.start_offset_ns)) := by
  rcases readerLoopFrom_cons_cases writers_ t st message e [] with
    ⟨_, hr⟩ | ⟨_, _, hr⟩ | ⟨_, _, hr⟩
  · rw [hr] at hpub
    exact absurd hnil hpub
  · rw [hr] at hpub
    exact absurd hnil hpub
  · rw [hr] at hpub ⊢
    simp only [McapPlayer.readerLoopFrom] at hpub ⊢
    by_cases hw : message.topic ∈ writers_
    · by_cases hskip : 0 < t.start_offset_ns ∧
          u64sub message.logTime
            (McapPlayer.captureFirst (st.advance e.elapsed) message).first_message_time <
            t.start_offset_ns
      · rw [readerBody_skip writers_ t _ message e hw hskip, captureFirst_published] at hpub
        exact absurd hnil hpub
      · have hf : st.first_message_time ≠ 0 := by
          intro hzero
          apply hskip
          rw [captureFirst_first_of_eq (st.advance e.elapsed) message hzero, u64sub_self]
          exact ⟨hs, hs⟩
        have hcap : McapPlayer.captureFirst (st.advance e.elapsed) message =
            st.advance e.elapsed := captureFirst_of_ne _ _ hf
        rw [readerBody_publish writers_ t _ message e hw hskip, hcap]
        have hoff : (st.advance e.elapsed).offset_applied = false := by
          rcases Bool.eq_false_or_eq_true st.offset_applied with h | h
          · exact absurd hnil (hinv h)
          · exact h
        obtain ⟨q, hq, hcontent, htarget⟩ := publishRound_published t
          (McapPlayer.applyOffset t (st.advance e.elapsed)) message
          (u64sub message.logTime (st.advance e.elapsed).first_message_time) e
        refine ⟨q, ?_, hcontent, ?_, ?_⟩
        · rw [hq, applyOffset_published, advance_published, hnil]
          rfl
        · rw [publishRound_first, applyOffset_first]
          exact hf
        · rw [htarget, applyOffset_reset t _ hs hoff, publishRound_first, applyOffset_first]
          rfl
    · rw [readerBody_not_writer writers_ t _ message e hw] at hpub
      exact absurd hnil hpub

theorem readerLoopFrom_unplayed (writers_ : List String) (t : Timing)
    (log : List (LogMessage × Env)) (st : ReaderState)
    (h : ∀ x ∈ log, x.1.topic ∉ writers_) :
    (McapPlayer.readerLoopFrom writers_ t st log).first_message_time = st.first_message_time := by
  induction log generalizing st with
  | nil => rfl
  | cons x xs ih =>
    obtain ⟨message, e⟩ := x
    have hxs : ∀ x ∈ xs, x.1.topic ∉ writers_ := fun y hy => h y (List.mem_cons_of_mem _ hy)
    rcases readerLoopFrom_cons_cases writers_ t st message e xs with
      ⟨_, hr⟩ | ⟨_, _, hr⟩ | ⟨_, _, hr⟩
    · rw [hr]
    · rw [hr]
      rfl
    · rw [hr, readerBody_not_writer writers_ t _ message e (h (message, e) (List.mem_cons_self _ _)),
        ih _ hxs]
      rfl

theorem readerLoopFrom_not_stopped (writers_ : List String) (t : Timing)
    (log : List (LogMessage × Env)) (st : ReaderState)
    (h : (McapPlayer.readerLoopFrom writers_ t st log).stopped = false) :
    st.stopped = false := by
  rcases Bool.eq_false_or_eq_true st.stopped with h2 | h2
  · rw [readerLoopFrom_stopped writers_ t st log h2, h2] at h
    exact absurd h (by decide)
  · exact h2

/-- The start offset, measured from the captured `first_message_time`: with a
start offset `s > 0` (in nanoseconds) and a log read in log-time order, every
message the reader loop publishes has a log time of at
least `first_message_time + s`, that is a relative log time of at least `s`;
when no stop request is seen, the publications are exactly the messages on
played topics with such a log time, in the order of the log, so none of them
is skipped; and the first publication is scheduled from the clock reading of
the round that publishes it: its target time is that reading plus the scaled
value of (relative log time minus `s`). `first_message_time` is the value the
loop captured; it is the log time of the first message on a played topic
when that log time is not 0. -/
theorem readerLoop_start_offset (writers_ : List String) (t : Timing) (controls : Controls)
    (now : Nat) (log : List (LogMessage × Env))
    (hs : 0 < t.start_offset_ns)
    (hsorted : (log.map (fun x => x.1.logTime)).Pairwise (fun a b => a ≤ b))
    (hfit : ∀ x ∈ log, x.1.logTime < U64) :
    (∀ p ∈ (McapPlayer.readerLoop writers_ t controls now log).published,
      (McapPlayer.readerLoop writers_ t controls now log).first_message_time +
        t.start_offset_ns ≤ p.logTime) ∧
    ((McapPlayer.readerLoop writers_ t controls now log).stopped = false →
      (McapPlayer.readerLoop writers_ t controls now log).published.map Publication.content =
        (log.map Prod.fst).filter (passesOffset writers_ t
          (McapPlayer.readerLoop writers_ t controls now log).first_message_time)) ∧
    (∀ pre message e post, log = pre ++ (message, e) :: post →
      (McapPlayer.readerLoop writers_ t controls now pre).published = [] →
      (McapPlayer.readerLoop writers_ t controls now (pre ++ [(message, e)])).published ≠ [] →
      ∃ p, (McapPlayer.readerLoop writers_ t controls now log).published.head? = some p ∧
        p.content = message ∧
        (McapPlayer.readerLoop writers_ t controls now log).first_message_time +
          t.start_offset_ns ≤ message.logTime ∧
        p.target = u64add ((McapPlayer.readerLoop writers_ t controls now pre).now + e.elapsed)
          (t.scale (message.logTime -
            (McapPlayer.readerLoop writers_ t controls now log).first_message_time -
            t.start_offset_ns))) ∧
    (∀ pre message e post, log = pre ++ (message, e) :: post →
      (∀ x ∈ pre, x.1.topic ∉ writers_) → message.topic ∈ writers_ → message.logTime ≠ 0 →
      (McapPlayer.readerLoop writers_ t controls now log).stopped = false →
      (McapPlayer.readerLoop writers_ t controls now log).first_message_time =
        message.logTime) := by
  have hmain := readerLoopFrom_offset_zero writers_ t hs log
    { now := now, playback_start_time := now, controls := controls } rfl hsorted hfit
  have h1 : ∀ p ∈ (McapPlayer.readerLoop writers_ t controls now log).published,
      (McapPlayer.readerLoop writers_ t controls now log).first_message_time +
        t.start_offset_ns ≤ p.logTime := by
    intro p hp
    rcases hmain.1 p hp with h | h
    · simp at h
    · exact h
  refine ⟨h1, ?_, ?_, ?_⟩
  · intro hstopped
    have := hmain.2 hstopped
    simpa using this
  · intro pre message e post hlog hnil hpub
    have hinv : OffsetInv (McapPlayer.readerLoop writers_ t controls now pre) :=
      readerLoopFrom_offsetInv writers_ t pre _ (fun h => absurd h (by simp))
    have hsplit : McapPlayer.readerLoop writers_ t controls now (pre ++ [(message, e)]) =
        McapPlayer.readerLoopFrom writers_ t (McapPlayer.readerLoop writers_ t controls now pre)
          [(message, e)] := readerLoopFrom_append writers_ t pre [(message, e)] _
    have hfull : McapPlayer.readerLoop writers_ t controls now log =
        McapPlayer.readerLoopFrom writers_ t
          (McapPlayer.readerLoop writers_ t controls now (pre ++ [(message, e)])) post := by
      rw [hlog, List.append_cons]
      exact readerLoopFrom_append writers_ t (pre ++ [(message, e)]) post _
    rw [hsplit] at hpub hfull
    obtain ⟨p, hp1, hp2, hp3, hp4⟩ := readerLoopFrom_first_publication writers_ t hs
      (McapPlayer.readerLoop writers_ t controls now pre) message e hinv hnil hpub
    have hfirst : (McapPlayer.readerLoop writers_ t controls now log).first_message_time =
        (McapPlayer.readerLoopFrom writers_ t (McapPlayer.readerLoop writers_ t controls now pre)
          [(message, e)]).first_message_time := by
      rw [hfull]
      exact readerLoopFrom_first_stable writers_ t post _ hp3
    obtain ⟨l, hl⟩ := readerLoopFrom_published_extends writers_ t post
      (McapPlayer.readerLoopFrom writers_ t (McapPlayer.readerLoop writers_ t controls now pre)
        [(message, e)])
    rw [← hfull, hp1] at hl
    have hmem : p ∈ (McapPlayer.readerLoop writers_ t controls now log).published := by
      rw [hl]
      simp
    have hlt : p.logTime = message.logTime := by
      have h3 : p.content.logTime = message.logTime := by rw [hp2]
      exact h3
    have hle := h1 p hmem
    rw [hlt] at hle
    have hmfit : message.logTime < U64 := hfit (message, e) (by rw [hlog]; simp)
    refine ⟨p, by rw [hl]; rfl, hp2, hle, ?_⟩
    rw [hp4, ← hfirst,
      u64sub_of_le message.logTime _ (by omega) hmfit,
      u64sub_of_le _ t.start_offset_ns (by omega) (by omega)]
  · intro pre message e post hlog hpre hw hne hstopped
    have hfull : McapPlayer.readerLoop writers_ t controls now log =
        McapPlayer.readerLoopFrom writers_ t (McapPlayer.readerLoop writers_ t controls now pre)
          ((message, e) :: post) := by
      rw [hlog]
      exact readerLoopFrom_append writers_ t pre ((message, e) :: post) _
    have hzero : (McapPlayer.readerLoop writers_ t controls now pre).first_message_time = 0 :=
      readerLoopFrom_unplayed writers_ t pre _ hpre
    rw [hfull] at hstopped ⊢
    rcases readerLoopFrom_cons_cases writers_ t
        (McapPlayer.readerLoop writers_ t controls now pre) message e post with
      ⟨hst, hr⟩ | ⟨_, _, hr⟩ | ⟨_, _, hr⟩
    · rw [hr, hst] at hstopped
      exact absurd hstopped (by decide)
    · rw [hr] at hstopped
      exact absurd hstopped (by simp)
    · rw [hr, readerBody_first_zero writers_ t
        ((McapPlayer.readerLoop writers_ t controls now pre).advance e.elapsed) message e hs
        hzero, if_pos hw]
      have hcap := captureFirst_first_of_eq
        ((McapPlayer.readerLoop writers_ t controls now pre).advance e.elapsed) message hzero
      rw [readerLoopFrom_first_stable writers_ t post _ (by rw [hcap]; exact hne), hcap]

/-- The start offset at a log that starts at a log time other than 0: with a
start offset of 3 ns on a log whose first message
has log time 10, the publications are the messages on `/a` with log time 13
and 15. -/
theorem readerLoop_start_offset_example :
    (McapPlayer.readerLoop ["/a"] offsetTiming {} 100 offsetLog).published.map
        Publication.content =
      (offsetLog.map Prod.fst).filter (passesOffset ["/a"] offsetTiming
        (McapPlayer.readerLoop ["/a"] offsetTiming {} 100 offsetLog).first_message_time) :=
  (readerLoop_start_offset ["/a"] offsetTiming {} 100 offsetLog (by decide) (by decide)
    (by decide)).2.1 (by decide)

/-! ## Recorder: segment names and start-up (C11, C12) -/

theorem startNewSegment_counter (config_ : RecordingConfig) (canOpen : String → Bool)
    (stamp : String) (now_s : Nat) (s : SegmentState) :
    (McapRecorder.startNewSegment config_ canOpen stamp now_s s).segment_counter =
      (s.segment_counter + 1) % U32 := by
  have h1 : (McapRecorder.ensureBaseTimestamp stamp
      (McapRecorder.closeSegment s)).segment_counter = s.segment_counter := by
    unfold McapRecorder.ensureBaseTimestamp McapRecorder.closeSegment
    split <;> split <;> rfl
  unfold McapRecorder.startNewSegment
  simp only
  split <;> exact congrArg (fun c => (c + 1) % U32) h1

theorem startNewSegment_file (config_ : RecordingConfig) (canOpen : String → Bool)
    (stamp : String) (now_s : Nat) (s : SegmentState)
    (hstem : config_.output_file ≠ "") :
    (McapRecorder.startNewSegment config_ canOpen stamp now_s s).current_segment_file =
      (if 0 < config_.segment_interval_seconds then
        config_.output_file ++ "_" ++ toString s.segment_counter
       else config_.output_file) ++ ".mcap" := by
  have h1 : (McapRecorder.ensureBaseTimestamp stamp
      (McapRecorder.closeSegment s)).segment_counter = s.segment_counter := by
    unfold McapRecorder.ensureBaseTimestamp McapRecorder.closeSegment
    split <;> split <;> rfl
  have hne : config_.output_file.isEmpty = false := by
    cases h : config_.output_file.isEmpty
    · rfl
    · exact absurd ((String.isEmpty_iff _).1 h) hstem
  have hname : McapRecorder.segmentFileName config_
      (McapRecorder.ensureBaseTimestamp stamp (McapRecorder.closeSegment s)) =
      (if 0 < config_.segment_interval_seconds then
        config_.output_file ++ "_" ++ toString s.segment_counter
       else config_.output_file) ++ ".mcap" := by
    unfold McapRecorder.segmentFileName
    simp only [hne, Bool.false_eq_true, if_false, h1]
  unfold McapRecorder.startNewSegment
  simp only
  split <;> exact hname

theorem startSegments_counter (config_ : RecordingConfig) (canOpen : String → Bool)
    (stamp : String) (times : List Nat) (s : SegmentState) (hs : s.segment_counter < U32) :
    (McapRecorder.startSegments config_ canOpen stamp times s).segment_counter =
      (s.segment_counter + times.length) % U32 := by
  induction times generalizing s with
  | nil =>
    simp only [McapRecorder.startSegments, List.foldl_nil, List.length_nil, Nat.add_zero]
    exact (Nat.mod_eq_of_lt hs).symm
  | cons t ts ih =>
    have hpos : 0 < U32 := by unfold U32; norm_num
    have h := ih (McapRecorder.startNewSegment config_ canOpen stamp t s)
      (by rw [startNewSegment_counter]; exact Nat.mod_lt _ hpos)
    simp only [McapRecorder.startSegments, List.foldl_cons] at h ⊢
    rw [h, startNewSegment_counter, List.length_cons, Nat.mod_add_mod]
    congr 1
    omega

theorem session_interval_zero (config_ : RecordingConfig) (canOpen : String → Bool)
    (stamp : String) (polls : List Nat) (s : SegmentState)
    (h : config_.segment_interval_seconds = 0) :
    polls.foldl
        (fun s now_s => McapRecorder.rotateSegmentIfNeeded config_ canOpen stamp now_s s) s =
      s := by
  induction polls generalizing s with
  | nil => rfl
  | cons p ps ih =>
    rw [List.foldl_cons, ih]
    unfold McapRecorder.rotateSegmentIfNeeded
    rw [if_pos (by omega)]

/-- C11: with a non-empty output stem `s` and a segment interval above 0, the
call of `startNewSegment` that follows `n` earlier calls (counter starting at
0, `n + 1` within the range of the counter) names its file `s_n.mcap` and
leaves the counter at `n + 1`; with segment interval 0 the file of the first
call is `s.mcap`, and no poll of `rotateSegmentIfNeeded` starts another
segment. -/
theorem C11_segment_names (config_ : RecordingConfig) (canOpen : String → Bool)
    (stamp : String) (times : List Nat) (now_s : Nat)
    (hstem : config_.output_file ≠ "") :
    (0 < config_.segment_interval_seconds → times.length + 1 < U32 →
      (McapRecorder.startNewSegment config_ canOpen stamp now_s
          (McapRecorder.startSegments config_ canOpen stamp times {})).current_segment_file =
        config_.output_file ++ "_" ++ toString times.length ++ ".mcap" ∧
      (McapRecorder.startNewSegment config_ canOpen stamp now_s
          (McapRecorder.startSegments config_ canOpen stamp times {})).segment_counter =
        times.length + 1) ∧
    (config_.segment_interval_seconds = 0 →
      (McapRecorder.startNewSegment config_ canOpen stamp now_s {}).current_segment_file =
        config_.output_file ++ ".mcap" ∧
      ∀ polls, McapRecorder.session config_ canOpen stamp now_s polls =
        McapRecorder.startNewSegment config_ canOpen stamp now_s {}) := by
  constructor
  · intro hpos hfit
    have hcount : (McapRecorder.startSegments config_ canOpen stamp times {}).segment_counter =
        times.length := by
      have hzero : ({} : SegmentState).segment_counter < U32 := by
        show 0 < U32
        unfold U32
        norm_num
      rw [startSegments_counter config_ canOpen stamp times {} hzero]
      show (0 + times.length) % U32 = times.length
      rw [Nat.zero_add]
      exact Nat.mod_eq_of_lt (by omega)
    constructor
    · rw [startNewSegment_file config_ canOpen stamp now_s _ hstem, if_pos hpos, hcount]
    · rw [startNewSegment_counter, hcount]
      exact Nat.mod_eq_of_lt hfit
  · intro hzero
    constructor
    · rw [startNewSegment_file config_ canOpen stamp now_s _ hstem, if_neg (by omega)]
    · intro polls
      unfold McapRecorder.session
      exact session_interval_zero config_ canOpen stamp polls _ hzero

/-- Witness of C11: with stem `out` and interval 2, the call after two earlier
calls names `out_2.mcap` and leaves the counter at 3, the three files opened
being `out_0.mcap`, `out_1.mcap`, `out_2.mcap`; with interval 0 the file is
`out.mcap`. -/
theorem C11_segment_names_witness :
    ((McapRecorder.startNewSegment { output_file := "out", segment_interval_seconds := 2 }
          (fun _ => true) "20240101_000000" 104
          (McapRecorder.startSegments { output_file := "out", segment_interval_seconds := 2 }
            (fun _ => true) "20240101_000000" [100, 102] {})).current_segment_file =
        "out" ++ "_" ++ toString [100, 102].length ++ ".mcap" ∧
      (McapRecorder.startNewSegment { output_file := "out", segment_interval_seconds := 2 }
          (fun _ => true) "20240101_000000" 104
          (McapRecorder.startSegments { output_file := "out", segment_interval_seconds := 2 }
            (fun _ => true) "20240101_000000" [100, 102] {})).segment_counter =
        [100, 102].length + 1) ∧
    (McapRecorder.startNewSegment { output_file := "out", segment_interval_seconds := 2 }
        (fun _ => true) "20240101_000000" 104
        (McapRecorder.startSegments { output_file := "out", segment_interval_seconds := 2 }
          (fun _ => true) "20240101_000000" [100, 102] {})).opened =
      ["out_0.mcap", "out_1.mcap", "out_2.mcap"] ∧
    (McapRecorder.startNewSegment { output_file := "out", segment_interval_seconds := 0 }
        (fun _ => true) "20240101_000000" 100 {}).current_segment_file = "out" ++ ".mcap" :=
  ⟨(C11_segment_names { output_file := "out", segment_interval_seconds := 2 }
      (fun _ => true) "20240101_000000" [100, 102] 104 (by decide)).1 (by decide) (by decide),
   by decide,
   ((C11_segment_names { output_file := "out", segment_interval_seconds := 0 }
      (fun _ => true) "20240101_000000" [] 100 (by decide)).2 rfl).1⟩

/-- C12 at the failing input: when the MCAP writer can open no file,
`initialize` still returns `true`, `start` returns `true` and leaves the
running flag set (no writer is open), and the record command ends with exit
code 0. The same holds whatever the writer can open: `initialize` never
returns `false`. -/
theorem C12_open_failure_not_reported :
    (McapRecorder.initializeRecorder { output_file := "/no/such/dir/out" } (fun _ => false)
        "20240101_000000" 100 {}).1 = true ∧
    (McapRecorder.initializeRecorder { output_file := "/no/such/dir/out" } (fun _ => false)
        "20240101_000000" 100 {}).2.writer_open = false ∧
    (McapRecorder.start { output_file := "/no/such/dir/out" } (fun _ => false)
        "20240101_000000" 100 ({}, {})).1 = true ∧
    (McapRecorder.start { output_file := "/no/such/dir/out" } (fun _ => false)
        "20240101_000000" 100 ({}, {})).2.1.running = true ∧
    recordCommandExit { output_file := "/no/such/dir/out" } (fun _ => false)
        "20240101_000000" 100 = 0 ∧
    (∀ (config_ : RecordingConfig) (canOpen : String → Bool) (stamp : String) (now_s : Nat)
        (s : SegmentState),
      (McapRecorder.initializeRecorder config_ canOpen stamp now_s s).1 = true) := by
  refine ⟨by decide, by decide, by decide, by decide, by decide, ?_⟩
  intro config_ canOpen stamp now_s s
  rfl

/-! ## Live bridge: services and sink channels (C15, C16) -/

/-- C15 at the failing input: the parking service is in the allow-list, its
request type resolves and its response type does not. `discoverServices`
combines the two results of `init_type` with "or", so it calls the advertise
callback (with the schema text `null` for the response) and records the
service as known. -/
theorem C15_one_type_resolved_is_emitted :
    mssageManage.init_type parkingView "gwm.sm.parking.ParkingSMInfo" =
      some "gwm.sm.parking.ParkingSMInfo" ∧
    mssageManage.init_type parkingView "gwm.sm.parking.ParkingSMResponse" = none ∧
    (CyberBridge.discoverServices {} parkingView).2 =
      [BridgeEvent.serviceFound "/gwm/sm/parking_server"
        { name := "gwm.sm.parking.ParkingSMInfo",
          desc := "object-schema" }
        { name := "gwm.sm.parking.ParkingSMResponse", desc := "null" }] ∧
    (CyberBridge.discoverServices {} parkingView).1.services =
      [("/gwm/sm/parking_server", (some "gwm.sm.parking.ParkingSMInfo", none))] := by
  decide

/-- C16 at the failing input: the type `T` has a converter. `createChannel` of
`/a` creates `/a` and `/a/converted`; `closeChannel` of `/a` then removes `/a`
only, so `/a/converted` exists while `/a` does not. -/
theorem C16_close_leaves_converted_channel :
    (FoxgloveServer.createChannel sampleConverters (fun topic => some topic.length) {} "/a"
        { name := "T", desc := "d" }).1 = true ∧
    (FoxgloveServer.createChannel sampleConverters (fun topic => some topic.length) {} "/a"
        { name := "T", desc := "d" }).2.hasChannel "/a" = true ∧
    (FoxgloveServer.createChannel sampleConverters (fun topic => some topic.length) {} "/a"
        { name := "T", desc := "d" }).2.hasChannel "/a/converted" = true ∧
    (FoxgloveServer.closeChannel
        (FoxgloveServer.createChannel sampleConverters (fun topic => some topic.length) {} "/a"
          { name := "T", desc := "d" }).2 "/a").hasChannel "/a" = false ∧
    (FoxgloveServer.closeChannel
        (FoxgloveServer.createChannel sampleConverters (fun topic => some topic.length) {} "/a"
          { name := "T", desc := "d" }).2 "/a").hasChannel "/a/converted" = true := by
  decide

theorem lookup_eq_none_iff_not_mem_keys (l : List (String × Option String)) (t : String) :
    l.lookup t = none ↔ t ∉ l.map Prod.fst := by
  induction l with
  | nil => simp
  | cons e es ih =>
    obtain ⟨k, x⟩ := e
    by_cases h : t = k
    · subst h
      simp [List.lookup_cons]
    · have h2 : (t == k) = false := by simpa using h
      simp [List.lookup_cons, h2, ih, h]

theorem addTopic_cases (v : BusView) (acc : BridgeState × List BridgeEvent) (c : String) :
    ((c ∈ acc.1.writers ∨ c ∈ acc.1.known ∨ mssageManage.init_topic v c = none) ∧
      CyberBridge.addTopic v acc c = acc) ∨
    (c ∉ acc.1.writers ∧ c ∉ acc.1.known ∧ ∃ ty, mssageManage.init_topic v c = some ty ∧
      (CyberBridge.addTopic v acc c).1 =
        { acc.1 with msg_manages := acc.1.msg_manages ++ [(c, some ty)] } ∧
      (((v.hasWriter c = false ∨ v.fdSet ty = "") ∧ (CyberBridge.addTopic v acc c).2 = acc.2) ∨
       (v.hasWriter c = true ∧ v.fdSet ty ≠ "" ∧ (CyberBridge.addTopic v acc c).2 =
          acc.2 ++ [BridgeEvent.topicFound c { name := ty, desc := v.fdSet ty }]))) := by
  unfold CyberBridge.addTopic
  by_cases hw : c ∈ acc.1.writers
  · left
    rw [if_pos (by simpa using hw)]
    exact ⟨Or.inl hw, rfl⟩
  · rw [if_neg (by simpa using hw)]
    cases hl : acc.1.msg_manages.lookup c with
    | some x =>
      left
      refine ⟨Or.inr (Or.inl ?_), rfl⟩
      by_contra hk
      rw [(lookup_eq_none_iff_not_mem_keys _ _).2 hk] at hl
      exact Option.noConfusion hl
    | none =>
      have hk : c ∉ acc.1.known := (lookup_eq_none_iff_not_mem_keys _ _).1 hl
      cases hi : mssageManage.init_topic v c with
      | none => left; exact ⟨Or.inr (Or.inr rfl), rfl⟩
      | some ty =>
        right
        refine ⟨hw, hk, ty, rfl, ?_⟩
        rcases Bool.eq_false_or_eq_true (v.hasWriter c) with h | h
        · rcases Bool.eq_false_or_eq_true (v.fdSet ty).isEmpty with he | he
          · have he2 : v.fdSet ty = "" := (String.isEmpty_iff _).1 he
            simp [h, he]
            exact he2
          · have he2 : v.fdSet ty ≠ "" := by
              intro hh
              rw [(String.isEmpty_iff _).2 hh] at he
              exact Bool.noConfusion he
            simp [h, he, he2]
        · simp [h]

theorem addTopic_topics (v : BusView) (acc : BridgeState × List BridgeEvent) (c : String) :
    (CyberBridge.addTopic v acc c).1.topics = acc.1.topics := by
  rcases addTopic_cases v acc c with ⟨_, h⟩ | ⟨_, _, ty, _, h, _⟩
  · rw [h]
  · rw [h]

theorem addTopic_writers (v : BusView) (acc : BridgeState × List BridgeEvent) (c : String) :
    (CyberBridge.addTopic v acc c).1.writers = acc.1.writers := by
  rcases addTopic_cases v acc c with ⟨_, h⟩ | ⟨_, _, ty, _, h, _⟩
  · rw [h]
  · rw [h]

theorem addTopic_known (v : BusView) (acc : BridgeState × List BridgeEvent) (c : String) :
    (CyberBridge.addTopic v acc c).1.known = acc.1.known ∨
    (CyberBridge.addTopic v acc c).1.known = acc.1.known ++ [c] := by
  rcases addTopic_cases v acc c with ⟨_, h⟩ | ⟨_, _, ty, _, h, _⟩
  · left; rw [h]
  · right; rw [h]; simp [BridgeState.known]

theorem addTopic_known_mono (v : BusView) (acc : BridgeState × List BridgeEvent) (c x : String)
    (hx : x ∈ acc.1.known) : x ∈ (CyberBridge.addTopic v acc c).1.known := by
  rcases addTopic_known v acc c with h | h
  · rw [h]; exact hx
  · rw [h]; exact List.mem_append_left _ hx

theorem addTopic_known_ne (v : BusView) (acc : BridgeState × List BridgeEvent) (c t : String)
    (hne : c ≠ t) (ht : t ∉ acc.1.known) : t ∉ (CyberBridge.addTopic v acc c).1.known := by
  rcases addTopic_known v acc c with h | h
  · rw [h]; exact ht
  · rw [h]
    intro hm
    rcases List.mem_append.1 hm with h1 | h1
    · exact ht h1
    · exact hne (List.mem_singleton.1 h1).symm

theorem foundCount_append (t : String) (xs ys : List BridgeEvent) :
    foundCount t (xs ++ ys) = foundCount t xs + foundCount t ys := by
  simp [foundCount]

theorem addTopic_found_ne (v : BusView) (acc : BridgeState × List BridgeEvent) (c t : String)
    (hne : c ≠ t) : foundCount t (CyberBridge.addTopic v acc c).2 = foundCount t acc.2 := by
  rcases addTopic_cases v acc c with ⟨_, h⟩ | ⟨_, _, ty, _, _, h | h⟩
  · rw [h]
  · rw [h.2]
  · rw [h.2.2, foundCount_append]
    have h2 : (c == t) = false := by simpa using hne
    simp [foundCount, BridgeEvent.isFoundOf, h2]

theorem addTopic_skip (v : BusView) (acc : BridgeState × List BridgeEvent) (t : String)
    (h : t ∈ acc.1.writers ∨ t ∈ acc.1.known ∨ mssageManage.init_topic v t = none) :
    CyberBridge.addTopic v acc t = acc := by
  rcases addTopic_cases v acc t with ⟨_, h1⟩ | ⟨hw, hk, ty, hi, _, _⟩
  · exact h1
  · rcases h with h | h | h
    · exact absurd h hw
    · exact absurd h hk
    · rw [h] at hi
      exact Option.noConfusion hi

theorem addTopic_new (v : BusView) (acc : BridgeState × List BridgeEvent) (t ty : String)
    (hw : t ∉ acc.1.writers) (hk : t ∉ acc.1.known)
    (hi : mssageManage.init_topic v t = some ty) (hp : v.hasWriter t = true)
    (hd : v.fdSet ty ≠ "") :
    t ∈ (CyberBridge.addTopic v acc t).1.known ∧
    (CyberBridge.addTopic v acc t).2 =
      acc.2 ++ [BridgeEvent.topicFound t { name := ty, desc := v.fdSet ty }] := by
  rcases addTopic_cases v acc t with ⟨h | h | h, _⟩ | ⟨_, _, ty2, hi2, h, h2⟩
  · exact absurd h hw
  · exact absurd h hk
  · rw [h] at hi
    exact Option.noConfusion hi
  · have hty : ty2 = ty := by
      rw [hi] at hi2
      exact (Option.some.inj hi2).symm
    subst hty
    refine ⟨?_, ?_⟩
    · rw [h]
      simp [BridgeState.known]
    · rcases h2 with ⟨h3 | h3, _⟩ | ⟨_, _, h3⟩
      · rw [hp] at h3
        exact Bool.noConfusion h3
      · exact absurd h3 hd
      · exact h3

theorem addTopic_unresolved (v : BusView) (acc : BridgeState × List BridgeEvent) (c : String)
    (hw : c ∉ acc.1.writers) (hk : c ∉ (CyberBridge.addTopic v acc c).1.known) :
    mssageManage.init_topic v c = none := by
  rcases addTopic_cases v acc c with ⟨h | h | h, h1⟩ | ⟨_, _, ty, _, h, _⟩
  · exact absurd h hw
  · rw [h1] at hk
    exact absurd h hk
  · exact h
  · exfalso
    apply hk
    rw [h]
    simp [BridgeState.known]

theorem onUnsubscribe_fields (b : BridgeState) (k : String) :
    (CyberBridge.onUnsubscribe b k).msg_manages = b.msg_manages ∧
    (CyberBridge.onUnsubscribe b k).topics = b.topics ∧
    (CyberBridge.onUnsubscribe b k).writers = b.writers := by
  unfold CyberBridge.onUnsubscribe
  split <;> exact ⟨rfl, rfl, rfl⟩

theorem dropLostFrom_none (topics : List String) (b : BridgeState)
    (es : List (String × Option String)) (h : ∀ e ∈ es, e.1 ∈ topics) :
    CyberBridge.dropLostFrom topics b es = (b, []) := by
  induction es with
  | nil => rfl
  | cons e rest ih =>
    obtain ⟨k, x⟩ := e
    have hk : k ∈ topics := h (k, x) (List.mem_cons_self _ _)
    unfold CyberBridge.dropLostFrom
    rw [if_pos (by simpa using hk)]
    exact ih (fun e he => h e (List.mem_cons_of_mem _ he))

theorem dropLostFrom_spec (topics : List String) (es : List (String × Option String)) :
    ∀ b : BridgeState,
      (CyberBridge.dropLostFrom topics b es).1.topics = b.topics ∧
      (CyberBridge.dropLostFrom topics b es).1.writers = b.writers ∧
      (∀ t, foundCount t (CyberBridge.dropLostFrom topics b es).2 = 0) ∧
      (∀ x, x ∈ (CyberBridge.dropLostFrom topics b es).1.known →
        x ∈ b.known ∧ (x ∈ topics ∨ x ∉ es.map Prod.fst)) := by
  induction es with
  | nil =>
    intro b
    refine ⟨rfl, rfl, fun t => rfl, fun x hx => ⟨hx, Or.inr (by simp)⟩⟩
  | cons e rest ih =>
    obtain ⟨k, y⟩ := e
    intro b
    by_cases hk : k ∈ topics
    · have hstep : CyberBridge.dropLostFrom topics b ((k, y) :: rest) =
          CyberBridge.dropLostFrom topics b rest := by
        rw [CyberBridge.dropLostFrom, if_pos (by simpa using hk)]
      rw [hstep]
      obtain ⟨h1, h2, h3, h4⟩ := ih b
      refine ⟨h1, h2, h3, fun x hx => ⟨(h4 x hx).1, ?_⟩⟩
      rcases (h4 x hx).2 with h5 | h5
      · exact Or.inl h5
      · by_cases hxk : x = k
        · left; rw [hxk]; exact hk
        · right
          simp only [List.map_cons, List.mem_cons, not_or]
          exact ⟨hxk, h5⟩
    · obtain ⟨u1, u2, u3⟩ := onUnsubscribe_fields b k
      have hstep : CyberBridge.dropLostFrom topics b ((k, y) :: rest) =
          ((CyberBridge.dropLostFrom topics
              { CyberBridge.onUnsubscribe b k with
                msg_manages := (CyberBridge.onUnsubscribe b k).msg_manages.filter
                  (fun e => e.1 != k) } rest).1,
            BridgeEvent.topicLost k ::
            (CyberBridge.dropLostFrom topics
              { CyberBridge.onUnsubscribe b k with
                msg_manages := (CyberBridge.onUnsubscribe b k).msg_manages.filter
                  (fun e => e.1 != k) } rest).2) := by
        rw [CyberBridge.dropLostFrom, if_neg (by simpa using hk)]
      rw [hstep]
      obtain ⟨h1, h2, h3, h4⟩ := ih { CyberBridge.onUnsubscribe b k with
                msg_manages := (CyberBridge.onUnsubscribe b k).msg_manages.filter
                  (fun e => e.1 != k) }
      refine ⟨by rw [h1]; exact u2, by rw [h2]; exact u3, ?_, ?_⟩
      · intro t
        have h5 := h3 t
        simp only [foundCount] at h5 ⊢
        simpa [List.filter_cons, BridgeEvent.isFoundOf] using h5
      · intro x hx
        obtain ⟨h5, h6⟩ := h4 x hx
        have h7 : x ∈ b.known ∧ x ≠ k := by
          simp only [BridgeState.known, u1, List.mem_map, List.mem_filter] at h5
          obtain ⟨a, ⟨ha, hne⟩, hax⟩ := h5
          refine ⟨?_, ?_⟩
          · simp only [BridgeState.known, List.mem_map]
            exact ⟨a, ha, hax⟩
          · rw [← hax]
            simpa using hne
        refine ⟨h7.1, ?_⟩
        rcases h6 with h6 | h6
        · exact Or.inl h6
        · right
          simp only [List.map_cons, List.mem_cons, not_or]
          exact ⟨h7.2, h6⟩

theorem addLoop_spec (v : BusView) (l : List String) :
    ∀ acc : BridgeState × List BridgeEvent,
      (l.foldl (CyberBridge.addTopic v) acc).1.topics = acc.1.topics ∧
      (l.foldl (CyberBridge.addTopic v) acc).1.writers = acc.1.writers ∧
      (∀ x, x ∈ acc.1.known → x ∈ (l.foldl (CyberBridge.addTopic v) acc).1.known) ∧
      (∀ x, x ∈ (l.foldl (CyberBridge.addTopic v) acc).1.known → x ∈ acc.1.known ∨ x ∈ l) ∧
      (∀ e, e ∈ acc.2 → e ∈ (l.foldl (CyberBridge.addTopic v) acc).2) ∧
      (∀ x, x ∈ l → x ∉ acc.1.writers → x ∉ (l.foldl (CyberBridge.addTopic v) acc).1.known →
        mssageManage.init_topic v x = none) := by
  induction l with
  | nil =>
    intro acc
    refine ⟨rfl, rfl, fun x hx => hx, fun x hx => Or.inl hx, fun e he => he, ?_⟩
    intro x hx
    exact absurd hx (List.not_mem_nil x)
  | cons c cs ih =>
    intro acc
    obtain ⟨h1, h2, h3, h4, h5, h6⟩ := ih (CyberBridge.addTopic v acc c)
    rw [List.foldl_cons]
    refine ⟨by rw [h1, addTopic_topics], by rw [h2, addTopic_writers],
      fun x hx => h3 x (addTopic_known_mono v acc c x hx), ?_, ?_, ?_⟩
    · intro x hx
      rcases h4 x hx with h | h
      · rcases addTopic_known v acc c with hk | hk
        · rw [hk] at h; exact Or.inl h
        · rw [hk] at h
          rcases List.mem_append.1 h with h7 | h7
          · exact Or.inl h7
          · right
            rw [List.mem_singleton.1 h7]
            exact List.mem_cons_self _ _
      · exact Or.inr (List.mem_cons_of_mem _ h)
    · intro e he
      apply h5
      rcases addTopic_cases v acc c with ⟨_, h⟩ | ⟨_, _, ty, _, _, h | h⟩
      · rw [h]; exact he
      · rw [h.2]; exact he
      · rw [h.2.2]; exact List.mem_append_left _ he
    · intro x hx hw hk
      rcases List.mem_cons.1 hx with hxc | hxc
      · subst hxc
        apply addTopic_unresolved v acc x hw
        intro hm
        exact hk (h3 x hm)
      · apply h6 x hxc _ hk
        rw [addTopic_writers]
        exact hw

theorem addLoop_skip (v : BusView) (t : String) (l : List String) :
    ∀ acc : BridgeState × List BridgeEvent,
      (t ∈ acc.1.writers ∨ t ∈ acc.1.known ∨ mssageManage.init_topic v t = none) →
      foundCount t (l.foldl (CyberBridge.addTopic v) acc).2 = foundCount t acc.2 ∧
      (t ∉ acc.1.known → t ∉ (l.foldl (CyberBridge.addTopic v) acc).1.known) := by
  induction l with
  | nil =>
    intro acc _
    exact ⟨rfl, fun h => h⟩
  | cons c cs ih =>
    intro acc hs
    rw [List.foldl_cons]
    by_cases hc : c = t
    · subst hc
      rw [addTopic_skip v acc c hs]
      exact ih acc hs
    · have hs2 : t ∈ (CyberBridge.addTopic v acc c).1.writers ∨
          t ∈ (CyberBridge.addTopic v acc c).1.known ∨ mssageManage.init_topic v t = none := by
        rcases hs with h | h | h
        · left; rw [addTopic_writers]; exact h
        · right; left; exact addTopic_known_mono v acc c t h
        · right; right; exact h
      obtain ⟨h1, h2⟩ := ih (CyberBridge.addTopic v acc c) hs2
      refine ⟨by rw [h1, addTopic_found_ne v acc c t hc], fun hk => ?_⟩
      exact h2 (addTopic_known_ne v acc c t hc hk)

theorem addLoop_new (v : BusView) (t ty : String)
    (hi : mssageManage.init_topic v t = some ty) (hp : v.hasWriter t = true)
    (hd : v.fdSet ty ≠ "") (l : List String) :
    ∀ acc : BridgeState × List BridgeEvent, t ∈ l → t ∉ acc.1.writers → t ∉ acc.1.known →
      foundCount t (l.foldl (CyberBridge.addTopic v) acc).2 = foundCount t acc.2 + 1 ∧
      BridgeEvent.topicFound t { name := ty, desc := v.fdSet ty } ∈
        (l.foldl (CyberBridge.addTopic v) acc).2 ∧
      t ∈ (l.foldl (CyberBridge.addTopic v) acc).1.known := by
  induction l with
  | nil =>
    intro acc ht
    exact absurd ht (List.not_mem_nil t)
  | cons c cs ih =>
    intro acc ht hw hk
    rw [List.foldl_cons]
    by_cases hc : c = t
    · subst hc
      obtain ⟨h1, h2⟩ := addTopic_new v acc c ty hw hk hi hp hd
      obtain ⟨h3, _⟩ := addLoop_skip v c cs (CyberBridge.addTopic v acc c) (Or.inr (Or.inl h1))
      obtain ⟨_, _, h4, _, h5, _⟩ := addLoop_spec v cs (CyberBridge.addTopic v acc c)
      refine ⟨?_, ?_, h4 c h1⟩
      · rw [h3, h2, foundCount_append]
        simp [foundCount, BridgeEvent.isFoundOf]
      · apply h5
        rw [h2]
        exact List.mem_append_right _ (List.mem_singleton.2 rfl)
    · have ht2 : t ∈ cs := by
        rcases List.mem_cons.1 ht with h | h
        · exact absurd h.symm hc
        · exact h
      have hw2 : t ∉ (CyberBridge.addTopic v acc c).1.writers := by
        rw [addTopic_writers]; exact hw
      obtain ⟨h1, h2, h3⟩ := ih (CyberBridge.addTopic v acc c) ht2 hw2
        (addTopic_known_ne v acc c t hc hk)
      exact ⟨by rw [h1, addTopic_found_ne v acc c t hc], h2, h3⟩

theorem addLoop_id (v : BusView) (acc : BridgeState × List BridgeEvent) (l : List String)
    (h : ∀ x ∈ l, x ∈ acc.1.writers ∨ x ∈ acc.1.known ∨ mssageManage.init_topic v x = none) :
    l.foldl (CyberBridge.addTopic v) acc = acc := by
  induction l with
  | nil => rfl
  | cons c cs ih =>
    rw [List.foldl_cons, addTopic_skip v acc c (h c (List.mem_cons_self _ _))]
    exact ih (fun x hx => h x (List.mem_cons_of_mem _ hx))

theorem discoverTopics_same (b : BridgeState) (v : BusView) (h : v.topics = b.topics) :
    CyberBridge.discoverTopics b v = (b, []) := by
  unfold CyberBridge.discoverTopics
  rw [if_pos h]

theorem discoverTopics_changed (b : BridgeState) (v : BusView) (h : v.topics ≠ b.topics) :
    CyberBridge.discoverTopics b v =
      v.topics.foldl (CyberBridge.addTopic v)
        (CyberBridge.dropLostFrom v.topics { b with topics := v.topics } b.msg_manages) := by
  unfold CyberBridge.discoverTopics
  rw [if_neg h]

theorem discoverTopics_topics (b : BridgeState) (v : BusView) :
    (CyberBridge.discoverTopics b v).1.topics = v.topics := by
  by_cases h : v.topics = b.topics
  · rw [discoverTopics_same b v h]
    exact h.symm
  · rw [discoverTopics_changed b v h, (addLoop_spec v _ _).1, (dropLostFrom_spec _ _ _).1]

theorem discoverTopics_writers (b : BridgeState) (v : BusView) :
    (CyberBridge.discoverTopics b v).1.writers = b.writers := by
  by_cases h : v.topics = b.topics
  · rw [discoverTopics_same b v h]
  · rw [discoverTopics_changed b v h, (addLoop_spec v _ _).2.1, (dropLostFrom_spec _ _ _).2.1]

theorem discoverTopics_new (b : BridgeState) (v : BusView) (t ty : String)
    (hchg : v.topics ≠ b.topics) (ht : t ∈ v.topics) (hk : t ∉ b.known) (hw : t ∉ b.writers)
    (hi : mssageManage.init_topic v t = some ty) (hp : v.hasWriter t = true)
    (hd : v.fdSet ty ≠ "") :
    foundCount t (CyberBridge.discoverTopics b v).2 = 1 ∧
    BridgeEvent.topicFound t { name := ty, desc := v.fdSet ty } ∈
      (CyberBridge.discoverTopics b v).2 ∧
    t ∈ (CyberBridge.discoverTopics b v).1.known := by
  obtain ⟨_, d2, d3, d4⟩ :=
    dropLostFrom_spec v.topics b.msg_manages { b with topics := v.topics }
  have hw2 : t ∉ (CyberBridge.dropLostFrom v.topics { b with topics := v.topics }
      b.msg_manages).1.writers := by
    rw [d2]; exact hw
  have hk2 : t ∉ (CyberBridge.dropLostFrom v.topics { b with topics := v.topics }
      b.msg_manages).1.known := fun hm => hk (d4 t hm).1
  obtain ⟨h1, h2, h3⟩ := addLoop_new v t ty hi hp hd v.topics _ ht hw2 hk2
  rw [discoverTopics_changed b v hchg]
  refine ⟨?_, h2, h3⟩
  rw [h1, d3 t]

theorem discoverTopics_unresolved (b : BridgeState) (v : BusView) (t : String)
    (hk : t ∉ b.known) (hw : t ∉ b.writers) (hi : mssageManage.init_topic v t = none) :
    foundCount t (CyberBridge.discoverTopics b v).2 = 0 ∧
    t ∉ (CyberBridge.discoverTopics b v).1.known ∧
    t ∉ (CyberBridge.discoverTopics b v).1.writers := by
  refine ⟨?_, ?_, by rw [discoverTopics_writers]; exact hw⟩
  · by_cases h : v.topics = b.topics
    · rw [discoverTopics_same b v h]
      rfl
    · rw [discoverTopics_changed b v h, (addLoop_skip v t _ _ (Or.inr (Or.inr hi))).1]
      exact (dropLostFrom_spec _ _ _).2.2.1 t
  · by_cases h : v.topics = b.topics
    · rw [discoverTopics_same b v h]
      exact hk
    · rw [discoverTopics_changed b v h]
      apply (addLoop_skip v t _ _ (Or.inr (Or.inr hi))).2
      intro hm
      exact hk ((dropLostFrom_spec _ _ _).2.2.2 t hm).1

theorem discoverTopics_known_listed (b : BridgeState) (v : BusView) (hchg : v.topics ≠ b.topics)
    (x : String) (hx : x ∈ (CyberBridge.discoverTopics b v).1.known) : x ∈ v.topics := by
  rw [discoverTopics_changed b v hchg] at hx
  rcases (addLoop_spec v _ _).2.2.2.1 x hx with h | h
  · rcases ((dropLostFrom_spec _ _ _).2.2.2 x h) with ⟨h1, h2 | h2⟩
    · exact h2
    · exact absurd h1 h2
  · exact h

theorem discoverTopics_known_stays (b : BridgeState) (v : BusView) (t : String)
    (hk : t ∈ b.known) (hl : ∀ x ∈ b.known, x ∈ v.topics) :
    foundCount t (CyberBridge.discoverTopics b v).2 = 0 := by
  by_cases h : v.topics = b.topics
  · rw [discoverTopics_same b v h]
    rfl
  · have hd : CyberBridge.dropLostFrom v.topics { b with topics := v.topics } b.msg_manages =
        ({ b with topics := v.topics }, []) := by
      apply dropLostFrom_none
      intro e he
      apply hl
      simp only [BridgeState.known, List.mem_map]
      exact ⟨e, he, rfl⟩
    rw [discoverTopics_changed b v h, hd,
      (addLoop_skip v t _ _ (Or.inr (Or.inl hk))).1]
    rfl

theorem discoverTicks_unresolved (t : String) (fails : List BusView) :
    ∀ b : BridgeState, t ∉ b.known → t ∉ b.writers →
      (∀ u ∈ fails, mssageManage.init_topic u t = none) →
      (∀ evs ∈ (CyberBridge.discoverTicks b fails).2, foundCount t evs = 0) ∧
      t ∉ (CyberBridge.discoverTicks b fails).1.known ∧
      t ∉ (CyberBridge.discoverTicks b fails).1.writers := by
  induction fails with
  | nil =>
    intro b hk hw _
    refine ⟨?_, hk, hw⟩
    intro evs he
    exact absurd he (List.not_mem_nil evs)
  | cons u us ih =>
    intro b hk hw hf
    obtain ⟨h1, h2, h3⟩ := discoverTopics_unresolved b u t hk hw (hf u (List.mem_cons_self _ _))
    obtain ⟨h4, h5, h6⟩ := ih (CyberBridge.discoverTopics b u).1 h2 h3
      (fun x hx => hf x (List.mem_cons_of_mem _ hx))
    refine ⟨?_, h5, h6⟩
    intro evs he
    simp only [CyberBridge.discoverTicks, List.mem_cons] at he
    rcases he with he | he
    · rw [he]; exact h1
    · exact h4 evs he

theorem store_lookup_other (st : ParserState) (key K : String) (values : List String)
    (h : key ≠ K) :
    (ArgParser.store st key values).args.lookup K = st.args.lookup K ∧
    (ArgParser.store st key values).multi_args.lookup K = st.multi_args.lookup K := by
  have h2 : (K == key) = false := by simpa using fun e : K = key => h e.symm
  unfold ArgParser.store
  split <;> simp [List.lookup_cons, h2]

theorem parseLong_frame (body : String) (rest : List String) (st : ParserState) (K : String)
    (h : ArgParser.keyOfLong body ≠ K) :
    (ArgParser.parseLong body rest st).1.args.lookup K = st.args.lookup K ∧
    (ArgParser.parseLong body rest st).1.multi_args.lookup K = st.multi_args.lookup K := by
  unfold ArgParser.keyOfLong at h
  unfold ArgParser.parseLong
  cases hs : ArgParser.splitAtEq body with
  | some kv =>
    obtain ⟨key, value⟩ := kv
    rw [hs] at h
    have h2 : (K == key) = false := by
      simpa using fun e : K = key => h e.symm
    simp [List.lookup_cons, h2]
  | none =>
    rw [hs] at h
    exact store_lookup_other st body K _ h

theorem parseShort_frame (stl : List (String × String)) (short_opt : String)
    (rest : List String) (st : ParserState) (K : String)
    (h : ArgParser.keyOfShort stl short_opt ≠ K) :
    (ArgParser.parseShort stl short_opt rest st).1.args.lookup K = st.args.lookup K ∧
    (ArgParser.parseShort stl short_opt rest st).1.multi_args.lookup K =
      st.multi_args.lookup K := by
  unfold ArgParser.keyOfShort at h
  unfold ArgParser.parseShort
  cases hl : stl.lookup short_opt with
  | some long_opt =>
    rw [hl] at h
    exact store_lookup_other st long_opt K _ h
  | none =>
    rw [hl] at h
    have h2 : (K == short_opt) = false := by
      simpa using fun e : K = short_opt => h e.symm
    cases rest with
    | nil => simp [List.lookup_cons, h2]
    | cons next more =>
      rcases Bool.eq_false_or_eq_true (notOption next) with hn | hn
      · simp [hn, List.lookup_cons, h2]
      · simp [hn, List.lookup_cons, h2]

theorem parseToken_frame (stl : List (String × String)) (arg : String) (rest : List String)
    (st : ParserState) (K : String) (h : ArgParser.keyOf stl arg ≠ some K) :
    (ArgParser.parseToken stl arg rest st).1.args.lookup K = st.args.lookup K ∧
    (ArgParser.parseToken stl arg rest st).1.multi_args.lookup K = st.multi_args.lookup K := by
  unfold ArgParser.keyOf at h
  unfold ArgParser.parseToken
  cases hc : ArgParser.classify arg with
  | long body =>
    rw [hc] at h
    exact parseLong_frame body rest st K (fun e => h (congrArg some e))
  | short short_opt =>
    rw [hc] at h
    exact parseShort_frame stl short_opt rest st K (fun e => h (congrArg some e))
  | positional => exact ⟨rfl, rfl⟩

theorem length_takeWhile_le_length (p : String → Bool) (l : List String) :
    (l.takeWhile p).length ≤ l.length := by
  induction l with
  | nil => exact Nat.le_refl _
  | cons a as ih =>
    rcases Bool.eq_false_or_eq_true (p a) with ha | ha
    · simp only [List.takeWhile_cons, ha, if_true, List.length_cons]
      exact Nat.succ_le_succ ih
    · simp [List.takeWhile_cons, ha]

theorem parseToken_skip_le (stl : List (String × String)) (arg : String) (rest : List String)
    (st : ParserState) : (ArgParser.parseToken stl arg rest st).2 ≤ rest.length := by
  unfold ArgParser.parseToken
  cases ArgParser.classify arg with
  | long body =>
    show (ArgParser.parseLong body rest st).2 ≤ rest.length
    unfold ArgParser.parseLong
    cases ArgParser.splitAtEq body with
    | some kv => exact Nat.zero_le _
    | none => exact length_takeWhile_le_length _ _
  | short short_opt =>
    show (ArgParser.parseShort stl short_opt rest st).2 ≤ rest.length
    unfold ArgParser.parseShort
    cases stl.lookup short_opt with
    | some long_opt => exact length_takeWhile_le_length _ _
    | none =>
      cases rest with
      | nil => exact Nat.zero_le _
      | cons next more =>
        rcases Bool.eq_false_or_eq_true (notOption next) with hn | hn
        · simp [hn]
        · simp [hn]
  | positional => exact Nat.zero_le _

theorem takeWhile_append_stop (A B : List String) (b : String) (hb : notOption b = false) :
    (A ++ b :: B).takeWhile notOption = A.takeWhile notOption := by
  induction A with
  | nil => simp [List.takeWhile_cons, hb]
  | cons a as ih =>
    rcases Bool.eq_false_or_eq_true (notOption a) with ha | ha
    · simp [List.takeWhile_cons, ha, ih]
    · simp [List.takeWhile_cons, ha]

theorem parseToken_append_stop (stl : List (String × String)) (arg : String)
    (A B : List String) (b : String) (hb : notOption b = false) (st : ParserState) :
    ArgParser.parseToken stl arg (A ++ b :: B) st = ArgParser.parseToken stl arg A st := by
  unfold ArgParser.parseToken
  cases ArgParser.classify arg with
  | long body =>
    show ArgParser.parseLong body (A ++ b :: B) st = ArgParser.parseLong body A st
    unfold ArgParser.parseLong
    cases ArgParser.splitAtEq body with
    | some kv => rfl
    | none => simp only [takeWhile_append_stop A B b hb]
  | short short_opt =>
    show ArgParser.parseShort stl short_opt (A ++ b :: B) st =
      ArgParser.parseShort stl short_opt A st
    unfold ArgParser.parseShort
    cases stl.lookup short_opt with
    | some long_opt => simp only [takeWhile_append_stop A B b hb]
    | none =>
      cases A with
      | nil => simp [hb]
      | cons a as => rfl
  | positional => rfl

theorem parseFrom_frame (stl : List (String × String)) (K : String) (toks : List String) :
    ∀ (skip : Nat) (st : ParserState), (∀ tok ∈ toks, ArgParser.keyOf stl tok ≠ some K) →
      (ArgParser.parseFrom stl toks skip st).args.lookup K = st.args.lookup K ∧
      (ArgParser.parseFrom stl toks skip st).multi_args.lookup K = st.multi_args.lookup K := by
  induction toks with
  | nil =>
    intro skip st _
    exact ⟨rfl, rfl⟩
  | cons a as ih =>
    intro skip st h
    have has : ∀ tok ∈ as, ArgParser.keyOf stl tok ≠ some K :=
      fun tok ht => h tok (List.mem_cons_of_mem _ ht)
    cases skip with
    | succ k => exact ih k st has
    | zero =>
      obtain ⟨h1, h2⟩ := parseToken_frame stl a as st K (h a (List.mem_cons_self _ _))
      obtain ⟨h3, h4⟩ := ih (ArgParser.parseToken stl a as st).2
        (ArgParser.parseToken stl a as st).1 has
      rw [ArgParser.parseFrom]
      exact ⟨h3.trans h1, h4.trans h2⟩

theorem parseFrom_append (stl : List (String × String)) (b : String) (B : List String)
    (hb : notOption b = false) (pre : List String) :
    ∀ (skip : Nat) (st : ParserState), skip ≤ pre.length →
      ArgParser.parseFrom stl (pre ++ b :: B) skip st =
        ArgParser.parseFrom stl (b :: B) 0 (ArgParser.parseFrom stl pre skip st) := by
  induction pre with
  | nil =>
    intro skip st h
    have h0 : skip = 0 := Nat.le_zero.1 h
    subst h0
    rfl
  | cons a as ih =>
    intro skip st h
    cases skip with
    | succ k =>
      have h2 : k ≤ as.length := Nat.le_of_succ_le_succ h
      rw [List.cons_append, ArgParser.parseFrom, ArgParser.parseFrom]
      exact ih k st h2
    | zero =>
      rw [List.cons_append, ArgParser.parseFrom, ArgParser.parseFrom,
        parseToken_append_stop stl a as B b hb st]
      exact ih _ _ (parseToken_skip_le stl a as st)

theorem parseFrom_skip (stl : List (String × String)) (post : List String)
    (vs : List String) :
    ∀ st : ParserState, ArgParser.parseFrom stl (vs ++ post) vs.length st =
      ArgParser.parseFrom stl post 0 st := by
  induction vs with
  | nil => intro st; rfl
  | cons v more ih =>
    intro st
    rw [List.cons_append, List.length_cons, ArgParser.parseFrom]
    exact ih st

theorem takeWhile_all (values : List String) (h : ∀ x ∈ values, notOption x = true) :
    values.takeWhile notOption = values := by
  induction values with
  | nil => rfl
  | cons v vs ih =>
    rw [List.takeWhile_cons, h v (List.mem_cons_self _ _)]
    simp only [if_true]
    rw [ih (fun x hx => h x (List.mem_cons_of_mem _ hx))]

theorem takeWhile_values (values post : List String)
    (hvals : ∀ x ∈ values, notOption x = true)
    (hpost : ∀ p ∈ post.head?, notOption p = false) :
    (values ++ post).takeWhile notOption = values := by
  cases post with
  | nil => rw [List.append_nil, takeWhile_all values hvals]
  | cons p ps =>
    rw [takeWhile_append_stop values ps p (hpost p rfl), takeWhile_all values hvals]

theorem classify_short_notOption (opt name : String)
    (h : ArgParser.classify opt = TokenKind.short name) : notOption opt = false := by
  unfold ArgParser.classify at h
  unfold notOption
  cases hd : opt.data with
  | nil =>
    rw [hd] at h
    exact TokenKind.noConfusion h
  | cons c cs =>
    by_cases hc : c = '-'
    · subst hc
      rfl
    · rw [hd] at h
      exfalso
      split at h
      · rename_i heq
        exact hc (List.cons.inj heq).1
      · rename_i heq
        exact hc (List.cons.inj heq).1
      · exact TokenKind.noConfusion h

theorem store_lookup_same (st : ParserState) (K : String) (values : List String) :
    (ArgParser.store st K values).args.lookup K =
      ArgParser.storedSingle (st.args.lookup K) values ∧
    (ArgParser.store st K values).multi_args.lookup K =
      ArgParser.storedMulti (st.multi_args.lookup K) values := by
  unfold ArgParser.store ArgParser.storedSingle ArgParser.storedMulti
  match values with
  | [] => simp [List.lookup_cons]
  | [v] => simp [List.lookup_cons]
  | v :: w :: more => simp [List.lookup_cons]

/-- The state of the parser at a key that one registered short option of the
command line assigns and no other token does. -/
theorem parseFrom_registered_short (stl : List (String × String)) (opt name K : String)
    (hc : ArgParser.classify opt = TokenKind.short name) (hl : stl.lookup name = some K)
    (pre values post : List String)
    (hother : ∀ tok ∈ pre ++ post, ArgParser.keyOf stl tok ≠ some K)
    (hvals : ∀ x ∈ values, notOption x = true)
    (hpost : ∀ p ∈ post.head?, notOption p = false) :
    (ArgParser.parseFrom stl (pre ++ opt :: (values ++ post)) 0 {}).args.lookup K =
      ArgParser.storedSingle none values ∧
    (ArgParser.parseFrom stl (pre ++ opt :: (values ++ post)) 0 {}).multi_args.lookup K =
      ArgParser.storedMulti none values := by
  have hpre : ∀ tok ∈ pre, ArgParser.keyOf stl tok ≠ some K :=
    fun tok ht => hother tok (List.mem_append_left _ ht)
  have hpst : ∀ tok ∈ post, ArgParser.keyOf stl tok ≠ some K :=
    fun tok ht => hother tok (List.mem_append_right _ ht)
  have htok : ∀ st : ParserState, ArgParser.parseToken stl opt (values ++ post) st =
      (ArgParser.store st K values, values.length) := by
    intro st
    unfold ArgParser.parseToken
    rw [hc]
    show ArgParser.parseShort stl name (values ++ post) st = _
    unfold ArgParser.parseShort
    rw [hl]
    simp only [takeWhile_values values post hvals hpost]
  obtain ⟨p1, p2⟩ := parseFrom_frame stl K pre 0 {} hpre
  rw [parseFrom_append stl opt (values ++ post) (classify_short_notOption opt name hc) pre 0 {}
    (Nat.zero_le _), ArgParser.parseFrom, htok, parseFrom_skip]
  obtain ⟨q1, q2⟩ := parseFrom_frame stl K post 0
    (ArgParser.store (ArgParser.parseFrom stl pre 0 {}) K values) hpst
  obtain ⟨s1, s2⟩ := store_lookup_same (ArgParser.parseFrom stl pre 0 {}) K values
  rw [q1, q2, s1, s2, p1, p2]
  exact ⟨rfl, rfl⟩

theorem getAll_registered_short (st : ParserState) (K : String) (values : List String)
    (h1 : st.args.lookup K = ArgParser.storedSingle none values)
    (h2 : st.multi_args.lookup K = ArgParser.storedMulti none values)
    (hv : values ≠ []) (hne : values ≠ [""]) :
    ArgParser.getAll st K = values ∧ ArgParser.has st K = true := by
  unfold ArgParser.getAll ArgParser.has
  rw [h1, h2]
  unfold ArgParser.storedSingle ArgParser.storedMulti
  match values, hv, hne with
  | [v], _, hne =>
    have hv2 : v ≠ "" := fun e => hne (by rw [e])
    have hv3 : v.isEmpty = false := by
      rcases Bool.eq_false_or_eq_true v.isEmpty with he | he
      · exact absurd ((String.isEmpty_iff _).1 he) hv2
      · exact he
    simp [hv3]
  | v :: w :: more, _, _ => simp

theorem recordConfigOfArgs_white (output : String) (discovery : Int) (segment : Nat)
    (a : FilterArgs) :
    (recordConfigOfArgs output discovery segment a).white_channels =
      if a.hasWhite then setInsertAll [] a.whiteValues else [] := by
  unfold recordConfigOfArgs
  cases a.hasWhite <;> cases a.hasBlack <;> simp <;> split <;> rfl

theorem recordConfigOfArgs_black (output : String) (discovery : Int) (segment : Nat)
    (a : FilterArgs) :
    (recordConfigOfArgs output discovery segment a).black_channels =
      if a.hasBlack then setInsertAll [] a.blackValues else [] := by
  unfold recordConfigOfArgs
  cases a.hasWhite <;> cases a.hasBlack <;> simp <;> split <;> rfl

theorem reparse_commandArgv (stl : List (String × String)) (prog command : String)
    (tokens : List String) :
    ArgParser.reparse stl (commandArgv (prog :: command :: tokens)) =
      ArgParser.parseFrom stl tokens 0 {} := rfl

/-- C20, counterexample: in `record -c ""` the option `-c` occurs once and is
followed by one token that does not start with `-`, and `getAll` returns no
token: the allow-list is empty, `record_all` stays set and every topic is
recorded. In `record -c /a --white-channel /b /c` the option `-c` occurs once
and is followed by the one token `/a`, and `getAll` returns `/b` and `/c`. -/
theorem C20_single_empty_token_is_lost :
    notOption "" = true ∧
    ArgParser.getAll
      (ArgParser.reparse recordShortOptions (commandArgv ["mcap_recorder", "record", "-c", ""]))
      "white-channel" = [] ∧
    (recordConfigOfArgs "" 2000 0
      (filterArgsOf recordShortOptions ["mcap_recorder", "record", "-c", ""])).white_channels
      = [] ∧
    McapRecorder.shouldRecordChannel
      (recordConfigOfArgs "" 2000 0
        (filterArgsOf recordShortOptions ["mcap_recorder", "record", "-c", ""])) "/x" = true ∧
    ArgParser.getAll
      (ArgParser.reparse recordShortOptions
        (commandArgv ["mcap_recorder", "record", "-c", "/a", "--white-channel", "/b", "/c"]))
      "white-channel" = ["/b", "/c"] := by
  decide

/-- C20, amended: on a `record` command line in which `-c` is followed by the
tokens `values`, at least one, none starting with `-`, not the single empty
token, with the end of the command line or a token starting with `-` after
them, and in which no other token assigns the key `white-channel`, `getAll`
returns exactly `values` in order, the allow-list holds exactly the tokens of
`values`, and `shouldRecordChannel` accepts exactly the topics of `values` that
are not on the deny-list; the same holds for `-k`, the key `black-channel` and
the deny-list. -/
theorem C20_short_option_values (prog : String) (pre values post : List String)
    (output : String) (discovery : Int) (segment : Nat)
    (hv : values ≠ []) (hne : values ≠ [""])
    (hvals : ∀ x ∈ values, notOption x = true)
    (hpost : ∀ p ∈ post.head?, notOption p = false) :
    ((∀ tok ∈ pre ++ post, ArgParser.keyOf recordShortOptions tok ≠ some "white-channel") →
      ArgParser.getAll
        (ArgParser.reparse recordShortOptions
          (commandArgv (prog :: "record" :: (pre ++ "-c" :: (values ++ post)))))
        "white-channel" = values ∧
      (∀ x, x ∈ (recordConfigOfArgs output discovery segment
          (filterArgsOf recordShortOptions
            (prog :: "record" :: (pre ++ "-c" :: (values ++ post))))).white_channels ↔
        x ∈ values) ∧
      (∀ topic, McapRecorder.shouldRecordChannel
          (recordConfigOfArgs output discovery segment
            (filterArgsOf recordShortOptions
              (prog :: "record" :: (pre ++ "-c" :: (values ++ post))))) topic = true ↔
        topic ∈ values ∧
        topic ∉ (recordConfigOfArgs output discovery segment
          (filterArgsOf recordShortOptions
            (prog :: "record" :: (pre ++ "-c" :: (values ++ post))))).black_channels)) ∧
    ((∀ tok ∈ pre ++ post, ArgParser.keyOf recordShortOptions tok ≠ some "black-channel") →
      ArgParser.getAll
        (ArgParser.reparse recordShortOptions
          (commandArgv (prog :: "record" :: (pre ++ "-k" :: (values ++ post)))))
        "black-channel" = values ∧
      (∀ x, x ∈ (recordConfigOfArgs output discovery segment
          (filterArgsOf recordShortOptions
            (prog :: "record" :: (pre ++ "-k" :: (values ++ post))))).black_channels ↔
        x ∈ values)) := by
  constructor
  · intro hother
    obtain ⟨h1, h2⟩ := parseFrom_registered_short recordShortOptions "-c" "c" "white-channel"
      rfl rfl pre values post hother hvals hpost
    obtain ⟨g1, g2⟩ := getAll_registered_short _ "white-channel" values h1 h2 hv hne
    have hw : ∀ x, x ∈ (recordConfigOfArgs output discovery segment
          (filterArgsOf recordShortOptions
            (prog :: "record" :: (pre ++ "-c" :: (values ++ post))))).white_channels ↔
        x ∈ values := by
      intro x
      rw [recordConfigOfArgs_white]
      simp only [filterArgsOf, reparse_commandArgv, g1, g2, if_true, mem_setInsertAll]
      simp
    refine ⟨g1, hw, ?_⟩
    intro topic
    rw [shouldRecordChannel_eq_true_iff]
    have hnil : (recordConfigOfArgs output discovery segment
          (filterArgsOf recordShortOptions
            (prog :: "record" :: (pre ++ "-c" :: (values ++ post))))).white_channels ≠ [] := by
      intro he
      obtain ⟨v, vs, hvv⟩ := List.exists_cons_of_ne_nil hv
      have hm : v ∈ values := by rw [hvv]; exact List.mem_cons_self _ _
      have := (hw v).2 hm
      rw [he] at this
      exact absurd this (List.not_mem_nil v)
    rw [if_neg hnil, hw]
    exact ⟨fun h => ⟨h.2, h.1⟩, fun h => ⟨h.2, h.1⟩⟩
  · intro hother
    obtain ⟨h1, h2⟩ := parseFrom_registered_short recordShortOptions "-k" "k" "black-channel"
      rfl rfl pre values post hother hvals hpost
    obtain ⟨g1, g2⟩ := getAll_registered_short _ "black-channel" values h1 h2 hv hne
    refine ⟨g1, ?_⟩
    intro x
    rw [recordConfigOfArgs_black]
    simp only [filterArgsOf, reparse_commandArgv, g1, g2, if_true, mem_setInsertAll]
    simp

/-- C20 on `record -c /a /b`: `getAll` returns `/a` and `/b`, and the filter of
the recorder accepts exactly these two topics. -/
theorem C20_short_option_values_witness :
    ArgParser.getAll
      (ArgParser.reparse recordShortOptions
        (commandArgv ["mcap_recorder", "record", "-c", "/a", "/b"])) "white-channel" =
      ["/a", "/b"] ∧
    (∀ topic, McapRecorder.shouldRecordChannel
        (recordConfigOfArgs "" 2000 0
          (filterArgsOf recordShortOptions ["mcap_recorder", "record", "-c", "/a", "/b"]))
        topic = true ↔ topic = "/a" ∨ topic = "/b") := by
  have h := (C20_short_option_values "mcap_recorder" [] ["/a", "/b"] [] "" 2000 0
    (by decide) (by decide) (by decide) (by decide)).1 (by decide)
  refine ⟨h.1, fun topic => ?_⟩
  have h2 := h.2.2 topic
  have hb : (recordConfigOfArgs "" 2000 0
      (filterArgsOf recordShortOptions
        ("mcap_recorder" :: "record" :: ([] ++ "-c" :: (["/a", "/b"] ++ []))))).black_channels
      = [] := by decide
  rw [hb] at h2
  simpa using h2

theorem jsonSet_lookup_same (members : List (String × Json)) (key : String) (value : Json) :
    (jsonSet members key value).lookup key = some value := by
  induction members with
  | nil => simp [jsonSet, List.lookup_cons]
  | cons e rest ih =>
    obtain ⟨k, v⟩ := e
    by_cases h : k = key
    · simp [jsonSet, h, List.lookup_cons]
    · have h2 : (key == k) = false := by simpa using fun e : key = k => h e.symm
      simp [jsonSet, h, List.lookup_cons, h2, ih]

theorem jsonSet_lookup_other (members : List (String × Json)) (key other : String)
    (value : Json) (hne : other ≠ key) :
    (jsonSet members key value).lookup other = members.lookup other := by
  induction members with
  | nil =>
    have h2 : (other == key) = false := by simpa using hne
    simp [jsonSet, List.lookup_cons, h2]
  | cons e rest ih =>
    obtain ⟨k, v⟩ := e
    by_cases h : k = key
    · subst h
      have h2 : (other == k) = false := by simpa using hne
      simp [jsonSet, List.lookup_cons, h2]
    · by_cases h3 : other = k
      · subst h3
        simp [jsonSet, h, List.lookup_cons]
      · have h4 : (other == k) = false := by simpa using h3
        simp [jsonSet, h, List.lookup_cons, h4, ih]

theorem buildProperties_lookup_other :
    ∀ (fields : FieldList) (properties : List (String × Json)) (name : String),
      name ∉ fields.names →
      (mssageManage.buildProperties fields properties).lookup name = properties.lookup name
  | FieldList.nil, _, _, _ => rfl
  | FieldList.cons n t r rest, properties, name, h => by
    have h1 : name ≠ n := fun e => h (by rw [e]; exact List.mem_cons_self _ _)
    have h2 : name ∉ rest.names := fun hm => h (List.mem_cons_of_mem _ hm)
    rw [mssageManage.buildProperties, buildProperties_lookup_other rest _ name h2,
      jsonSet_lookup_other _ _ _ _ h1]

theorem buildProperties_lookup_field :
    ∀ (fields : FieldList) (properties : List (String × Json)) (name : String)
      (type : FieldType) (is_repeated : Bool), fields.names.Nodup →
      (name, type, is_repeated) ∈ fields.toList →
      (mssageManage.buildProperties fields properties).lookup name =
        some (if is_repeated then
          Json.obj [("type", Json.str "array"), ("items", mssageManage.fieldSchemaOf type)]
        else mssageManage.fieldSchemaOf type)
  | FieldList.nil, _, _, _, _, _, hm => absurd hm (List.not_mem_nil _)
  | FieldList.cons n t r rest, properties, name, type, is_repeated, hnd, hm => by
    have hnd2 : n ∉ rest.names ∧ rest.names.Nodup := List.nodup_cons.1 hnd
    rcases List.mem_cons.1 hm with h | h
    · have h1 : name = n := congrArg Prod.fst h
      have h2 : type = t := congrArg (fun p => p.2.1) h
      have h3 : is_repeated = r := congrArg (fun p => p.2.2) h
      subst h1 h2 h3
      rw [mssageManage.buildProperties, buildProperties_lookup_other rest _ name hnd2.1,
        jsonSet_lookup_same]
      rfl
    · rw [mssageManage.buildProperties]
      exact buildProperties_lookup_field rest _ name type is_repeated hnd2.2 h

/-- C18: for a descriptor of finite nesting with distinct field names,
`buildJsonSchemaFromDescriptor` returns an object with `type` `object` whose
`properties` hold, under the name of every field, the schema of the field
type, wrapped as `items` of an object of `type` `array` when the field is
repeated; the schema of a field type is `integer` for the ten integer types,
`number` for float and double, `boolean` for bool, `string` for string and
bytes, `string` with the value names in declaration order under `enum` for an
enum, and the schema of the message descriptor for a message. -/
theorem C18_schema_of_descriptor (fields : FieldList) (hnames : fields.names.Nodup) :
    (mssageManage.buildJsonSchemaFromDescriptor (Descriptor.mk fields)).member "type" =
      some (Json.str "object") ∧
    (∀ (name : String) (type : FieldType) (is_repeated : Bool),
      (name, type, is_repeated) ∈ fields.toList →
      ((mssageManage.buildJsonSchemaFromDescriptor (Descriptor.mk fields)).member
          "properties").bind (fun properties => properties.member name) =
        some (if is_repeated then
          Json.obj [("type", Json.str "array"), ("items", mssageManage.fieldSchemaOf type)]
        else mssageManage.fieldSchemaOf type)) ∧
    (∀ type ∈ [FieldType.TYPE_INT32, FieldType.TYPE_INT64, FieldType.TYPE_UINT32,
        FieldType.TYPE_UINT64, FieldType.TYPE_SINT32, FieldType.TYPE_SINT64,
        FieldType.TYPE_FIXED32, FieldType.TYPE_FIXED64, FieldType.TYPE_SFIXED32,
        FieldType.TYPE_SFIXED64],
      mssageManage.fieldSchemaOf type = Json.obj [("type", Json.str "integer")]) ∧
    (∀ type ∈ [FieldType.TYPE_FLOAT, FieldType.TYPE_DOUBLE],
      mssageManage.fieldSchemaOf type = Json.obj [("type", Json.str "number")]) ∧
    mssageManage.fieldSchemaOf FieldType.TYPE_BOOL = Json.obj [("type", Json.str "boolean")] ∧
    (∀ type ∈ [FieldType.TYPE_STRING, FieldType.TYPE_BYTES],
      mssageManage.fieldSchemaOf type = Json.obj [("type", Json.str "string")]) ∧
    (∀ value_names : List String,
      mssageManage.fieldSchemaOf (FieldType.TYPE_ENUM value_names) =
        Json.obj [("type", Json.str "string"), ("enum", Json.arr (value_names.map Json.str))]) ∧
    (∀ message_type : Descriptor,
      mssageManage.fieldSchemaOf (FieldType.TYPE_MESSAGE message_type) =
        mssageManage.buildJsonSchemaFromDescriptor message_type) := by
  refine ⟨rfl, ?_, ?_, ?_, rfl, ?_, ?_, ?_⟩
  · intro name type is_repeated hm
    have h := buildProperties_lookup_field fields [] name type is_repeated hnames hm
    rw [mssageManage.buildJsonSchemaFromDescriptor]
    exact h
  · intro type ht
    simp only [List.mem_cons, List.mem_singleton, List.not_mem_nil, or_false] at ht
    rcases ht with h | h | h | h | h | h | h | h | h | h <;> subst h <;> rfl
  · intro type ht
    simp only [List.mem_cons, List.mem_singleton, List.not_mem_nil, or_false] at ht
    rcases ht with h | h <;> subst h <;> rfl
  · intro type ht
    simp only [List.mem_cons, List.mem_singleton, List.not_mem_nil, or_false] at ht
    rcases ht with h | h <;> subst h <;> rfl
  · intro value_names
    rw [mssageManage.fieldSchemaOf]
    rfl
  · intro message_type
    rw [mssageManage.fieldSchemaOf]

/-- C18 on the sample descriptor: the repeated message field `tags` is an array
whose items are the schema of the message, and the enum field `mode` lists its
value names. -/
theorem C18_schema_of_descriptor_witness :
    ((mssageManage.buildJsonSchemaFromDescriptor (Descriptor.mk sampleFields)).member
        "properties").bind (fun properties => properties.member "tags") =
      some (Json.obj [("type", Json.str "array"),
        ("items", Json.obj [("type", Json.str "object"),
          ("properties", Json.obj [("key", Json.obj [("type", Json.str "string")])])])]) ∧
    ((mssageManage.buildJsonSchemaFromDescriptor (Descriptor.mk sampleFields)).member
        "properties").bind (fun properties => properties.member "mode") =
      some (Json.obj [("type", Json.str "string"),
        ("enum", Json.arr [Json.str "OFF", Json.str "ON"])]) :=
  ⟨(C18_schema_of_descriptor sampleFields (by decide)).2.1 "tags"
      (FieldType.TYPE_MESSAGE
        (Descriptor.mk (FieldList.cons "key" FieldType.TYPE_STRING false FieldList.nil)))
      true (by simp [sampleFields, FieldList.toList]),
   (C18_schema_of_descriptor sampleFields (by decide)).2.1 "mode"
      (FieldType.TYPE_ENUM ["OFF", "ON"]) false (by simp [sampleFields, FieldList.toList])⟩

theorem ReachLe.mono {dependency : String → List String} {root : String} {n k : Nat}
    {f : String} (h : ReachLe dependency root n f) (hk : n ≤ k) :
    ReachLe dependency root k f := by
  obtain ⟨m, hm, hr⟩ := h
  exact ⟨m, Nat.le_trans hm hk, hr⟩

theorem ReachLe.child {dependency : String → List String} {root : String} {n : Nat}
    {f d : String} (h : ReachLe dependency root n f) (hd : d ∈ dependency f) :
    ReachLe dependency root (n + 1) d := by
  obtain ⟨m, hm, hr⟩ := h
  exact ⟨m + 1, Nat.succ_le_succ hm, ReachIn.step hr hd⟩

theorem visit_fold (l : List String) :
    ∀ Q S : List String, S.Nodup →
      ∃ new : List String,
        l.foldl SerializeFdSet.visit (Q, S) = (Q ++ new, S ++ new) ∧
        (S ++ new).Nodup ∧ (∀ d ∈ new, d ∈ l ∧ d ∉ S) ∧ (∀ d ∈ l, d ∈ S ++ new) := by
  induction l with
  | nil =>
    intro Q S hS
    refine ⟨[], by simp, by simpa using hS, ?_, ?_⟩
    · intro d hd
      exact absurd hd (List.not_mem_nil d)
    · intro d hd
      exact absurd hd (List.not_mem_nil d)
  | cons d ds ih =>
    intro Q S hS
    by_cases hd : d ∈ S
    · have hv : SerializeFdSet.visit (Q, S) d = (Q, S) := by
        unfold SerializeFdSet.visit
        rw [if_pos (by simpa using hd)]
      obtain ⟨new, h1, h2, h3, h4⟩ := ih Q S hS
      refine ⟨new, by rw [List.foldl_cons, hv, h1], h2, ?_, ?_⟩
      · intro x hx
        exact ⟨List.mem_cons_of_mem _ (h3 x hx).1, (h3 x hx).2⟩
      · intro x hx
        rcases List.mem_cons.1 hx with h | h
        · rw [h]
          exact List.mem_append_left _ hd
        · exact h4 x h
    · have hv : SerializeFdSet.visit (Q, S) d = (Q ++ [d], S ++ [d]) := by
        unfold SerializeFdSet.visit
        rw [if_neg (by simpa using hd)]
      have hS2 : (S ++ [d]).Nodup := by
        rw [List.nodup_append]
        refine ⟨hS, List.nodup_singleton d, ?_⟩
        intro a ha hb
        rw [List.mem_singleton.1 hb] at ha
        exact hd ha
      obtain ⟨new, h1, h2, h3, h4⟩ := ih (Q ++ [d]) (S ++ [d]) hS2
      refine ⟨d :: new, ?_, ?_, ?_, ?_⟩
      · rw [List.foldl_cons, hv, h1]
        simp
      · simpa using h2
      · intro x hx
        rcases List.mem_cons.1 hx with h | h
        · rw [h]
          exact ⟨List.mem_cons_self _ _, hd⟩
        · refine ⟨List.mem_cons_of_mem _ (h3 x h).1, ?_⟩
          intro hxS
          exact (h3 x h).2 (List.mem_append_left _ hxS)
      · intro x hx
        rcases List.mem_cons.1 hx with h | h
        · rw [h]
          simp
        · have := h4 x h
          simpa using this

theorem BfsInv.queue_nearer {dependency : String → List String} {root : String}
    {V Qt O : List String} {next : String} (h : BfsInv dependency root V (next :: Qt) O)
    (q : String) (hq : q ∈ next :: Qt) : Nearer dependency root next q := by
  rcases List.mem_cons.1 hq with h1 | h1
  · rw [h1]
    exact fun n hn => hn
  · have h2 := (List.pairwise_append.1 h.sorted).2.1
    exact (List.pairwise_cons.1 h2).1 q h1

theorem BfsInv.closer_in_out {dependency : String → List String} {root : String}
    {V Qt O : List String} {next : String} (h : BfsInv dependency root V (next :: Qt) O) :
    ∀ (m : Nat) (x : String), ReachIn dependency root m x →
      ¬ ReachLe dependency root m next → x ∈ O := by
  intro m x hr
  induction hr with
  | root =>
    intro hn
    have hroot : root ∈ O ++ next :: Qt := List.mem_of_mem_head? h.first
    rcases List.mem_append.1 hroot with h1 | h1
    · exact h1
    · exact absurd (h.queue_nearer root h1 0 ⟨0, Nat.le_refl 0, ReachIn.root⟩) hn
  | step hy hd ih =>
    rename_i n y d
    intro hn
    have hy2 : y ∈ O := ih (fun hc => hn (hc.mono (Nat.le_succ n)))
    rcases List.mem_append.1 (h.closed y hy2 d hd) with h1 | h1
    · exact h1
    · exact absurd (h.queue_nearer d h1 (n + 1) ⟨n + 1, Nat.le_refl _, ReachIn.step hy hd⟩) hn

theorem BfsInv.initial (dependency : String → List String) (root : String) (V : List String)
    (hroot : root ∈ V) : BfsInv dependency root V [root] [] := by
  refine ⟨by simp, ?_, by simp, ?_, ?_, rfl, ?_⟩
  · intro f hf
    rw [List.nil_append, List.mem_singleton] at hf
    rw [hf]
    exact ⟨0, ReachIn.root⟩
  · intro f hf
    exact absurd hf (List.not_mem_nil f)
  · intro next hn f hf n hr
    have h1 : next = root := by
      have : some root = some next := hn
      exact (Option.some.inj this).symm
    rw [List.nil_append, List.mem_singleton] at hf
    rw [hf]
    rw [h1] at hr
    exact hr.mono (Nat.le_succ n)
  · intro f hf
    rw [List.nil_append, List.mem_singleton] at hf
    rw [hf]
    exact hroot

theorem BfsInv.step {dependency : String → List String} {root : String}
    {V Qt O : List String} {next : String} (h : BfsInv dependency root V (next :: Qt) O)
    (hclosed : ∀ f ∈ V, ∀ d ∈ dependency f, d ∈ V) (new : List String)
    (hnd : ((O ++ next :: Qt) ++ new).Nodup)
    (hnew : ∀ d ∈ new, d ∈ dependency next ∧ d ∉ O ++ next :: Qt)
    (hall : ∀ d ∈ dependency next, d ∈ (O ++ next :: Qt) ++ new) :
    BfsInv dependency root V (Qt ++ new) (O ++ [next]) := by
  have hS : (O ++ [next]) ++ (Qt ++ new) = (O ++ next :: Qt) ++ new := by simp
  have hnextS : next ∈ O ++ next :: Qt :=
    List.mem_append_right _ (List.mem_cons_self _ _)
  have K1 : ∀ f ∈ (O ++ next :: Qt) ++ new, ∀ n,
      ReachLe dependency root n next → ReachLe dependency root (n + 1) f := by
    intro f hf n hr
    rcases List.mem_append.1 hf with h1 | h1
    · exact h.near next rfl f h1 n hr
    · exact hr.child (hnew f h1).1
  have K2 : ∀ d ∈ new, ∀ n, ReachLe dependency root n d →
      ∃ m, m + 1 ≤ n ∧ ReachLe dependency root m next := by
    intro d hd n hr
    obtain ⟨k, hk, hrk⟩ := hr
    cases hrk with
    | root =>
      exact absurd (List.mem_of_mem_head? h.first) (hnew root hd).2
    | step hy hdy =>
      rename_i k2 y
      refine ⟨k2, hk, ?_⟩
      by_contra hc
      have hyO : y ∈ O := h.closer_in_out k2 y hy hc
      exact (hnew d hd).2 (h.closed y hyO d hdy)
  have K3 : ∀ f ∈ (O ++ next :: Qt) ++ new, ∀ d ∈ new, Nearer dependency root f d := by
    intro f hf d hd n hr
    obtain ⟨m, hm, hrm⟩ := K2 d hd n hr
    exact (K1 f hf m hrm).mono hm
  have hsorted : ((O ++ next :: Qt) ++ new).Pairwise (Nearer dependency root) := by
    rw [List.pairwise_append]
    refine ⟨h.sorted, ?_, ?_⟩
    · exact List.Pairwise.imp_of_mem
        (fun {a b} ha hb _ => K3 a (List.mem_append_right _ ha) b hb)
        (List.pairwise_of_forall (fun _ _ => trivial))
    · intro a ha b hb
      exact K3 a (List.mem_append_left _ ha) b hb
  refine ⟨by rw [hS]; exact hnd, ?_, by rw [hS]; exact hsorted, ?_, ?_, ?_, ?_⟩
  · intro f hf
    rw [hS] at hf
    rcases List.mem_append.1 hf with h1 | h1
    · exact h.reach f h1
    · obtain ⟨n, hn⟩ := h.reach next hnextS
      exact ⟨n + 1, ReachIn.step hn (hnew f h1).1⟩
  · intro f hf d hd
    rw [hS]
    rcases List.mem_append.1 hf with h1 | h1
    · exact List.mem_append_left _ (h.closed f h1 d hd)
    · rw [List.mem_singleton.1 h1] at hd
      exact hall d hd
  · intro next2 hn2 f hf n hr
    rw [hS] at hf
    have hmem : next2 ∈ Qt ++ new := List.mem_of_mem_head? hn2
    have hnear : Nearer dependency root next next2 := by
      rcases List.mem_append.1 hmem with h1 | h1
      · exact h.queue_nearer next2 (List.mem_cons_of_mem _ h1)
      · exact K3 next (List.mem_append_left _ hnextS) next2 h1
    exact K1 f hf n (hnear n hr)
  · rw [hS, List.head?_append_of_ne_nil _ (by simp)]
    exact h.first
  · intro f hf
    rw [hS] at hf
    rcases List.mem_append.1 hf with h1 | h1
    · exact h.inV f h1
    · exact hclosed next (h.inV next hnextS) f (hnew f h1).1

theorem loop_spec (dependency : String → List String) (root : String) (V : List String)
    (hclosed : ∀ f ∈ V, ∀ d ∈ dependency f, d ∈ V) :
    ∀ (fuel : Nat) (Q O : List String), BfsInv dependency root V Q O →
      V.length ≤ fuel + O.length →
      ∃ out, SerializeFdSet.loop dependency fuel Q (O ++ Q) O = some out ∧
        BfsInv dependency root V [] out := by
  intro fuel
  induction fuel with
  | zero =>
    intro Q O h hlen
    cases Q with
    | nil =>
      refine ⟨O, ?_, h⟩
      rw [SerializeFdSet.loop]
    | cons next Qt =>
      exfalso
      have h1 : (O ++ next :: Qt).length ≤ V.length :=
        (List.Nodup.subperm h.nodup (fun f hf => h.inV f hf)).length_le
      rw [List.length_append, List.length_cons] at h1
      omega
  | succ k ih =>
    intro Q O h hlen
    cases Q with
    | nil =>
      refine ⟨O, ?_, h⟩
      rw [SerializeFdSet.loop]
    | cons next Qt =>
      obtain ⟨new, h1, h2, h3, h4⟩ := visit_fold (dependency next) Qt (O ++ next :: Qt) h.nodup
      have hinv := h.step hclosed new h2 h3 h4
      have hS : (O ++ [next]) ++ (Qt ++ new) = (O ++ next :: Qt) ++ new := by simp
      have hlen2 : V.length ≤ k + (O ++ [next]).length := by
        rw [List.length_append, List.length_singleton]
        omega
      obtain ⟨out, ho, hfin⟩ := ih (Qt ++ new) (O ++ [next]) hinv hlen2
      refine ⟨out, ?_, hfin⟩
      rw [SerializeFdSet.loop, h1]
      rw [hS] at ho
      exact ho

theorem exists_isDist (dependency : String → List String) (root : String) (f : String)
    (h : ∃ n, ReachIn dependency root n f) : ∃ n, IsDist dependency root f n := by
  classical
  exact ⟨Nat.find h, Nat.find_spec h, fun m hm => Nat.find_min' h hm⟩

/-- C17: on a finite dependency graph (a finite list `V` of files that holds the
root file and the dependencies of each of its files) the loop of
`SerializeFdSet` ends within `V.length` rounds, in both copies of the function,
and the files it adds are the breadth-first enumeration from the root: the
root is first, no file is added twice, a file is added exactly when a chain
of dependencies leads from the root to it, every added file has a distance
from the root, and a file added earlier has at most the distance of a file
added later. -/
theorem C17_descriptor_set_is_bfs (dependency : String → List String) (root : String)
    (V : List String) (hroot : root ∈ V)
    (hclosed : ∀ f ∈ V, ∀ d ∈ dependency f, d ∈ V) (fuel : Nat) (hfuel : V.length ≤ fuel) :
    ∃ out, SerializeFdSet dependency fuel root = some out ∧
      MessageConverter.SerializeFdSet dependency fuel root = some out ∧
      out.head? = some root ∧ out.Nodup ∧
      (∀ f, f ∈ out ↔ ∃ n, ReachIn dependency root n f) ∧
      (∀ f ∈ out, ∃ n, IsDist dependency root f n) ∧
      out.Pairwise (fun a b => ∀ na nb,
        IsDist dependency root a na → IsDist dependency root b nb → na ≤ nb) := by
  obtain ⟨out, ho, hfin⟩ := loop_spec dependency root V hclosed fuel [root] []
    (BfsInv.initial dependency root V hroot) (by simpa using hfuel)
  have hnd : out.Nodup := by simpa using hfin.nodup
  have hfirst : out.head? = some root := by simpa using hfin.first
  have hreach : ∀ f, f ∈ out ↔ ∃ n, ReachIn dependency root n f := by
    intro f
    constructor
    · intro hf
      exact hfin.reach f (by simpa using hf)
    · rintro ⟨n, hr⟩
      induction hr with
      | root => exact List.mem_of_mem_head? hfirst
      | step hy hd ih =>
        have := hfin.closed _ ih _ hd
        simpa using this
  refine ⟨out, ho, ho, hfirst, hnd, hreach, ?_, ?_⟩
  · intro f hf
    exact exists_isDist dependency root f ((hreach f).1 hf)
  · have hs : out.Pairwise (Nearer dependency root) := by simpa using hfin.sorted
    refine hs.imp ?_
    intro a b hab na nb ha hb
    obtain ⟨m, hm, hr⟩ := hab nb ⟨nb, Nat.le_refl nb, hb.1⟩
    exact Nat.le_trans (ha.2 m hr) hm

/-- C17 on the four files of `sampleImports`: the walk from `a.proto` ends within
four rounds, starts with `a.proto`, adds no file twice and adds `d.proto`. -/
theorem C17_descriptor_set_is_bfs_witness :
    ∃ out, SerializeFdSet sampleImports 4 "a.proto" = some out ∧
      out.head? = some "a.proto" ∧ out.Nodup ∧ "d.proto" ∈ out := by
  obtain ⟨out, h1, _, h3, h4, h5, _⟩ := C17_descriptor_set_is_bfs sampleImports "a.proto"
    ["a.proto", "b.proto", "c.proto", "d.proto"] (by decide) (by decide) 4 (by decide)
  refine ⟨out, h1, h3, h4, (h5 "d.proto").2 ⟨2, ?_⟩⟩
  exact ReachIn.step (ReachIn.step ReachIn.root (by decide : "b.proto" ∈ sampleImports "a.proto"))
    (by decide : "d.proto" ∈ sampleImports "b.proto")

/-- C19, counterexample: the field declared as `frame_id`, whose JSON name is
`frameId`, is printed under `frameId`; the text has no member `frame_id`. -/
theorem C19_field_printed_under_json_name :
    mssageManage.getMsgJsonString MessageToJsonMembers
        [{ name := "frame_id", json_name := "frameId", value := FieldValue.str "base",
           is_set := true }] =
      [("frameId", JsonScalar.text "base")] ∧
    (mssageManage.getMsgJsonString MessageToJsonMembers
        [{ name := "frame_id", json_name := "frameId", value := FieldValue.str "base",
           is_set := true }]).lookup "frame_id" = none := by
  decide

/-- C19, amended: `getMsgJsonString` calls the printer with
`preserve_proto_field_names` and `always_print_primitive_fields` off and
`always_print_enums_as_ints` on; the text has one member for every field that
is set, in the order of the fields, under the JSON name of the field, an enum
value is printed as its number, and a field that is not set has no member. -/
theorem C19_text_form (fields : List MessageField) :
    (∀ (Message Text : Type) (printer : JsonPrintOptions → Message → Text) (m : Message),
      mssageManage.getMsgJsonString printer m =
        printer { add_whitespace := true, always_print_primitive_fields := false,
                  preserve_proto_field_names := false, always_print_enums_as_ints := true }
          m) ∧
    mssageManage.getMsgJsonString MessageToJsonMembers fields =
      (fields.filter (fun f => f.is_set)).map
        (fun f => (f.json_name,
          match f.value with
          | FieldValue.int v => JsonScalar.number v
          | FieldValue.bool b => JsonScalar.bool b
          | FieldValue.str s => JsonScalar.text s
          | FieldValue.enum number _ => JsonScalar.number number)) ∧
    (∀ member ∈ mssageManage.getMsgJsonString MessageToJsonMembers fields,
      ∃ f ∈ fields, f.is_set = true ∧ member.1 = f.json_name) := by
  have heq : mssageManage.getMsgJsonString MessageToJsonMembers fields =
      (fields.filter (fun f => f.is_set)).map
        (fun f => (f.json_name,
          match f.value with
          | FieldValue.int v => JsonScalar.number v
          | FieldValue.bool b => JsonScalar.bool b
          | FieldValue.str s => JsonScalar.text s
          | FieldValue.enum number _ => JsonScalar.number number)) := by
    unfold mssageManage.getMsgJsonString MessageToJsonMembers
    simp only [Bool.or_false]
    apply List.map_congr_left
    intro f _
    cases f.value <;> simp [printFieldValue]
  refine ⟨fun _ _ _ _ => rfl, heq, ?_⟩
  intro member hm
  rw [heq] at hm
  obtain ⟨f, hf, hfm⟩ := List.mem_map.1 hm
  obtain ⟨h1, h2⟩ := List.mem_filter.1 hf
  exact ⟨f, h1, h2, by rw [← hfm]⟩

/-! ## C21: a repeated option overwrites -/

/-- C21 at the failing input: in `record -c /a -c /b` each `-c` is followed by
one topic and `getAll` returns `/b` only, so the allow-list is `/b` and `/a` is
not recorded; in `play data.mcap -c /a /b -c /c` the second `-c` stores `/c`
in `args` and `getAll` returns the `multi_args` entry of the first, `/a` and
`/b`; with `-k /x -k /y` the deny-list is `/y`. -/
theorem C21_repeated_option_overwrites :
    ArgParser.getAll
      (ArgParser.reparse recordShortOptions
        (commandArgv ["mcap_recorder", "record", "-c", "/a", "-c", "/b"]))
      "white-channel" = ["/b"] ∧
    (recordConfigOfArgs "" 2000 0
      (filterArgsOf recordShortOptions
        ["mcap_recorder", "record", "-c", "/a", "-c", "/b"])).white_channels = ["/b"] ∧
    McapRecorder.shouldRecordChannel
      (recordConfigOfArgs "" 2000 0
        (filterArgsOf recordShortOptions ["mcap_recorder", "record", "-c", "/a", "-c", "/b"]))
      "/a" = false ∧
    ArgParser.getAll
      (ArgParser.reparse playShortOptions
        (commandArgv ["mcap_recorder", "play", "data.mcap", "-c", "/a", "/b", "-c", "/c"]))
      "white-channel" = ["/a", "/b"] ∧
    (playConfigOfArgs
      (filterArgsOf playShortOptions
        ["mcap_recorder", "play", "data.mcap", "-k", "/x", "-k", "/y"])).black_channels
      = ["/y"] := by
  decide

/-! ## Discovery: known topics, other orders of the list (C25, C29) -/

theorem dropLostFrom_keeps (topics : List String) (x : String) (hx : x ∈ topics)
    (es : List (String × Option String)) :
    ∀ b : BridgeState, x ∈ b.known → x ∈ (CyberBridge.dropLostFrom topics b es).1.known := by
  induction es with
  | nil => intro b h; exact h
  | cons e rest ih =>
    obtain ⟨k, y⟩ := e
    intro b h
    by_cases hk : k ∈ topics
    · rw [CyberBridge.dropLostFrom, if_pos (by simpa using hk)]
      exact ih b h
    · rw [CyberBridge.dropLostFrom, if_neg (by simpa using hk)]
      apply ih
      obtain ⟨u1, _, _⟩ := onUnsubscribe_fields b k
      simp only [BridgeState.known, u1, List.mem_map, List.mem_filter]
      simp only [BridgeState.known, List.mem_map] at h
      obtain ⟨a, ha, hax⟩ := h
      refine ⟨a, ⟨ha, ?_⟩, hax⟩
      have hne : a.1 ≠ k := by
        rw [hax]
        intro e
        exact hk (e ▸ hx)
      simpa using hne

theorem addLoop_not_listed (v : BusView) (t : String) (l : List String) (ht : t ∉ l) :
    ∀ acc : BridgeState × List BridgeEvent,
      foundCount t (l.foldl (CyberBridge.addTopic v) acc).2 = foundCount t acc.2 := by
  induction l with
  | nil => intro acc; rfl
  | cons c cs ih =>
    intro acc
    have hc : c ≠ t := fun e => ht (e ▸ List.mem_cons_self _ _)
    rw [List.foldl_cons, ih (fun h => ht (List.mem_cons_of_mem _ h)),
      addTopic_found_ne v acc c t hc]

theorem discoverTopics_known_no_found (b : BridgeState) (v : BusView) (t : String)
    (hk : t ∈ b.known) : foundCount t (CyberBridge.discoverTopics b v).2 = 0 := by
  by_cases h : v.topics = b.topics
  · rw [discoverTopics_same b v h]
    rfl
  · rw [discoverTopics_changed b v h]
    by_cases ht : t ∈ v.topics
    · have hkeep := dropLostFrom_keeps v.topics t ht b.msg_manages
        { b with topics := v.topics } hk
      rw [(addLoop_skip v t _ _ (Or.inr (Or.inl hkeep))).1]
      exact (dropLostFrom_spec _ _ _).2.2.1 t
    · rw [addLoop_not_listed v t _ ht]
      exact (dropLostFrom_spec _ _ _).2.2.1 t

theorem discoverTopics_known_kept (b : BridgeState) (v : BusView) (t : String)
    (hk : t ∈ b.known) (ht : t ∈ v.topics) : t ∈ (CyberBridge.discoverTopics b v).1.known := by
  by_cases h : v.topics = b.topics
  · rw [discoverTopics_same b v h]
    exact hk
  · rw [discoverTopics_changed b v h]
    exact (addLoop_spec v _ _).2.2.1 t
      (dropLostFrom_keeps v.topics t ht b.msg_manages { b with topics := v.topics } hk)

theorem discoverTicks_known_silent (t : String) (views : List BusView) :
    ∀ b : BridgeState, t ∈ b.known → (∀ u ∈ views, t ∈ u.topics) →
      (∀ evs ∈ (CyberBridge.discoverTicks b views).2, foundCount t evs = 0) ∧
      t ∈ (CyberBridge.discoverTicks b views).1.known := by
  induction views with
  | nil =>
    intro b hk _
    exact ⟨fun evs he => absurd he (List.not_mem_nil evs), hk⟩
  | cons u us ih =>
    intro b hk hl
    obtain ⟨h1, h2⟩ := ih (CyberBridge.discoverTopics b u).1
      (discoverTopics_known_kept b u t hk (hl u (List.mem_cons_self _ _)))
      (fun x hx => hl x (List.mem_cons_of_mem _ hx))
    refine ⟨?_, h2⟩
    intro evs he
    simp only [CyberBridge.discoverTicks, List.mem_cons] at he
    rcases he with he | he
    · rw [he]
      exact discoverTopics_known_no_found b u t hk
    · exact h1 evs he

theorem addTopic_unadvertised (v : BusView) (acc : BridgeState × List BridgeEvent)
    (t ty : String) (hw : t ∉ acc.1.writers) (hk : t ∉ acc.1.known)
    (hi : mssageManage.init_topic v t = some ty) (hp : v.hasWriter t = false) :
    t ∈ (CyberBridge.addTopic v acc t).1.known ∧ (CyberBridge.addTopic v acc t).2 = acc.2 := by
  rcases addTopic_cases v acc t with ⟨h | h | h, _⟩ | ⟨_, _, ty2, _, h, h2⟩
  · exact absurd h hw
  · exact absurd h hk
  · rw [h] at hi
    exact Option.noConfusion hi
  · refine ⟨?_, ?_⟩
    · rw [h]
      simp [BridgeState.known]
    · rcases h2 with ⟨_, h3⟩ | ⟨h3, _, _⟩
      · exact h3
      · rw [hp] at h3
        exact Bool.noConfusion h3

theorem addLoop_unadvertised (v : BusView) (t ty : String)
    (hi : mssageManage.init_topic v t = some ty) (hp : v.hasWriter t = false)
    (l : List String) :
    ∀ acc : BridgeState × List BridgeEvent, t ∈ l → t ∉ acc.1.writers → t ∉ acc.1.known →
      foundCount t (l.foldl (CyberBridge.addTopic v) acc).2 = foundCount t acc.2 ∧
      t ∈ (l.foldl (CyberBridge.addTopic v) acc).1.known := by
  induction l with
  | nil =>
    intro acc ht
    exact absurd ht (List.not_mem_nil t)
  | cons c cs ih =>
    intro acc ht hw hk
    rw [List.foldl_cons]
    by_cases hc : c = t
    · subst hc
      obtain ⟨h1, h2⟩ := addTopic_unadvertised v acc c ty hw hk hi hp
      obtain ⟨h3, _⟩ := addLoop_skip v c cs (CyberBridge.addTopic v acc c) (Or.inr (Or.inl h1))
      exact ⟨by rw [h3, h2], (addLoop_spec v cs _).2.2.1 c h1⟩
    · have ht2 : t ∈ cs := by
        rcases List.mem_cons.1 ht with h | h
        · exact absurd h.symm hc
        · exact h
      have hw2 : t ∉ (CyberBridge.addTopic v acc c).1.writers := by
        rw [addTopic_writers]; exact hw
      obtain ⟨h1, h2⟩ := ih (CyberBridge.addTopic v acc c) ht2 hw2
        (addTopic_known_ne v acc c t hc hk)
      exact ⟨by rw [h1, addTopic_found_ne v acc c t hc], h2⟩

/-- C29: at a tick of `discoverTopics` that does not return early, a listed topic
that the bridge does not know and does not write, whose type resolves and
which has no publisher, is entered into `_msg_manages` without an advertise
callback; a tick that starts with the entry in the map emits no advertise
callback for the topic, whatever the bus then reports, so no later tick does
while the topic stays listed. -/
theorem C29_unadvertised_topic_stays_silent (b : BridgeState) (v : BusView) (t ty : String)
    (hchg : v.topics ≠ b.topics) (ht : t ∈ v.topics) (hk : t ∉ b.known) (hw : t ∉ b.writers)
    (hi : mssageManage.init_topic v t = some ty) (hp : v.hasWriter t = false) :
    t ∈ (CyberBridge.discoverTopics b v).1.known ∧
    foundCount t (CyberBridge.discoverTopics b v).2 = 0 ∧
    (∀ (b2 : BridgeState) (v2 : BusView), t ∈ b2.known →
      foundCount t (CyberBridge.discoverTopics b2 v2).2 = 0) ∧
    (∀ later : List BusView, (∀ u ∈ later, t ∈ u.topics) →
      (∀ evs ∈ (CyberBridge.discoverTicks (CyberBridge.discoverTopics b v).1 later).2,
        foundCount t evs = 0) ∧
      t ∈ (CyberBridge.discoverTicks (CyberBridge.discoverTopics b v).1 later).1.known) := by
  obtain ⟨_, d2, d3, d4⟩ :=
    dropLostFrom_spec v.topics b.msg_manages { b with topics := v.topics }
  have hw2 : t ∉ (CyberBridge.dropLostFrom v.topics { b with topics := v.topics }
      b.msg_manages).1.writers := by
    rw [d2]; exact hw
  have hk2 : t ∉ (CyberBridge.dropLostFrom v.topics { b with topics := v.topics }
      b.msg_manages).1.known := fun hm => hk (d4 t hm).1
  obtain ⟨h1, h2⟩ := addLoop_unadvertised v t ty hi hp v.topics _ ht hw2 hk2
  have hknown : t ∈ (CyberBridge.discoverTopics b v).1.known := by
    rw [discoverTopics_changed b v hchg]
    exact h2
  refine ⟨hknown, ?_, fun b2 v2 h => discoverTopics_known_no_found b2 v2 t h, ?_⟩
  · rw [discoverTopics_changed b v hchg, h1]
    exact d3 t
  · intro later hl
    exact discoverTicks_known_silent t later _ hknown hl

/-- C29 on a fresh bridge: `/a` is first seen without a publisher; at the next
tick, at which `/b` has appeared and `/a` has a publisher, `/a` gets no
advertise callback. -/
theorem C29_unadvertised_topic_stays_silent_witness :
    grownView.hasWriter "/a" = true ∧
    "/a" ∈ (CyberBridge.discoverTopics {} silentView).1.known ∧
    (∀ evs ∈ (CyberBridge.discoverTicks (CyberBridge.discoverTopics {} silentView).1
        [grownView]).2, foundCount "/a" evs = 0) :=
  ⟨by decide,
   (C29_unadvertised_topic_stays_silent {} silentView "/a" "T" (by decide) (by decide)
      (by decide) (by decide) (by decide) (by decide)).1,
   ((C29_unadvertised_topic_stays_silent {} silentView "/a" "T" (by decide) (by decide)
      (by decide) (by decide) (by decide) (by decide)).2.2.2 [grownView] (by decide)).1⟩

theorem addLoop_entries (v : BusView) (l : List String) :
    ∀ acc : BridgeState × List BridgeEvent,
      (∃ added, (l.foldl (CyberBridge.addTopic v) acc).1.msg_manages =
        acc.1.msg_manages ++ added) ∧
      (∀ e ∈ (l.foldl (CyberBridge.addTopic v) acc).2, e ∈ acc.2 ∨ e.isLost = false) := by
  induction l with
  | nil =>
    intro acc
    exact ⟨⟨[], by simp⟩, fun e he => Or.inl he⟩
  | cons c cs ih =>
    intro acc
    obtain ⟨⟨added, h1⟩, h2⟩ := ih (CyberBridge.addTopic v acc c)
    rw [List.foldl_cons]
    rcases addTopic_cases v acc c with ⟨_, h⟩ | ⟨_, _, ty, _, h, h3⟩
    · rw [h] at h1 h2 ⊢
      exact ⟨⟨added, h1⟩, h2⟩
    · refine ⟨⟨(c, some ty) :: added, ?_⟩, ?_⟩
      · rw [h1, h]
        simp
      · intro e he
        rcases h2 e he with h4 | h4
        · rcases h3 with ⟨_, h5⟩ | ⟨_, _, h5⟩
          · rw [h5] at h4
            exact Or.inl h4
          · rw [h5] at h4
            rcases List.mem_append.1 h4 with h6 | h6
            · exact Or.inl h6
            · rw [List.mem_singleton.1 h6]
              exact Or.inr rfl
        · exact Or.inr h4

/-! ## C26: the first log time 0 -/

/-- C26 at the failing input: the first message on the played topic `/a` has the
log time 0. `first_message_time` still holds 0 after it, so the second message
sets it to its own log time 5: the relative times of the three messages are
0, 0 and 2, where the log times minus the first log time are 0, 5 and 7, and
the target times are 100, 100 and 102 for a loop entered at clock 100. -/
theorem C26_zero_first_log_time_is_recaptured :
    (McapPlayer.readerLoop ["/a"] unitTiming {} 100 (zeroFirstLog.take 1)).first_message_time
      = 0 ∧
    (McapPlayer.readerLoop ["/a"] unitTiming {} 100 (zeroFirstLog.take 2)).first_message_time
      = 5 ∧
    (McapPlayer.readerLoop ["/a"] unitTiming {} 100 zeroFirstLog).first_message_time = 5 ∧
    (McapPlayer.readerLoop ["/a"] unitTiming {} 100 zeroFirstLog).published.map
        (fun p => (p.logTime, p.target)) = [(0, 100), (5, 100), (7, 102)] := by
  decide

/-! ## C22: the loop flag and several files -/

theorem readerPasses_loop (file : String) (fuel : Nat) :
    ∀ pass, McapPlayer.readerPasses true (fun _ => true) file fuel pass =
      (List.replicate fuel file, false) := by
  induction fuel with
  | zero => intro pass; rfl
  | succ n ih =>
    intro pass
    rw [McapPlayer.readerPasses]
    simp only [Bool.and_self, if_true, ih (pass + 1)]
    rfl

/-- C22 at the failing input: `play f1.mcap f2.mcap -l` with no stop request.
At the end of `f1.mcap` the reader starts `f1.mcap` again, `playback_done_` is
never set and `run` does not return: whatever the number of passes, every
pass reads `f1.mcap` and `f2.mcap` is not played; the same holds for every
file list. Without the loop flag the two files are played once each, in
order, and the command ends with code 0. -/
theorem C22_loop_replays_first_file :
    playCommandFiles true (fun _ => true) (fun _ => true) 5 ["f1.mcap", "f2.mcap"] =
      (["f1.mcap", "f1.mcap", "f1.mcap", "f1.mcap", "f1.mcap"], none) ∧
    (∀ (fuel : Nat) (file : String) (rest : List String),
      playCommandFiles true (fun _ => true) (fun _ => true) fuel (file :: rest) =
        (List.replicate fuel file, none)) ∧
    playCommandFiles false (fun _ => true) (fun _ => true) 5 ["f1.mcap", "f2.mcap"] =
      (["f1.mcap", "f2.mcap"], some 0) := by
  refine ⟨by decide, ?_, by decide⟩
  intro fuel file rest
  rw [playCommandFiles]
  simp only [if_true, readerPasses_loop]
  rfl

/-! ## C24: single steps -/

theorem pauseLoop_step (c : Controls) (now start : Nat) (script : List (List Char))
    (hp : c.paused = true) (hs : c.step_once = true) :
    McapPlayer.pauseLoop c now start script =
      ⟨{ c with step_once := false }, now, start, true, false⟩ := by
  cases script <;> simp [McapPlayer.pauseLoop, hp, hs]

theorem pauseLoop_wait_step (k : Nat) :
    ∀ now start : Nat,
      (McapPlayer.pauseLoop { paused := true, step_once := false } now start
          (List.replicate k [] ++ [['s']])).controls = { paused := true, step_once := false } ∧
      (McapPlayer.pauseLoop { paused := true, step_once := false } now start
          (List.replicate k [] ++ [['s']])).stepped_once = true ∧
      (McapPlayer.pauseLoop { paused := true, step_once := false } now start
          (List.replicate k [] ++ [['s']])).stopped = false := by
  induction k with
  | zero =>
    intro now start
    exact ⟨rfl, rfl, rfl⟩
  | succ n ih =>
    intro now start
    have h : McapPlayer.pauseLoop { paused := true, step_once := false } now start
        (List.replicate (n + 1) [] ++ [['s']]) =
        McapPlayer.pauseLoop { paused := true, step_once := false } (now + pauseSleepNs)
          (u64add start pauseSleepNs) (List.replicate n [] ++ [['s']]) := by
      rw [List.replicate_succ, List.cons_append, McapPlayer.pauseLoop]
      rfl
    rw [h]
    exact ih _ _

theorem pauseLoop_hold (k : Nat) :
    ∀ now start : Nat,
      (McapPlayer.pauseLoop { paused := true, step_once := false } now start
          (List.replicate k [])).controls = { paused := true, step_once := false } ∧
      (McapPlayer.pauseLoop { paused := true, step_once := false } now start
          (List.replicate k [])).stepped_once = false ∧
      (McapPlayer.pauseLoop { paused := true, step_once := false } now start
          (List.replicate k [])).stopped = true := by
  induction k with
  | zero =>
    intro now start
    exact ⟨rfl, rfl, rfl⟩
  | succ n ih =>
    intro now start
    have h : McapPlayer.pauseLoop { paused := true, step_once := false } now start
        (List.replicate (n + 1) []) =
        McapPlayer.pauseLoop { paused := true, step_once := false } (now + pauseSleepNs)
          (u64add start pauseSleepNs) (List.replicate n []) := by
      rw [List.replicate_succ, McapPlayer.pauseLoop]
      rfl
    rw [h]
    exact ih _ _

theorem publishRound_step (t : Timing) (st : ReaderState) (message : LogMessage)
    (rel : Nat) (k : Nat) (hc : st.controls = { paused := true, step_once := false }) :
    (McapPlayer.publishRound t st message rel (stepEnv k)).controls =
        { paused := true, step_once := false } ∧
      (McapPlayer.publishRound t st message rel (stepEnv k)).stopped = false := by
  obtain ⟨h1, h2, h3⟩ := pauseLoop_wait_step k st.now st.playback_start_time
  simp [McapPlayer.publishRound, stepEnv, hc, h1, h2, h3]

theorem readerBody_step (writers_ : List String) (t : Timing) (st : ReaderState)
    (message : LogMessage) (k : Nat) (hoff : t.start_offset_ns = 0)
    (hw : message.topic ∈ writers_)
    (hc : st.controls = { paused := true, step_once := false }) :
    (McapPlayer.readerBody writers_ t st message (stepEnv k)).published.map
        Publication.content = st.published.map Publication.content ++ [message] ∧
      (McapPlayer.readerBody writers_ t st message (stepEnv k)).controls =
        { paused := true, step_once := false } ∧
      (McapPlayer.readerBody writers_ t st message (stepEnv k)).stopped = false := by
  have hnoskip : ¬ (0 < t.start_offset_ns ∧
      u64sub message.logTime (McapPlayer.captureFirst st message).first_message_time <
        t.start_offset_ns) := by
    rw [hoff]
    exact fun h => absurd h.1 (Nat.lt_irrefl 0)
  rw [readerBody_publish writers_ t st message _ hw hnoskip]
  have hc2 : (McapPlayer.applyOffset t (McapPlayer.captureFirst st message)).controls =
      { paused := true, step_once := false } := by
    rw [applyOffset_controls, captureFirst_controls, hc]
  obtain ⟨h1, h2⟩ := publishRound_step t _ message
    (u64sub message.logTime (McapPlayer.captureFirst st message).first_message_time) k hc2
  obtain ⟨p, hp, hcontent, _⟩ := publishRound_published t
    (McapPlayer.applyOffset t (McapPlayer.captureFirst st message)) message
    (u64sub message.logTime (McapPlayer.captureFirst st message).first_message_time) (stepEnv k)
  refine ⟨?_, h1, h2⟩
  rw [hp, applyOffset_published, captureFirst_published, List.map_append, List.map_singleton,
    hcontent]

theorem readerLoopFrom_steps (writers_ : List String) (t : Timing)
    (hoff : t.start_offset_ns = 0) (log : List (LogMessage × Env)) :
    ∀ st : ReaderState, st.stopped = false →
      st.controls = { paused := true, step_once := false } →
      (∀ x ∈ log, x.1.topic ∈ writers_ ∧ ∃ k, x.2 = stepEnv k) →
      (McapPlayer.readerLoopFrom writers_ t st log).published.map Publication.content =
          st.published.map Publication.content ++ log.map Prod.fst ∧
        (McapPlayer.readerLoopFrom writers_ t st log).controls =
          { paused := true, step_once := false } ∧
        (McapPlayer.readerLoopFrom writers_ t st log).stopped = false := by
  induction log with
  | nil =>
    intro st hs hc _
    exact ⟨by simp [McapPlayer.readerLoopFrom], hc, hs⟩
  | cons x rest ih =>
    obtain ⟨message, e⟩ := x
    intro st hs hc hlog
    obtain ⟨hw, k, hk⟩ := hlog (message, e) (List.mem_cons_self _ _)
    simp only at hw hk
    subst hk
    rw [readerLoopFrom_cons_go writers_ t st message (stepEnv k) rest rfl hs]
    obtain ⟨h1, h2, h3⟩ := readerBody_step writers_ t (st.advance (stepEnv k).elapsed)
      message k hoff hw hc
    obtain ⟨h4, h5, h6⟩ := ih _ h3 h2 (fun y hy => hlog y (List.mem_cons_of_mem _ hy))
    refine ⟨?_, h5, h6⟩
    rw [h4, h1]
    simp [ReaderState.advance]

/-- C24, counterexample: the player is not paused and the key `s` is handled
while the reader sleeps until the target time of the second message (the
round begins at clock 5 s, the message is published at 6 s). After the key
the reader publishes the second message and then, as the step, the third one
at 7 s: two messages follow the one step request; after them the player is
paused with no step pending. -/
theorem C24_step_while_waiting_publishes_two :
    (McapPlayer.readerLoop ["/a"] unitTiming {} 5000000000
        (stepWhileWaitingLog.take 1)).published.map (fun p => (p.msg.message, p.wallTime)) =
      [([1], 5000000000)] ∧
    (McapPlayer.readerLoop ["/a"] unitTiming {} 5000000000
        (stepWhileWaitingLog.take 1)).controls = { paused := false, step_once := false } ∧
    (McapPlayer.readerLoop ["/a"] unitTiming {} 5000000000
        stepWhileWaitingLog).published.map (fun p => (p.msg.message, p.wallTime)) =
      [([1], 5000000000), ([2], 6000000000), ([3], 7000000000)] ∧
    (McapPlayer.readerLoop ["/a"] unitTiming {} 5000000000 stepWhileWaitingLog).controls =
      { paused := true, step_once := false } := by
  decide

/-- C24, amended: the key `s` (or `S`) leaves the player paused with a step
request pending, from every state. A reader that finds the request pending
in the pause loop leaves the loop at once and clears the request. From a
paused player without a pending request, rounds in each of which the reader
waits in the pause loop until `s` is handled publish exactly one message
each, in order, and leave the player paused with no request pending, so `n`
such step requests publish exactly `n` messages. Without a key the reader
does not leave the pause loop before a stop is requested. -/
theorem C24_step_from_pause_loop :
    (∀ c : Controls,
      McapPlayer.handleKey c 's' = { paused := true, step_once := true } ∧
      McapPlayer.handleKey c 'S' = { paused := true, step_once := true }) ∧
    (∀ (c : Controls) (now start : Nat) (script : List (List Char)),
      c.paused = true → c.step_once = true →
      McapPlayer.pauseLoop c now start script =
        ⟨{ c with step_once := false }, now, start, true, false⟩) ∧
    (∀ (writers_ : List String) (t : Timing) (st : ReaderState)
        (log : List (LogMessage × Env)),
      t.start_offset_ns = 0 → st.stopped = false →
      st.controls = { paused := true, step_once := false } →
      (∀ x ∈ log, x.1.topic ∈ writers_ ∧ ∃ k, x.2 = stepEnv k) →
      (McapPlayer.readerLoopFrom writers_ t st log).published.map Publication.content =
          st.published.map Publication.content ++ log.map Prod.fst ∧
        (McapPlayer.readerLoopFrom writers_ t st log).published.length =
          st.published.length + log.length ∧
        (McapPlayer.readerLoopFrom writers_ t st log).controls =
          { paused := true, step_once := false } ∧
        (McapPlayer.readerLoopFrom writers_ t st log).stopped = false) ∧
    (∀ k now start : Nat,
      (McapPlayer.pauseLoop { paused := true, step_once := false } now start
          (List.replicate k [])).stepped_once = false ∧
      (McapPlayer.pauseLoop { paused := true, step_once := false } now start
          (List.replicate k [])).stopped = true) := by
  refine ⟨fun c => ⟨by simp [McapPlayer.handleKey], by simp [McapPlayer.handleKey]⟩,
    pauseLoop_step, ?_, fun k now start => (pauseLoop_hold k now start).2⟩
  intro writers_ t st log hoff hs hc hlog
  obtain ⟨h1, h2, h3⟩ := readerLoopFrom_steps writers_ t hoff log st hs hc hlog
  refine ⟨h1, ?_, h2, h3⟩
  have h4 := congrArg List.length h1
  simpa using h4

/-- C24, amended, on two step requests: the paused player publishes the two
messages of the log, one for each request. -/
theorem C24_step_from_pause_loop_witness :
    (McapPlayer.readerLoopFrom ["/a"] unitTiming
        { now := 5000000000, playback_start_time := 5000000000,
          controls := { paused := true, step_once := false } } twoStepsLog).published.length
      = 2 :=
  (C24_step_from_pause_loop.2.2.1 ["/a"] unitTiming
    { now := 5000000000, playback_start_time := 5000000000,
      controls := { paused := true, step_once := false } } twoStepsLog rfl rfl rfl
    (by
      intro x hx
      simp only [twoStepsLog, List.mem_cons, List.mem_singleton, List.not_mem_nil,
        or_false] at hx
      rcases hx with h | h
      · rw [h]
        exact ⟨by decide, 2, rfl⟩
      · rw [h]
        exact ⟨by decide, 0, rfl⟩)).2.1

/-! ## C27: the channel id of converted messages -/

theorem lookup_eq_none_iff_not_mem_fst {β : Type} (l : List (String × β)) (t : String) :
    l.lookup t = none ↔ t ∉ l.map Prod.fst := by
  induction l with
  | nil => simp
  | cons e es ih =>
    obtain ⟨k, x⟩ := e
    by_cases h : t = k
    · subst h
      simp [List.lookup_cons]
    · have h2 : (t == k) = false := by simpa using h
      simp [List.lookup_cons, h2, ih, h]

theorem mem_of_lookup_eq_some {β : Type} (l : List (String × β)) (t : String) (x : β)
    (h : l.lookup t = some x) : (t, x) ∈ l := by
  induction l with
  | nil => simp at h
  | cons e es ih =>
    obtain ⟨k, y⟩ := e
    by_cases hk : t = k
    · subst hk
      simp [List.lookup_cons] at h
      rw [h]
      exact List.mem_cons_self _ _
    · have h2 : (t == k) = false := by simpa using hk
      rw [List.lookup_cons, h2] at h
      exact List.mem_cons_of_mem _ (ih h)

theorem lookup_append_of_mem_fst {β : Type} (l extra : List (String × β)) (t : String)
    (h : t ∈ l.map Prod.fst) : (l ++ extra).lookup t = l.lookup t := by
  induction l with
  | nil => simp at h
  | cons e es ih =>
    obtain ⟨k, y⟩ := e
    by_cases hk : t = k
    · subst hk
      simp [List.lookup_cons]
    · have h2 : (t == k) = false := by simpa using hk
      have h3 : t ∈ es.map Prod.fst := by
        simp only [List.map_cons, List.mem_cons] at h
        rcases h with h | h
        · exact absurd h hk
        · exact h
      simp only [List.cons_append, List.lookup_cons, h2]
      exact ih h3

theorem lookup_append_of_not_mem_fst {β : Type} (l extra : List (String × β)) (t : String)
    (h : t ∉ l.map Prod.fst) : (l ++ extra).lookup t = extra.lookup t := by
  induction l with
  | nil => rfl
  | cons e es ih =>
    obtain ⟨k, y⟩ := e
    have hk : t ≠ k := fun e => h (by simp [e])
    have h2 : (t == k) = false := by simpa using hk
    have h3 : t ∉ es.map Prod.fst := fun hm => h (by simp [hm])
    simp only [List.cons_append, List.lookup_cons, h2]
    exact ih h3

theorem schemaEntries_append (a b : List McapRecord) :
    schemaEntries (a ++ b) = schemaEntries a ++ schemaEntries b := by
  induction a with
  | nil => rfl
  | cons r rest ih => cases r <;> simp [schemaEntries, ih]

theorem channelEntries_append (a b : List McapRecord) :
    channelEntries (a ++ b) = channelEntries a ++ channelEntries b := by
  induction a with
  | nil => rfl
  | cons r rest ih => cases r <;> simp [channelEntries, ih]

theorem messageIds_append (a b : List McapRecord) :
    messageIds (a ++ b) = messageIds a ++ messageIds b := by
  induction a with
  | nil => rfl
  | cons r rest ih => cases r <;> simp [messageIds, ih]

theorem mem_schemaEntries (records : List McapRecord) (name : String) (id : Nat)
    (h : (name, id) ∈ schemaEntries records) :
    ∃ data, McapRecord.schema id name data ∈ records := by
  induction records with
  | nil => simp [schemaEntries] at h
  | cons r rest ih =>
    cases r with
    | schema id2 name2 data2 =>
      simp only [schemaEntries, List.mem_cons, Prod.mk.injEq] at h
      rcases h with ⟨h1, h2⟩ | h
      · exact ⟨data2, by rw [h1, h2]; exact List.mem_cons_self _ _⟩
      · obtain ⟨d, hd⟩ := ih h
        exact ⟨d, List.mem_cons_of_mem _ hd⟩
    | channel _ _ _ =>
      obtain ⟨d, hd⟩ := ih h
      exact ⟨d, List.mem_cons_of_mem _ hd⟩
    | message _ _ _ _ =>
      obtain ⟨d, hd⟩ := ih h
      exact ⟨d, List.mem_cons_of_mem _ hd⟩

theorem mem_channelEntries (records : List McapRecord) (topic : String) (id : Nat)
    (h : (topic, id) ∈ channelEntries records) :
    ∃ schemaId, McapRecord.channel id topic schemaId ∈ records := by
  induction records with
  | nil => simp [channelEntries] at h
  | cons r rest ih =>
    cases r with
    | channel id2 topic2 sid2 =>
      simp only [channelEntries, List.mem_cons, Prod.mk.injEq] at h
      rcases h with ⟨h1, h2⟩ | h
      · exact ⟨sid2, by rw [h1, h2]; exact List.mem_cons_self _ _⟩
      · obtain ⟨d, hd⟩ := ih h
        exact ⟨d, List.mem_cons_of_mem _ hd⟩
    | schema _ _ _ =>
      obtain ⟨d, hd⟩ := ih h
      exact ⟨d, List.mem_cons_of_mem _ hd⟩
    | message _ _ _ _ =>
      obtain ⟨d, hd⟩ := ih h
      exact ⟨d, List.mem_cons_of_mem _ hd⟩

theorem declaredIn_mono (r : McapRecord) (pre pre2 : List McapRecord)
    (hsub : ∀ x ∈ pre, x ∈ pre2) (h : r.declaredIn pre) : r.declaredIn pre2 := by
  cases r with
  | schema _ _ _ => trivial
  | channel id topic sid =>
    obtain ⟨n, d, hm⟩ := h
    exact ⟨n, d, hsub _ hm⟩
  | message c lt pt d =>
    obtain ⟨t, sid, hm⟩ := h
    exact ⟨t, sid, hsub _ hm⟩

theorem declaredBeforeUse_snoc (records : List McapRecord) (r : McapRecord)
    (h : declaredBeforeUse records) (hr : r.declaredIn records) :
    declaredBeforeUse (records ++ [r]) := by
  intro pre x post heq
  rcases List.eq_nil_or_concat post with hp | ⟨post2, y, hp⟩
  · subst hp
    have h2 := List.append_inj' heq rfl
    rw [← h2.1]
    have h3 : x = r := by
      have := h2.2
      simp at this
      exact this.symm
    rw [h3]
    exact hr
  · subst hp
    have h1 : records ++ [r] = (pre ++ x :: post2) ++ [y] := by
      rw [heq]
      simp
    have h2 := List.append_inj' h1 rfl
    exact h pre x post2 h2.1

theorem writeInSegment_unknown (ids : WriterIds) (channels_ : List (String × ChannelInfo))
    (w : SegmentWriter) (m : String × RawMessage × Nat) (h : channels_.lookup m.1 = none) :
    McapRecorder.writeInSegment ids channels_ w m = w := by
  unfold McapRecorder.writeInSegment
  rw [h]

theorem writeInSegment_effect (ids : WriterIds) (channels_ : List (String × ChannelInfo))
    (w : SegmentWriter) (m : String × RawMessage × Nat) (info : ChannelInfo)
    (h : channels_.lookup m.1 = some info) :
    ∃ (sid cid : Nat) (sblock cblock : List McapRecord),
      ((w.seg.schema_cache.lookup info.message_type = some sid ∧ sblock = []) ∨
        (w.seg.schema_cache.lookup info.message_type = none ∧
          sblock = [McapRecord.schema sid info.message_type info.proto_desc])) ∧
      ((w.seg.channel_cache.lookup m.1 = some cid ∧ cblock = []) ∨
        (w.seg.channel_cache.lookup m.1 = none ∧ cblock = [McapRecord.channel cid m.1 sid])) ∧
      (McapRecorder.writeInSegment ids channels_ w m).records =
        w.records ++ sblock ++ cblock ++
          [McapRecord.message cid m.2.2 m.2.1.timestamp m.2.1.message] ∧
      (McapRecorder.writeInSegment ids channels_ w m).seg.schema_cache =
        w.seg.schema_cache ++ schemaEntries sblock ∧
      (McapRecorder.writeInSegment ids channels_ w m).seg.channel_cache =
        w.seg.channel_cache ++ channelEntries cblock := by
  unfold McapRecorder.writeInSegment
  rw [h]
  cases hs : w.seg.schema_cache.lookup info.message_type with
  | some sid =>
    cases hc : w.seg.channel_cache.lookup m.1 with
    | some cid =>
      refine ⟨sid, cid, [], [], Or.inl ⟨rfl, rfl⟩, Or.inl ⟨rfl, rfl⟩, ?_, ?_, ?_⟩ <;>
        simp [McapRecorder.ensureSchema, McapRecorder.ensureChannel, hs, hc, schemaEntries,
          channelEntries]
    | none =>
      refine ⟨sid, ids.channelId w.channels, [],
        [McapRecord.channel (ids.channelId w.channels) m.1 sid],
        Or.inl ⟨rfl, rfl⟩, Or.inr ⟨rfl, rfl⟩, ?_, ?_, ?_⟩ <;>
        simp [McapRecorder.ensureSchema, McapRecorder.ensureChannel, hs, hc, schemaEntries,
          channelEntries]
  | none =>
    cases hc : w.seg.channel_cache.lookup m.1 with
    | some cid =>
      refine ⟨ids.schemaId w.schemas, cid,
        [McapRecord.schema (ids.schemaId w.schemas) info.message_type info.proto_desc], [],
        Or.inr ⟨rfl, rfl⟩, Or.inl ⟨rfl, rfl⟩, ?_, ?_, ?_⟩ <;>
        simp [McapRecorder.ensureSchema, McapRecorder.ensureChannel, hs, hc, schemaEntries,
          channelEntries]
    | none =>
      refine ⟨ids.schemaId w.schemas, ids.channelId w.channels,
        [McapRecord.schema (ids.schemaId w.schemas) info.message_type info.proto_desc],
        [McapRecord.channel (ids.channelId w.channels) m.1 (ids.schemaId w.schemas)],
        Or.inr ⟨rfl, rfl⟩, Or.inr ⟨rfl, rfl⟩, ?_, ?_, ?_⟩ <;>
        simp [McapRecorder.ensureSchema, McapRecorder.ensureChannel, hs, hc, schemaEntries,
          channelEntries]

theorem writtenMessages_snoc_unknown (channels_ : List (String × ChannelInfo))
    (done : List (String × RawMessage × Nat)) (m : String × RawMessage × Nat)
    (h : channels_.lookup m.1 = none) :
    writtenMessages channels_ (done ++ [m]) = writtenMessages channels_ done := by
  simp [writtenMessages, List.filter_append, h]

theorem writtenMessages_snoc_known (channels_ : List (String × ChannelInfo))
    (done : List (String × RawMessage × Nat)) (m : String × RawMessage × Nat)
    (info : ChannelInfo) (h : channels_.lookup m.1 = some info) :
    writtenMessages channels_ (done ++ [m]) = writtenMessages channels_ done ++ [m] := by
  simp [writtenMessages, List.filter_append, h]

theorem SegInv.step_unknown {channels_ : List (String × ChannelInfo)} {w : SegmentWriter}
    {done : List (String × RawMessage × Nat)} (h : SegInv channels_ w done)
    (m : String × RawMessage × Nat) (hl : channels_.lookup m.1 = none) :
    SegInv channels_ w (done ++ [m]) := by
  refine ⟨h.cacheS, h.cacheC, h.nodupS, h.nodupC, ?_, ?_, ?_, h.order⟩
  · intro T
    rw [h.memS T]
    constructor
    · rintro ⟨x, hx, hx2⟩
      exact ⟨x, List.mem_append_left _ hx, hx2⟩
    · rintro ⟨x, hx, info, hx2, hx3⟩
      rcases List.mem_append.1 hx with h1 | h1
      · exact ⟨x, h1, info, hx2, hx3⟩
      · rw [List.mem_singleton.1 h1, hl] at hx2
        exact Option.noConfusion hx2
  · intro t
    rw [h.memC t]
    constructor
    · rintro ⟨x, hx, hx2⟩
      exact ⟨x, List.mem_append_left _ hx, hx2⟩
    · rintro ⟨x, hx, hx2, hx3⟩
      rcases List.mem_append.1 hx with h1 | h1
      · exact ⟨x, h1, hx2, hx3⟩
      · rw [← hx2, List.mem_singleton.1 h1, hl] at hx3
        exact Bool.noConfusion hx3
  · rw [writtenMessages_snoc_unknown channels_ done m hl]
    exact h.ids

theorem SegInv.step_known {channels_ : List (String × ChannelInfo)} {w : SegmentWriter}
    {done : List (String × RawMessage × Nat)} (h : SegInv channels_ w done) (ids : WriterIds)
    (m : String × RawMessage × Nat) (info : ChannelInfo)
    (hl : channels_.lookup m.1 = some info) :
    SegInv channels_ (McapRecorder.writeInSegment ids channels_ w m) (done ++ [m]) := by
  obtain ⟨sid, cid, sblock, cblock, hs, hc, hrec, hsc, hcc⟩ :=
    writeInSegment_effect ids channels_ w m info hl
  have E1 : schemaEntries (McapRecorder.writeInSegment ids channels_ w m).records =
      schemaEntries w.records ++ schemaEntries sblock := by
    rw [hrec]
    rcases hs with ⟨_, rfl⟩ | ⟨_, rfl⟩ <;> rcases hc with ⟨_, rfl⟩ | ⟨_, rfl⟩ <;>
      simp [schemaEntries_append, schemaEntries]
  have E2 : channelEntries (McapRecorder.writeInSegment ids channels_ w m).records =
      channelEntries w.records ++ channelEntries cblock := by
    rw [hrec]
    rcases hs with ⟨_, rfl⟩ | ⟨_, rfl⟩ <;> rcases hc with ⟨_, rfl⟩ | ⟨_, rfl⟩ <;>
      simp [channelEntries_append, channelEntries]
  have E3 : messageIds (McapRecorder.writeInSegment ids channels_ w m).records =
      messageIds w.records ++ [cid] := by
    rw [hrec]
    rcases hs with ⟨_, rfl⟩ | ⟨_, rfl⟩ <;> rcases hc with ⟨_, rfl⟩ | ⟨_, rfl⟩ <;>
      simp [messageIds_append, messageIds]
  -- the schema of the type is among the schema records after the step
  have hskey : info.message_type ∈
      (schemaEntries w.records ++ schemaEntries sblock).map Prod.fst := by
    rcases hs with ⟨h1, _⟩ | ⟨_, rfl⟩
    · rw [h.cacheS] at h1
      have := mem_of_lookup_eq_some _ _ _ h1
      simp only [List.map_append, List.mem_append, List.mem_map]
      exact Or.inl ⟨_, this, rfl⟩
    · simp [schemaEntries]
  have hckey : (channelEntries w.records ++ channelEntries cblock).lookup m.1 = some cid := by
    rcases hc with ⟨h1, _⟩ | ⟨h1, rfl⟩
    · rw [h.cacheC] at h1
      have hm : m.1 ∈ (channelEntries w.records).map Prod.fst :=
        List.mem_map.2 ⟨_, mem_of_lookup_eq_some _ _ _ h1, rfl⟩
      rw [lookup_append_of_mem_fst _ _ _ hm, h1]
    · rw [h.cacheC] at h1
      rw [lookup_append_of_not_mem_fst _ _ _ ((lookup_eq_none_iff_not_mem_fst _ _).1 h1)]
      simp [channelEntries, List.lookup_cons]
  refine ⟨by rw [hsc, h.cacheS, E1], by rw [hcc, h.cacheC, E2], ?_, ?_, ?_, ?_, ?_, ?_⟩
  · rw [E1]
    rcases hs with ⟨_, rfl⟩ | ⟨h1, rfl⟩
    · simpa [schemaEntries] using h.nodupS
    · rw [h.cacheS] at h1
      have hnot := (lookup_eq_none_iff_not_mem_fst _ _).1 h1
      simp only [schemaEntries, List.map_append, List.map_cons, List.map_nil]
      rw [List.nodup_append]
      refine ⟨h.nodupS, List.nodup_singleton _, ?_⟩
      intro a ha hb
      rw [List.mem_singleton.1 hb] at ha
      exact hnot ha
  · rw [E2]
    rcases hc with ⟨_, rfl⟩ | ⟨h1, rfl⟩
    · simpa [channelEntries] using h.nodupC
    · rw [h.cacheC] at h1
      have hnot := (lookup_eq_none_iff_not_mem_fst _ _).1 h1
      simp only [channelEntries, List.map_append, List.map_cons, List.map_nil]
      rw [List.nodup_append]
      refine ⟨h.nodupC, List.nodup_singleton _, ?_⟩
      intro a ha hb
      rw [List.mem_singleton.1 hb] at ha
      exact hnot ha
  · intro T
    rw [E1]
    constructor
    · intro hT
      rw [List.map_append, List.mem_append] at hT
      rcases hT with h1 | h1
      · obtain ⟨x, hx, hx2⟩ := (h.memS T).1 h1
        exact ⟨x, List.mem_append_left _ hx, hx2⟩
      · rcases hs with ⟨_, rfl⟩ | ⟨_, rfl⟩
        · simp [schemaEntries] at h1
        · simp only [schemaEntries, List.map_cons, List.map_nil, List.mem_singleton] at h1
          exact ⟨m, List.mem_append_right _ (List.mem_singleton.2 rfl), info, hl, h1.symm⟩
    · rintro ⟨x, hx, info2, hx2, hx3⟩
      rcases List.mem_append.1 hx with h1 | h1
      · rw [List.map_append, List.mem_append]
        exact Or.inl ((h.memS T).2 ⟨x, h1, info2, hx2, hx3⟩)
      · rw [List.mem_singleton.1 h1, hl] at hx2
        rw [← hx3, ← Option.some.inj hx2]
        exact hskey
  · intro t
    rw [E2]
    have hm1 : m.1 ∈ (channelEntries w.records ++ channelEntries cblock).map Prod.fst :=
      List.mem_map.2 ⟨_, mem_of_lookup_eq_some _ _ _ hckey, rfl⟩
    constructor
    · intro ht
      rw [List.map_append, List.mem_append] at ht
      rcases ht with h1 | h1
      · obtain ⟨x, hx, hx2⟩ := (h.memC t).1 h1
        exact ⟨x, List.mem_append_left _ hx, hx2⟩
      · rcases hc with ⟨_, rfl⟩ | ⟨_, rfl⟩
        · simp [channelEntries] at h1
        · simp only [channelEntries, List.map_cons, List.map_nil, List.mem_singleton] at h1
          refine ⟨m, List.mem_append_right _ (List.mem_singleton.2 rfl), h1.symm, ?_⟩
          rw [h1, hl]
          rfl
    · rintro ⟨x, hx, hx2, hx3⟩
      rcases List.mem_append.1 hx with h1 | h1
      · rw [List.map_append, List.mem_append]
        exact Or.inl ((h.memC t).2 ⟨x, h1, hx2, hx3⟩)
      · rw [← hx2, List.mem_singleton.1 h1]
        exact hm1
  · rw [E3, E2, writtenMessages_snoc_known channels_ done m info hl, List.map_append,
      List.map_singleton, hckey, h.ids]
    congr 1
    apply List.map_congr_left
    intro x hx
    have hx2 := List.mem_filter.1 hx
    have hkey : x.1 ∈ (channelEntries w.records).map Prod.fst :=
      (h.memC x.1).2 ⟨x, hx2.1, rfl, hx2.2⟩
    rw [lookup_append_of_mem_fst _ _ _ hkey]
  · rw [hrec]
    have o1 : declaredBeforeUse (w.records ++ sblock) := by
      rcases hs with ⟨_, rfl⟩ | ⟨_, rfl⟩
      · simpa using h.order
      · exact declaredBeforeUse_snoc _ _ h.order trivial
    have hsrec : ∃ name data, McapRecord.schema sid name data ∈ w.records ++ sblock := by
      rcases hs with ⟨h1, _⟩ | ⟨_, rfl⟩
      · rw [h.cacheS] at h1
        obtain ⟨d, hd⟩ := mem_schemaEntries _ _ _ (mem_of_lookup_eq_some _ _ _ h1)
        exact ⟨_, d, List.mem_append_left _ hd⟩
      · exact ⟨_, _, List.mem_append_right _ (List.mem_singleton.2 rfl)⟩
    have o2 : declaredBeforeUse (w.records ++ sblock ++ cblock) := by
      rcases hc with ⟨_, rfl⟩ | ⟨_, rfl⟩
      · simpa using o1
      · exact declaredBeforeUse_snoc _ _ o1 hsrec
    have hcrec : ∃ topic schemaId,
        McapRecord.channel cid topic schemaId ∈ w.records ++ sblock ++ cblock := by
      rcases hc with ⟨h1, _⟩ | ⟨_, rfl⟩
      · rw [h.cacheC] at h1
        obtain ⟨d, hd⟩ := mem_channelEntries _ _ _ (mem_of_lookup_eq_some _ _ _ h1)
        exact ⟨_, d, List.mem_append_left _ (List.mem_append_left _ hd)⟩
      · exact ⟨_, _, List.mem_append_right _ (List.mem_singleton.2 rfl)⟩
    exact declaredBeforeUse_snoc _ _ o2 hcrec

theorem SegInv.of_empty_caches (channels_ : List (String × ChannelInfo)) (w : SegmentWriter)
    (h1 : w.records = []) (h2 : w.seg.schema_cache = []) (h3 : w.seg.channel_cache = []) :
    SegInv channels_ w [] := by
  refine ⟨by rw [h1, h2]; rfl, by rw [h1, h3]; rfl, by rw [h1]; exact List.nodup_nil,
    by rw [h1]; exact List.nodup_nil, ?_, ?_, by rw [h1]; rfl, ?_⟩
  · intro T
    rw [h1]
    simp [schemaEntries]
  · intro t
    rw [h1]
    simp [channelEntries]
  · intro pre r post heq
    rw [h1] at heq
    simp at heq

theorem SegInv.run (ids : WriterIds) (channels_ : List (String × ChannelInfo))
    (msgs : List (String × RawMessage × Nat)) :
    ∀ (w : SegmentWriter) (done : List (String × RawMessage × Nat)),
      SegInv channels_ w done →
      SegInv channels_ (msgs.foldl (McapRecorder.writeInSegment ids channels_) w)
        (done ++ msgs) := by
  induction msgs with
  | nil =>
    intro w done h
    simpa using h
  | cons m rest ih =>
    intro w done h
    have hstep : SegInv channels_ (McapRecorder.writeInSegment ids channels_ w m)
        (done ++ [m]) := by
      cases hl : channels_.lookup m.1 with
      | none =>
        rw [writeInSegment_unknown ids channels_ w m hl]
        exact h.step_unknown m hl
      | some info => exact h.step_known ids m info hl
    have := ih _ _ hstep
    rw [List.append_assoc, List.singleton_append] at this
    exact this

theorem startNewSegment_caches (config_ : RecordingConfig) (canOpen : String → Bool)
    (stamp : String) (now_s : Nat) (s : SegmentState) :
    (McapRecorder.startNewSegment config_ canOpen stamp now_s s).schema_cache = [] ∧
    (McapRecorder.startNewSegment config_ canOpen stamp now_s s).channel_cache = [] := by
  have h1 : (McapRecorder.ensureBaseTimestamp stamp
      (McapRecorder.closeSegment s)).schema_cache = [] := by
    unfold McapRecorder.ensureBaseTimestamp McapRecorder.closeSegment
    split <;> split <;> rfl
  have h2 : (McapRecorder.ensureBaseTimestamp stamp
      (McapRecorder.closeSegment s)).channel_cache = [] := by
    unfold McapRecorder.ensureBaseTimestamp McapRecorder.closeSegment
    split <;> split <;> rfl
  unfold McapRecorder.startNewSegment
  simp only
  constructor
  · split <;> exact h1
  · split <;> exact h2

/-- C23: `startNewSegment` leaves `schema_cache_` and `channel_cache_` empty,
whether the new file opens or not. For every list of messages handed to the
writing part of `writeMessageToMcap` after it, no message type has two schema
records and no topic has two channel records, the types and topics with a
record are those of the messages written, every message record carries the
channel id that `channel_cache_` holds for its topic, which is the id of the
channel record of the topic, and every message record comes after a channel
record with its channel id, every channel record after a schema record with
its schema id. With segment interval 0 and an open writer `writeMessageToMcap`
on a message that is not null is that writing part. -/
theorem C23_one_schema_and_channel_per_segment (ids : WriterIds) (config_ : RecordingConfig)
    (canOpen : String → Bool) (stamp : String) (now_s : Nat)
    (channels_ : List (String × ChannelInfo)) (prev : SegmentWriter)
    (msgs : List (String × RawMessage × Nat)) :
    (McapRecorder.startNewSegmentWriter config_ canOpen stamp now_s prev).seg.schema_cache
      = [] ∧
    (McapRecorder.startNewSegmentWriter config_ canOpen stamp now_s prev).seg.channel_cache
      = [] ∧
    SegInv channels_
      (msgs.foldl (McapRecorder.writeInSegment ids channels_)
        (McapRecorder.startNewSegmentWriter config_ canOpen stamp now_s prev)) msgs ∧
    messageIds
        (msgs.foldl (McapRecorder.writeInSegment ids channels_)
          (McapRecorder.startNewSegmentWriter config_ canOpen stamp now_s prev)).records =
      (writtenMessages channels_ msgs).map (fun m =>
        ((msgs.foldl (McapRecorder.writeInSegment ids channels_)
          (McapRecorder.startNewSegmentWriter config_ canOpen stamp now_s
            prev)).seg.channel_cache.lookup m.1).getD 0) ∧
    (config_.segment_interval_seconds = 0 →
      ∀ (w : SegmentWriter) (topic : String) (msg : RawMessage) (logTime : Nat),
        w.seg.writer_open = true →
        McapRecorder.writeMessageToMcap ids config_ canOpen stamp now_s channels_ logTime w
            { topic := topic, msg := some msg } =
          some (McapRecorder.writeInSegment ids channels_ w (topic, msg, logTime))) := by
  obtain ⟨c1, c2⟩ := startNewSegment_caches config_ canOpen stamp now_s prev.seg
  have hinv := SegInv.run ids channels_ msgs
    (McapRecorder.startNewSegmentWriter config_ canOpen stamp now_s prev) []
    (SegInv.of_empty_caches channels_ _ rfl c1 c2)
  rw [List.nil_append] at hinv
  refine ⟨c1, c2, hinv, ?_, ?_⟩
  · rw [hinv.cacheC]
    exact hinv.ids
  · intro hzero w topic msg logTime hopen
    unfold McapRecorder.writeMessageToMcap McapRecorder.rotateWriterIfNeeded
    simp only [hopen, hzero, Nat.le_refl, if_true, Bool.not_true, Bool.false_eq_true, if_false]
    cases hl : channels_.lookup topic with
    | none => simp [writeInSegment_unknown ids channels_ w (topic, msg, logTime) hl]
    | some info => simp

/-- C23 on the sample messages in the first segment of a recording: no type has
two schema records, the message records carry the ids 0, 1, 0 and 2 of the
channel records of `/a`, `/b`, `/a` and `/c`, and `writeMessageToMcap` writes
the first message as the writing part does. -/
theorem C23_one_schema_and_channel_per_segment_witness :
    ((schemaEntries
        (sampleWrites.foldl (McapRecorder.writeInSegment mcapWriterIds sampleChannels)
          (McapRecorder.startNewSegmentWriter { output_file := "out" } (fun _ => true)
            "20240101_000000" 100 {})).records).map Prod.fst).Nodup ∧
    messageIds
        (sampleWrites.foldl (McapRecorder.writeInSegment mcapWriterIds sampleChannels)
          (McapRecorder.startNewSegmentWriter { output_file := "out" } (fun _ => true)
            "20240101_000000" 100 {})).records = [0, 1, 0, 2] ∧
    McapRecorder.writeMessageToMcap mcapWriterIds { output_file := "out" } (fun _ => true)
        "20240101_000000" 100 sampleChannels 100
        (McapRecorder.startNewSegmentWriter { output_file := "out" } (fun _ => true)
          "20240101_000000" 100 {})
        { topic := "/a", msg := some { message := [1], timestamp := 5 } } =
      some (McapRecorder.writeInSegment mcapWriterIds sampleChannels
        (McapRecorder.startNewSegmentWriter { output_file := "out" } (fun _ => true)
          "20240101_000000" 100 {})
        ("/a", { message := [1], timestamp := 5 }, 100)) :=
  ⟨(C23_one_schema_and_channel_per_segment mcapWriterIds { output_file := "out" }
      (fun _ => true) "20240101_000000" 100 sampleChannels {} sampleWrites).2.2.1.nodupS,
   by decide,
   (C23_one_schema_and_channel_per_segment mcapWriterIds { output_file := "out" }
      (fun _ => true) "20240101_000000" 100 sampleChannels {} sampleWrites).2.2.2.2 rfl _ "/a"
      { message := [1], timestamp := 5 } 100 (by decide)⟩

/-! ## C30: `buildTree` on an acyclic descriptor set -/

theorem fileMapOf_lookup (files : List FileDesc) (d : String) (g : FileDesc)
    (h : (fileMapOf files).lookup d = some g) : g ∈ files ∧ g.name = d := by
  have hm := mem_of_lookup_eq_some _ _ _ h
  unfold fileMapOf at hm
  rw [List.mem_reverse, List.mem_map] at hm
  obtain ⟨f, hf, hfe⟩ := hm
  have h1 : f.name = d := congrArg Prod.fst hfe
  have h2 : f = g := congrArg Prod.snd hfe
  subst h2
  exact ⟨hf, h1⟩

theorem mem_allDepsOf (files : List FileDesc) (x : String) :
    x ∈ allDepsOf files ↔ ∃ f ∈ files, x ∈ f.dependency := by
  induction files with
  | nil => simp [allDepsOf]
  | cons f rest ih =>
    simp only [allDepsOf, List.mem_append, ih, List.mem_cons]
    constructor
    · rintro (h | ⟨g, hg, hx⟩)
      · exact ⟨f, Or.inl rfl, h⟩
      · exact ⟨g, Or.inr hg, hx⟩
    · rintro ⟨g, hg | hg, hx⟩
      · rw [hg] at hx
        exact Or.inl hx
      · exact Or.inr ⟨g, hg, hx⟩

theorem filter_head_some {α : Type} (p : α → Bool) (l : List α) (r : α)
    (h : (l.filter p).head? = some r) :
    ∃ pre post, l = pre ++ r :: post ∧ p r = true ∧ ∀ g ∈ pre, p g = false := by
  induction l with
  | nil => simp at h
  | cons a rest ih =>
    rcases Bool.eq_false_or_eq_true (p a) with ha | ha
    · rw [List.filter_cons_of_pos ha, List.head?_cons] at h
      have := Option.some.inj h
      subst this
      exact ⟨[], rest, rfl, ha, fun g hg => absurd hg (List.not_mem_nil g)⟩
    · rw [List.filter_cons_of_neg (by simp [ha])] at h
      obtain ⟨pre, post, h1, h2, h3⟩ := ih h
      refine ⟨a :: pre, post, by rw [h1]; rfl, h2, ?_⟩
      intro g hg
      rcases List.mem_cons.1 hg with h4 | h4
      · rw [h4]; exact ha
      · exact h3 g h4

theorem filter_head_exists {α : Type} (p : α → Bool) (l : List α) (g : α) (hg : g ∈ l)
    (hp : p g = true) : ∃ r, (l.filter p).head? = some r := by
  have hm : g ∈ l.filter p := List.mem_filter.2 ⟨hg, hp⟩
  cases hf : l.filter p with
  | nil =>
    rw [hf] at hm
    exact absurd hm (List.not_mem_nil g)
  | cons r rest => exact ⟨r, rfl⟩

theorem allSome_eventually {α β : Type} (build : Nat → α → Option β) (L : List α)
    (h : ∀ g ∈ L, ∃ n0, ∀ n, n0 ≤ n → ∃ t, build n g = some t) :
    ∃ n0, ∀ n, n0 ≤ n → ∃ ts, allSome (L.map (build n)) = some ts := by
  induction L with
  | nil => exact ⟨0, fun n _ => ⟨[], rfl⟩⟩
  | cons g rest ih =>
    obtain ⟨n1, h1⟩ := h g (List.mem_cons_self _ _)
    obtain ⟨n2, h2⟩ := ih (fun x hx => h x (List.mem_cons_of_mem _ hx))
    refine ⟨max n1 n2, ?_⟩
    intro n hn
    obtain ⟨t, ht⟩ := h1 n (le_trans (le_max_left _ _) hn)
    obtain ⟨ts, hts⟩ := h2 n (le_trans (le_max_right _ _) hn)
    exact ⟨t :: ts, by simp [allSome, ht, hts]⟩

theorem buildTree_desc (fileMap : List (String × FileDesc)) (fuel : Nat) (file : FileDesc)
    (t : ProtoDesc)
    (h : FdSetStringToCyberProtoDescString.buildTree fileMap fuel file = some t) :
    t.desc = some file := by
  cases fuel with
  | zero => simp [FdSetStringToCyberProtoDescString.buildTree] at h
  | succ n =>
    rw [FdSetStringToCyberProtoDescString.buildTree] at h
    split at h
    · exact Option.noConfusion h
    · rw [← Option.some.inj h]
      rfl

theorem buildTree_eventually (files : List FileDesc) (hac : Acyclic files) :
    ∀ file ∈ files, ∃ n0, ∀ n, n0 ≤ n →
      ∃ t, FdSetStringToCyberProtoDescString.buildTree (fileMapOf files) n file = some t := by
  classical
  let S := { n : String // n ∈ files.map (fun f => f.name) }
  haveI : Fintype S := List.Subtype.fintype (files.map (fun f => f.name))
  let r : S → S → Prop := fun b a => Relation.TransGen (DependsOn files) a.1 b.1
  haveI : IsTrans S r := ⟨fun c b a hcb hba => Relation.TransGen.trans hba hcb⟩
  haveI : IsIrrefl S r := ⟨fun a h => hac a.1 h⟩
  have hwf : WellFounded r := Finite.wellFounded_of_trans_of_irrefl r
  have key : ∀ a : S, ∀ file ∈ files, file.name = a.1 → ∃ n0, ∀ n, n0 ≤ n →
      ∃ t, FdSetStringToCyberProtoDescString.buildTree (fileMapOf files) n file = some t := by
    intro a
    induction a using hwf.induction with
    | _ a ih =>
      intro file hfile hname
      have hdeps : ∀ g ∈ file.dependency.filterMap (fun d => (fileMapOf files).lookup d),
          ∃ n0, ∀ n, n0 ≤ n →
            ∃ t, FdSetStringToCyberProtoDescString.buildTree (fileMapOf files) n g = some t := by
        intro g hg
        obtain ⟨d, hd, hlook⟩ := List.mem_filterMap.1 hg
        obtain ⟨hgf, hgn⟩ := fileMapOf_lookup files d g hlook
        have hmem : g.name ∈ files.map (fun f => f.name) := List.mem_map.2 ⟨g, hgf, rfl⟩
        have hr : r ⟨g.name, hmem⟩ a := by
          show Relation.TransGen (DependsOn files) a.1 g.name
          apply Relation.TransGen.single
          exact ⟨file, hfile, hname, by rw [hgn]; exact hd⟩
        exact ih ⟨g.name, hmem⟩ hr g hgf rfl
      obtain ⟨n0, hn0⟩ := allSome_eventually
        (FdSetStringToCyberProtoDescString.buildTree (fileMapOf files)) _ hdeps
      refine ⟨n0 + 1, ?_⟩
      intro n hn
      obtain ⟨k, hk⟩ : ∃ k, n = k + 1 := ⟨n - 1, by omega⟩
      subst hk
      obtain ⟨ts, hts⟩ := hn0 k (by omega)
      exact ⟨ProtoDesc.node (some file) ts, by
        rw [FdSetStringToCyberProtoDescString.buildTree, hts]⟩
  intro file hfile
  exact key ⟨file.name, List.mem_map.2 ⟨file, hfile, rfl⟩⟩ file hfile rfl

theorem exists_undepended (files : List FileDesc) (hne : files ≠ []) (hac : Acyclic files) :
    ∃ g ∈ files, ∀ f ∈ files, g.name ∉ f.dependency := by
  classical
  let S := { n : String // n ∈ files.map (fun f => f.name) }
  haveI : Fintype S := List.Subtype.fintype (files.map (fun f => f.name))
  let r : S → S → Prop := fun x m => Relation.TransGen (DependsOn files) x.1 m.1
  haveI : IsTrans S r := ⟨fun a b c hab hbc => Relation.TransGen.trans hab hbc⟩
  haveI : IsIrrefl S r := ⟨fun a h => hac a.1 h⟩
  have hwf : WellFounded r := Finite.wellFounded_of_trans_of_irrefl r
  obtain ⟨f0, rest, hf0⟩ := List.exists_cons_of_ne_nil hne
  have hmem0 : f0.name ∈ files.map (fun f => f.name) :=
    List.mem_map.2 ⟨f0, by rw [hf0]; exact List.mem_cons_self _ _, rfl⟩
  obtain ⟨m, _, hmin⟩ := hwf.has_min Set.univ ⟨⟨f0.name, hmem0⟩, Set.mem_univ _⟩
  obtain ⟨g, hg, hgn⟩ := List.mem_map.1 m.2
  refine ⟨g, hg, ?_⟩
  intro f hf hdep
  have hfm : f.name ∈ files.map (fun f => f.name) := List.mem_map.2 ⟨f, hf, rfl⟩
  apply hmin ⟨f.name, hfm⟩ (Set.mem_univ _)
  show Relation.TransGen (DependsOn files) f.name m.1
  apply Relation.TransGen.single
  exact ⟨f, hf, rfl, by rw [← hgn]; exact hdep⟩

theorem acyclic_of_rank (files : List FileDesc) (rank : String → Nat)
    (h : ∀ a b, DependsOn files a b → rank b < rank a) : Acyclic files := by
  have key : ∀ a b, Relation.TransGen (DependsOn files) a b → rank b < rank a := by
    intro a b hab
    induction hab with
    | single h1 => exact h _ _ h1
    | tail _ h2 ih => exact Nat.lt_trans (h _ _ h2) ih
  intro a ha
  exact Nat.lt_irrefl _ (key a a ha)

theorem sampleFileSet_acyclic : Acyclic sampleFileSet := by
  apply acyclic_of_rank sampleFileSet sampleRank
  rintro a b ⟨f, hf, hn, hb⟩
  simp only [sampleFileSet, List.mem_cons, List.mem_singleton, List.not_mem_nil,
    or_false] at hf
  rcases hf with h | h | h | h <;> subst h <;> subst hn <;>
    simp only [List.mem_cons, List.mem_singleton, List.not_mem_nil, or_false] at hb
  · rcases hb with h | h <;> subst h <;> decide
  · subst hb; decide
  · subst hb; decide

/-- C30: on a descriptor set that is not empty and whose dependency relation is
acyclic there is a first file that no file of the set lists as a dependency,
and the recursion of `buildTree` ends: from some depth on
`FdSetStringToCyberProtoDescString` returns a tree, and the root of the tree
holds that file. -/
theorem C30_buildTree_terminates_on_acyclic (files : List FileDesc) (hne : files ≠ [])
    (hac : Acyclic files) :
    ∃ r pre post, files = pre ++ r :: post ∧
      (∀ f ∈ files, r.name ∉ f.dependency) ∧
      (∀ g ∈ pre, ∃ f ∈ files, g.name ∈ f.dependency) ∧
      ∃ fuel0, ∀ fuel, fuel0 ≤ fuel →
        ∃ tree, FdSetStringToCyberProtoDescString fuel files = some tree ∧
          tree.desc = some r := by
  obtain ⟨g, hg, hgdep⟩ := exists_undepended files hne hac
  have hpg : (fun f : FileDesc => !(allDepsOf files).contains f.name) g = true := by
    have : g.name ∉ allDepsOf files := fun hm => by
      obtain ⟨f, hf, hx⟩ := (mem_allDepsOf files g.name).1 hm
      exact hgdep f hf hx
    simpa using this
  obtain ⟨r, hr⟩ := filter_head_exists
    (fun f : FileDesc => !(allDepsOf files).contains f.name) files g hg hpg
  obtain ⟨pre, post, hsplit, hpr, hpre⟩ := filter_head_some
    (fun f : FileDesc => !(allDepsOf files).contains f.name) files r hr
  have hrmem : r ∈ files := by
    rw [hsplit]
    exact List.mem_append_right _ (List.mem_cons_self _ _)
  obtain ⟨n0, hn0⟩ := buildTree_eventually files hac r hrmem
  refine ⟨r, pre, post, hsplit, ?_, ?_, n0, ?_⟩
  · intro f hf hx
    have hnot : r.name ∉ allDepsOf files := by simpa using hpr
    exact hnot ((mem_allDepsOf files r.name).2 ⟨f, hf, hx⟩)
  · intro x hx
    have h1 : x.name ∈ allDepsOf files := by simpa using hpre x hx
    exact (mem_allDepsOf files x.name).1 h1
  · intro fuel hfuel
    obtain ⟨t, ht⟩ := hn0 fuel hfuel
    refine ⟨t, ?_, buildTree_desc _ _ _ _ ht⟩
    obtain ⟨f0, rest, hf0⟩ := List.exists_cons_of_ne_nil hne
    have hr2 : (rootsOf files).head? = some r := hr
    rw [hf0] at hr2 ht ⊢
    rw [FdSetStringToCyberProtoDescString, hr2]
    exact ht

/-- C30 on `sampleFileSet`: the tree is rooted at a file of the set from some
depth on. -/
theorem C30_buildTree_terminates_on_acyclic_witness :
    ∃ r, (∀ f ∈ sampleFileSet, r.name ∉ f.dependency) ∧
      ∃ fuel0, ∀ fuel, fuel0 ≤ fuel →
        ∃ tree, FdSetStringToCyberProtoDescString fuel sampleFileSet = some tree ∧
          tree.desc = some r := by
  obtain ⟨r, _, _, _, h1, _, h2⟩ :=
    C30_buildTree_terminates_on_acyclic sampleFileSet (by decide) sampleFileSet_acyclic
  exact ⟨r, h1, h2⟩

/-! ## C28: round trip of the descriptor conversions -/

theorem ProtoDesc.sizeList_append (a b : List ProtoDesc) :
    ProtoDesc.sizeList (a ++ b) = ProtoDesc.sizeList a + ProtoDesc.sizeList b := by
  induction a with
  | nil => simp [ProtoDesc.sizeList]
  | cons d ds ih =>
    rw [List.cons_append, ProtoDesc.sizeList, ProtoDesc.sizeList, ih]
    omega

theorem ProtoDesc.filesList_append (a b : List ProtoDesc) :
    ProtoDesc.filesList (a ++ b) = ProtoDesc.filesList a ++ ProtoDesc.filesList b := by
  induction a with
  | nil => simp [ProtoDesc.filesList]
  | cons d ds ih => simp [ProtoDesc.filesList, ih]

theorem ProtoDesc.wellFormedList_append (a b : List ProtoDesc)
    (ha : ProtoDesc.WellFormedList a) (hb : ProtoDesc.WellFormedList b) :
    ProtoDesc.WellFormedList (a ++ b) := by
  induction a with
  | nil => exact hb
  | cons d ds ih =>
    rw [ProtoDesc.WellFormedList] at ha
    rw [List.cons_append, ProtoDesc.WellFormedList]
    exact ⟨ha.1, ih ha.2⟩

theorem ProtoDesc.wellFormed_node (t : ProtoDesc) (h : t.WellFormed) :
    ∃ f ds, t = ProtoDesc.node (some f) ds ∧
      ds.map ProtoDesc.name? = f.dependency.map some ∧ ProtoDesc.WellFormedList ds := by
  cases t with
  | node desc ds =>
    cases desc with
    | none =>
      rw [ProtoDesc.WellFormed] at h
      exact absurd h id
    | some f =>
      rw [ProtoDesc.WellFormed] at h
      exact ⟨f, ds, rfl, h.1, h.2⟩

theorem c2f_loop_spec :
    ∀ (fuel : Nat) (q : List ProtoDesc) (seen : List String) (out : List FileDesc),
      ProtoDesc.WellFormedList q → seen = out.map (fun f => f.name) →
      (out.map (fun f => f.name)).Nodup → ProtoDesc.sizeList q ≤ fuel →
      ∃ res, CyberProtoDescStringToFdSetString.loop fuel q seen out = some res ∧
        (∃ extra, res = out ++ extra) ∧
        (res.map (fun f => f.name)).Nodup ∧
        (∀ g ∈ res, g ∈ out ∨ g ∈ ProtoDesc.filesList q) ∧
        (∀ f ∈ ProtoDesc.filesList q, f.name ∈ res.map (fun f => f.name)) := by
  intro fuel
  induction fuel with
  | zero =>
    intro q seen out hwf hseen hnd hsize
    cases q with
    | nil =>
      refine ⟨out, by rw [CyberProtoDescStringToFdSetString.loop], ⟨[], by simp⟩, hnd,
        fun g hg => Or.inl hg, ?_⟩
      intro f hf
      simp [ProtoDesc.filesList] at hf
    | cons t rest =>
      exfalso
      rw [ProtoDesc.WellFormedList] at hwf
      obtain ⟨f, ds, ht, _, _⟩ := ProtoDesc.wellFormed_node t hwf.1
      subst ht
      simp only [ProtoDesc.sizeList, ProtoDesc.size] at hsize
      omega
  | succ n ih =>
    intro q seen out hwf hseen hnd hsize
    cases q with
    | nil =>
      refine ⟨out, by rw [CyberProtoDescStringToFdSetString.loop], ⟨[], by simp⟩, hnd,
        fun g hg => Or.inl hg, ?_⟩
      intro f hf
      simp [ProtoDesc.filesList] at hf
    | cons t rest =>
      rw [ProtoDesc.WellFormedList] at hwf
      obtain ⟨f, ds, ht, _, hds⟩ := ProtoDesc.wellFormed_node t hwf.1
      subst ht
      have hwf2 : ProtoDesc.WellFormedList (rest ++ ds) :=
        ProtoDesc.wellFormedList_append rest ds hwf.2 hds
      have hsize2 : ProtoDesc.sizeList (rest ++ ds) ≤ n := by
        rw [ProtoDesc.sizeList_append]
        simp only [ProtoDesc.sizeList, ProtoDesc.size] at hsize
        omega
      have hfiles : ProtoDesc.filesList (ProtoDesc.node (some f) ds :: rest) =
          f :: (ProtoDesc.filesList ds ++ ProtoDesc.filesList rest) := by
        simp [ProtoDesc.filesList, ProtoDesc.files]
      rw [CyberProtoDescStringToFdSetString.loop]
      by_cases hs : f.name ∈ seen
      · rw [if_pos (by simpa using hs)]
        obtain ⟨res, h1, h2, h3, h4, h5⟩ := ih (rest ++ ds) seen out hwf2 hseen hnd hsize2
        refine ⟨res, h1, h2, h3, ?_, ?_⟩
        · intro g hg
          rcases h4 g hg with h | h
          · exact Or.inl h
          · right
            rw [hfiles]
            rw [ProtoDesc.filesList_append] at h
            rcases List.mem_append.1 h with h6 | h6
            · exact List.mem_cons_of_mem _ (List.mem_append_right _ h6)
            · exact List.mem_cons_of_mem _ (List.mem_append_left _ h6)
        · intro x hx
          rw [hfiles] at hx
          rcases List.mem_cons.1 hx with h | h
          · obtain ⟨extra, he⟩ := h2
            rw [h, he, List.map_append]
            apply List.mem_append_left
            rw [← hseen]
            exact hs
          · apply h5
            rw [ProtoDesc.filesList_append]
            rcases List.mem_append.1 h with h6 | h6
            · exact List.mem_append_right _ h6
            · exact List.mem_append_left _ h6
      · rw [if_neg (by simpa using hs)]
        have hseen2 : seen ++ [f.name] = (out ++ [f]).map (fun f => f.name) := by
          rw [List.map_append, hseen]
          rfl
        have hnd2 : ((out ++ [f]).map (fun f => f.name)).Nodup := by
          rw [List.map_append, List.nodup_append]
          refine ⟨hnd, List.nodup_singleton _, ?_⟩
          intro a ha hb
          simp only [List.map_cons, List.map_nil, List.mem_singleton] at hb
          rw [hb, ← hseen] at ha
          exact hs ha
        obtain ⟨res, h1, h2, h3, h4, h5⟩ :=
          ih (rest ++ ds) (seen ++ [f.name]) (out ++ [f]) hwf2 hseen2 hnd2 hsize2
        obtain ⟨extra, he⟩ := h2
        refine ⟨res, h1, ⟨f :: extra, by rw [he]; simp⟩, h3, ?_, ?_⟩
        · intro g hg
          rcases h4 g hg with h | h
          · rcases List.mem_append.1 h with h6 | h6
            · exact Or.inl h6
            · right
              rw [hfiles, List.mem_singleton.1 h6]
              exact List.mem_cons_self _ _
          · right
            rw [hfiles]
            rw [ProtoDesc.filesList_append] at h
            rcases List.mem_append.1 h with h6 | h6
            · exact List.mem_cons_of_mem _ (List.mem_append_right _ h6)
            · exact List.mem_cons_of_mem _ (List.mem_append_left _ h6)
        · intro x hx
          rw [hfiles] at hx
          rcases List.mem_cons.1 hx with h | h
          · rw [h, he]
            simp
          · apply h5
            rw [ProtoDesc.filesList_append]
            rcases List.mem_append.1 h with h6 | h6
            · exact List.mem_append_right _ h6
            · exact List.mem_append_left _ h6

theorem ProtoDesc.mem_filesList (ds : List ProtoDesc) (g : FileDesc) :
    g ∈ ProtoDesc.filesList ds ↔ ∃ d ∈ ds, g ∈ d.files := by
  induction ds with
  | nil => simp [ProtoDesc.filesList]
  | cons d rest ih =>
    rw [ProtoDesc.filesList, List.mem_append, ih]
    constructor
    · rintro (h | ⟨x, hx, hg⟩)
      · exact ⟨d, List.mem_cons_self _ _, h⟩
      · exact ⟨x, List.mem_cons_of_mem _ hx, hg⟩
    · rintro ⟨x, hx, hg⟩
      rcases List.mem_cons.1 hx with h | h
      · exact Or.inl (h ▸ hg)
      · exact Or.inr ⟨x, h, hg⟩

theorem ProtoDesc.size_le_sizeList (ds : List ProtoDesc) (d : ProtoDesc) (h : d ∈ ds) :
    d.size ≤ ProtoDesc.sizeList ds := by
  induction ds with
  | nil => exact absurd h (List.not_mem_nil d)
  | cons x rest ih =>
    rw [ProtoDesc.sizeList]
    rcases List.mem_cons.1 h with h1 | h1
    · rw [h1]
      omega
    · have := ih h1
      omega

theorem ProtoDesc.wellFormedList_mem (ds : List ProtoDesc) (h : ProtoDesc.WellFormedList ds)
    (d : ProtoDesc) (hd : d ∈ ds) : d.WellFormed := by
  induction ds with
  | nil => exact absurd hd (List.not_mem_nil d)
  | cons x rest ih =>
    rw [ProtoDesc.WellFormedList] at h
    rcases List.mem_cons.1 hd with h1 | h1
    · rw [h1]
      exact h.1
    · exact ih h.2 h1

theorem ProtoDesc.files_node (f : FileDesc) (ds : List ProtoDesc) :
    (ProtoDesc.node (some f) ds).files = f :: ProtoDesc.filesList ds := by
  simp [ProtoDesc.files]

/-- Every file of a well-formed tree is the file of the root or is reached from
it along the dependencies of the files of the tree. -/
theorem ProtoDesc.reach (F : List FileDesc) :
    ∀ (n : Nat) (t : ProtoDesc), t.size ≤ n → t.WellFormed → (∀ x ∈ t.files, x ∈ F) →
      ∀ f ds, t = ProtoDesc.node (some f) ds →
        ∀ g ∈ t.files, g = f ∨ Relation.TransGen (DependsOn F) f.name g.name := by
  intro n
  induction n with
  | zero =>
    intro t hsize _ _ f ds ht
    subst ht
    rw [ProtoDesc.size] at hsize
    omega
  | succ n ih =>
    intro t hsize hwf hsub f ds ht g hg
    subst ht
    rw [ProtoDesc.files_node] at hg hsub
    rw [ProtoDesc.WellFormed] at hwf
    rw [ProtoDesc.size] at hsize
    rcases List.mem_cons.1 hg with h | h
    · exact Or.inl h
    · right
      obtain ⟨d, hd, hgd⟩ := (ProtoDesc.mem_filesList ds g).1 h
      have hdwf := ProtoDesc.wellFormedList_mem ds hwf.2 d hd
      obtain ⟨fd, dds, hdn, _, _⟩ := ProtoDesc.wellFormed_node d hdwf
      have hdsize : d.size ≤ n := by
        have := ProtoDesc.size_le_sizeList ds d hd
        omega
      have hdsub : ∀ x ∈ d.files, x ∈ F := fun x hx =>
        hsub x (List.mem_cons_of_mem _ ((ProtoDesc.mem_filesList ds x).2 ⟨d, hd, hx⟩))
      have hdep : fd.name ∈ f.dependency := by
        have h1 : d.name? ∈ ds.map ProtoDesc.name? := List.mem_map_of_mem _ hd
        rw [hwf.1, hdn] at h1
        simp only [ProtoDesc.name?, ProtoDesc.desc, Option.map_some', List.mem_map,
          Option.some.injEq] at h1
        obtain ⟨a, ha, hae⟩ := h1
        rw [← hae]
        exact ha
      have hstep : DependsOn F f.name fd.name :=
        ⟨f, hsub f (List.mem_cons_self _ _), rfl, hdep⟩
      rcases ih d hdsize hdwf hdsub fd dds hdn g hgd with h2 | h2
      · rw [h2]
        exact Relation.TransGen.single hstep
      · exact Relation.TransGen.head hstep h2

theorem fileMapOf_lookup_of_nodup (S : List FileDesc)
    (hnd : (S.map (fun f => f.name)).Nodup) (f : FileDesc) (hf : f ∈ S) :
    (fileMapOf S).lookup f.name = some f := by
  cases h : (fileMapOf S).lookup f.name with
  | none =>
    exfalso
    rw [lookup_eq_none_iff_not_mem_fst] at h
    apply h
    unfold fileMapOf
    rw [List.map_reverse, List.mem_reverse, List.map_map]
    exact List.mem_map.2 ⟨f, hf, rfl⟩
  | some g =>
    obtain ⟨hg, hn⟩ := fileMapOf_lookup S f.name g h
    rw [List.inj_on_of_nodup_map hnd hg hf hn]

/-- The children `buildTree` makes for the dependency names of a file are the
trees `ds`, when every tree of `ds` is rebuilt from its file. -/
theorem buildTree_children (fm : List (String × FileDesc)) (fuel : Nat) :
    ∀ (ds : List ProtoDesc) (names : List String),
      ds.map ProtoDesc.name? = names.map some →
      (∀ d ∈ ds, ∀ fd dds, d = ProtoDesc.node (some fd) dds →
        fm.lookup fd.name = some fd ∧
          FdSetStringToCyberProtoDescString.buildTree fm fuel fd = some d) →
      (∀ d ∈ ds, ∃ fd dds, d = ProtoDesc.node (some fd) dds) →
      allSome ((names.filterMap (fun depName => fm.lookup depName)).map
        (FdSetStringToCyberProtoDescString.buildTree fm fuel)) = some ds := by
  intro ds
  induction ds with
  | nil =>
    intro names hn _ _
    cases names with
    | nil => rfl
    | cons a rest => simp at hn
  | cons d rest ih =>
    intro names hn hb hnode
    cases names with
    | nil => simp at hn
    | cons a as =>
      rw [List.map_cons, List.map_cons, List.cons.injEq] at hn
      obtain ⟨fd, dds, hd⟩ := hnode d (List.mem_cons_self _ _)
      obtain ⟨hl, hbd⟩ := hb d (List.mem_cons_self _ _) fd dds hd
      have ha : a = fd.name := by
        have h1 := hn.1
        rw [hd] at h1
        simp only [ProtoDesc.name?, ProtoDesc.desc, Option.map_some', Option.some.injEq] at h1
        exact h1.symm
      have hrest := ih as hn.2 (fun x hx => hb x (List.mem_cons_of_mem _ hx))
        (fun x hx => hnode x (List.mem_cons_of_mem _ hx))
      rw [List.filterMap_cons_some (by rw [ha]; exact hl), List.map_cons, hbd, allSome, hrest]

/-- Function `buildTree` rebuilds a well-formed tree from the file of its root
when the map holds every file of the tree under its name. -/
theorem buildTree_rebuilds (fm : List (String × FileDesc)) :
    ∀ (fuel : Nat) (t : ProtoDesc), t.size ≤ fuel → t.WellFormed →
      (∀ x ∈ t.files, fm.lookup x.name = some x) →
      ∀ f ds, t = ProtoDesc.node (some f) ds →
        FdSetStringToCyberProtoDescString.buildTree fm fuel f = some t := by
  intro fuel
  induction fuel with
  | zero =>
    intro t hsize _ _ f ds ht
    subst ht
    rw [ProtoDesc.size] at hsize
    omega
  | succ n ih =>
    intro t hsize hwf hsub f ds ht
    subst ht
    rw [ProtoDesc.files_node] at hsub
    rw [ProtoDesc.WellFormed] at hwf
    rw [ProtoDesc.size] at hsize
    have hch := buildTree_children fm n ds f.dependency hwf.1
      (by
        intro d hd fd dds hdn
        have hdwf := ProtoDesc.wellFormedList_mem ds hwf.2 d hd
        have hdsize : d.size ≤ n := by
          have := ProtoDesc.size_le_sizeList ds d hd
          omega
        have hdsub : ∀ x ∈ d.files, fm.lookup x.name = some x := fun x hx =>
          hsub x (List.mem_cons_of_mem _ ((ProtoDesc.mem_filesList ds x).2 ⟨d, hd, hx⟩))
        refine ⟨hdsub fd ?_, ih d hdsize hdwf hdsub fd dds hdn⟩
        rw [hdn, ProtoDesc.files_node]
        exact List.mem_cons_self _ _)
      (by
        intro d hd
        obtain ⟨fd, dds, hdn, _, _⟩ :=
          ProtoDesc.wellFormed_node d (ProtoDesc.wellFormedList_mem ds hwf.2 d hd)
        exact ⟨fd, dds, hdn⟩)
    rw [FdSetStringToCyberProtoDescString.buildTree, hch]

/-- The descriptor set of a well-formed tree whose names stand for one file
each: it starts with the file of the root, holds every file of the tree once
and no other file. -/
theorem c2f_of_wellFormed (f : FileDesc) (ds : List ProtoDesc)
    (hwf : (ProtoDesc.node (some f) ds).WellFormed)
    (hnames : NamesFiles (ProtoDesc.node (some f) ds).files)
    (fuel : Nat) (hfuel : (ProtoDesc.node (some f) ds).size ≤ fuel) :
    ∃ extra, CyberProtoDescStringToFdSetString fuel (ProtoDesc.node (some f) ds) =
        some (f :: extra) ∧
      ((f :: extra).map (fun f => f.name)).Nodup ∧
      (∀ g ∈ f :: extra, g ∈ (ProtoDesc.node (some f) ds).files) ∧
      (∀ g ∈ (ProtoDesc.node (some f) ds).files, g ∈ f :: extra) := by
  have hwfl : ProtoDesc.WellFormedList [ProtoDesc.node (some f) ds] := by
    rw [ProtoDesc.WellFormedList, ProtoDesc.WellFormedList]
    exact ⟨hwf, trivial⟩
  have hfl : ProtoDesc.filesList [ProtoDesc.node (some f) ds] =
      (ProtoDesc.node (some f) ds).files := by
    rw [ProtoDesc.filesList, ProtoDesc.filesList, List.append_nil]
  have hsz : ProtoDesc.sizeList [ProtoDesc.node (some f) ds] ≤ fuel := by
    rw [ProtoDesc.sizeList, ProtoDesc.sizeList]
    omega
  obtain ⟨res, h1, _, h3, h4, h5⟩ :=
    c2f_loop_spec fuel [ProtoDesc.node (some f) ds] [] [] hwfl rfl List.nodup_nil hsz
  rw [hfl] at h4 h5
  have hhead : ∃ extra, res = f :: extra := by
    cases fuel with
    | zero =>
      rw [ProtoDesc.size] at hfuel
      omega
    | succ n =>
      rw [ProtoDesc.WellFormed] at hwf
      have hsz2 : ProtoDesc.sizeList ([] ++ ds) ≤ n := by
        rw [ProtoDesc.size] at hfuel
        rw [List.nil_append]
        omega
      have hwf2 : ProtoDesc.WellFormedList ([] ++ ds) := by
        rw [List.nil_append]
        exact hwf.2
      obtain ⟨res2, g1, ⟨extra, g2⟩, _⟩ :=
        c2f_loop_spec n ([] ++ ds) ([] ++ [f.name]) ([] ++ [f]) hwf2 rfl
          (by simp) hsz2
      rw [CyberProtoDescStringToFdSetString.loop, if_neg (by simp), g1] at h1
      refine ⟨extra, ?_⟩
      rw [← Option.some.inj h1, g2]
      rfl
  obtain ⟨extra, he⟩ := hhead
  subst he
  refine ⟨extra, h1, h3, ?_, ?_⟩
  · intro g hg
    rcases h4 g hg with h | h
    · exact absurd h (List.not_mem_nil g)
    · exact h
  · intro g hg
    obtain ⟨x, hx, hxn⟩ := List.mem_map.1 (h5 g hg)
    have hxT : x ∈ (ProtoDesc.node (some f) ds).files := by
      rcases h4 x hx with h | h
      · exact absurd h (List.not_mem_nil x)
      · exact h
    rw [← hnames x hxT g hg hxn]
    exact hx

/-- Claim C28: for a tree in which every node parses, the children of every
node are the files its descriptor lists as dependencies in that order, a name
stands for one file and the dependency relation is acyclic, the descriptor
set of the tree is produced, the tree rebuilt from that set is the tree itself
(so it has the same root file), and flattening the rebuilt tree gives the same
descriptor set again. -/
theorem C28_descriptor_round_trip (T : ProtoDesc) (hwf : T.WellFormed)
    (hnames : NamesFiles T.files) (hac : Acyclic T.files)
    (fuel : Nat) (hfuel : T.size ≤ fuel) :
    ∃ S, CyberProtoDescStringToFdSetString fuel T = some S ∧
      S.head? = T.desc ∧
      FdSetStringToCyberProtoDescString fuel S = some T ∧
      ((CyberProtoDescStringToFdSetString fuel T).bind
          (FdSetStringToCyberProtoDescString fuel)).bind
        (CyberProtoDescStringToFdSetString fuel) =
        CyberProtoDescStringToFdSetString fuel T := by
  obtain ⟨f, ds, hT, _, _⟩ := ProtoDesc.wellFormed_node T hwf
  subst hT
  obtain ⟨extra, h1, h2, h3, h4⟩ := c2f_of_wellFormed f ds hwf hnames fuel hfuel
  have hlook : ∀ x ∈ (ProtoDesc.node (some f) ds).files,
      (fileMapOf (f :: extra)).lookup x.name = some x := fun x hx =>
    fileMapOf_lookup_of_nodup (f :: extra) h2 x (h4 x hx)
  have hnot : f.name ∉ allDepsOf (f :: extra) := by
    rw [mem_allDepsOf]
    rintro ⟨g, hg, hdep⟩
    have hgT := h3 g hg
    have hfT : f ∈ (ProtoDesc.node (some f) ds).files := h3 f (List.mem_cons_self _ _)
    have hstep : DependsOn (ProtoDesc.node (some f) ds).files g.name f.name :=
      ⟨g, hgT, rfl, hdep⟩
    rcases ProtoDesc.reach (ProtoDesc.node (some f) ds).files
        (ProtoDesc.node (some f) ds).size (ProtoDesc.node (some f) ds) (Nat.le_refl _) hwf
        (fun x hx => hx) f ds rfl g hgT with h | h
    · rw [h] at hstep
      exact hac f.name (Relation.TransGen.single hstep)
    · exact hac f.name (Relation.TransGen.tail h hstep)
  have hroot : (!(allDepsOf (f :: extra)).contains f.name) = true := by
    simpa using hnot
  have hbuild : FdSetStringToCyberProtoDescString fuel (f :: extra) =
      some (ProtoDesc.node (some f) ds) := by
    have hb := buildTree_rebuilds (fileMapOf (f :: extra)) fuel (ProtoDesc.node (some f) ds)
      hfuel hwf hlook f ds rfl
    have hr : (rootsOf (f :: extra)).head? = some f := by
      unfold rootsOf
      rw [List.filter_cons, if_pos hroot, List.head?_cons]
    unfold FdSetStringToCyberProtoDescString
    simp only [hr]
    exact hb
  refine ⟨f :: extra, h1, rfl, hbuild, ?_⟩
  rw [h1, Option.some_bind, hbuild, Option.some_bind, h1]

theorem sampleTree_acyclic : Acyclic sampleTree.files := by
  apply acyclic_of_rank sampleTree.files sampleRank
  rintro a b ⟨f, hf, hn, hb⟩
  simp only [sampleTree, ProtoDesc.files, ProtoDesc.filesList, Option.toList,
    List.cons_append, List.nil_append, List.append_nil, List.mem_cons, List.mem_singleton,
    List.not_mem_nil, or_false] at hf
  rcases hf with h | h | h | h | h <;> subst h <;> subst hn <;>
    simp only [List.mem_cons, List.mem_singleton, List.not_mem_nil, or_false] at hb
  · rcases hb with h | h <;> subst h <;> decide
  · subst hb; decide
  · subst hb; decide

theorem sampleTree_wellFormed : sampleTree.WellFormed := by
  simp [sampleTree, ProtoDesc.WellFormed, ProtoDesc.WellFormedList, ProtoDesc.name?,
    ProtoDesc.desc]

theorem sampleTree_namesFiles : NamesFiles sampleTree.files := by
  intro f hf g hg
  simp only [sampleTree, ProtoDesc.files, ProtoDesc.filesList, Option.toList,
    List.cons_append, List.nil_append, List.append_nil, List.mem_cons, List.mem_singleton,
    List.not_mem_nil, or_false] at hf hg
  rcases hf with h | h | h | h | h <;> rcases hg with k | k | k | k | k <;>
    subst h <;> subst k <;> decide

/-- The tree of `a.proto`, at 5 rounds: the round trip holds and the descriptor
set is `sampleFileSet`. -/
theorem C28_descriptor_round_trip_witness :
    sampleTree.size ≤ 5 ∧
    CyberProtoDescStringToFdSetString 5 sampleTree = some sampleFileSet ∧
    ∃ S, CyberProtoDescStringToFdSetString 5 sampleTree = some S ∧
      S.head? = sampleTree.desc ∧
      FdSetStringToCyberProtoDescString 5 S = some sampleTree ∧
      ((CyberProtoDescStringToFdSetString 5 sampleTree).bind
          (FdSetStringToCyberProtoDescString 5)).bind
        (CyberProtoDescStringToFdSetString 5) =
        CyberProtoDescStringToFdSetString 5 sampleTree :=
  ⟨by decide, by decide,
    C28_descriptor_round_trip sampleTree sampleTree_wellFormed sampleTree_namesFiles
      sampleTree_acyclic 5 (by decide)⟩

/-! ## C7: the start offset on a log that starts at the log time 0 -/

/-- C7 at the failing input: a log on the played topic `/a` with the log times
0, 1, 2, 3 and 4 s, in log-time order, replayed with a start offset of 3 s.
The log time of the first message is 0, so the messages at 3 s and 4 s have a
relative log time of at least the offset. `first_message_time` still holds 0
after the first message and is captured again at the message at 1 s; the
message at 3 s is then skipped and the message at 4 s is the only one
published, with the current clock reading as its target time. -/
theorem C7_zero_first_log_time_skips_message :
    threeSecondOffset.start_offset_ns = 3000000000 ∧
    (zeroStartLog.map (fun x => x.1.logTime)).Pairwise (fun a b => a ≤ b) ∧
    (zeroStartLog.map Prod.fst).filter (passesOffset ["/a"] threeSecondOffset 0) =
      [{ topic := "/a", logTime := 3000000000, publishTime := 13, data := [3] },
       { topic := "/a", logTime := 4000000000, publishTime := 14, data := [4] }] ∧
    (McapPlayer.readerLoop ["/a"] threeSecondOffset {} 100
        (zeroStartLog.take 1)).first_message_time = 0 ∧
    (McapPlayer.readerLoop ["/a"] threeSecondOffset {} 100
        zeroStartLog).first_message_time = 1000000000 ∧
    (McapPlayer.readerLoop ["/a"] threeSecondOffset {} 100 zeroStartLog).stopped = false ∧
    (McapPlayer.readerLoop ["/a"] threeSecondOffset {} 100 zeroStartLog).published.map
        Publication.content =
      [{ topic := "/a", logTime := 4000000000, publishTime := 14, data := [4] }] ∧
    (McapPlayer.readerLoop ["/a"] threeSecondOffset {} 100 zeroStartLog).published.map
        (fun p => p.target) = [100] := by
  decide

/-! ## Discovery: what a processed tick does to the topic map (C13, C14, C25) -/

theorem dropLostFrom_events (topics : List String) (es : List (String × Option String)) :
    ∀ b : BridgeState, (CyberBridge.dropLostFrom topics b es).2 =
      (es.filter (fun e => !topics.contains e.1)).map (fun e => BridgeEvent.topicLost e.1) := by
  induction es with
  | nil => intro b; rfl
  | cons e rest ih =>
    obtain ⟨k, y⟩ := e
    intro b
    by_cases hk : k ∈ topics
    · rw [CyberBridge.dropLostFrom, if_pos (by simpa using hk), ih b,
        List.filter_cons_of_neg (by simpa using hk)]
    · rw [CyberBridge.dropLostFrom, if_neg (by simpa using hk)]
      simp only
      rw [ih, List.filter_cons_of_pos (by simpa using hk), List.map_cons]

theorem dropLostFrom_entries (topics : List String) (es : List (String × Option String)) :
    ∀ b : BridgeState, (CyberBridge.dropLostFrom topics b es).1.msg_manages =
      b.msg_manages.filter
        (fun e => topics.contains e.1 || !(es.map Prod.fst).contains e.1) := by
  induction es with
  | nil =>
    intro b
    simp [CyberBridge.dropLostFrom]
  | cons e rest ih =>
    obtain ⟨k, y⟩ := e
    intro b
    by_cases hk : k ∈ topics
    · rw [CyberBridge.dropLostFrom, if_pos (by simpa using hk), ih b]
      apply List.filter_congr
      intro x _
      by_cases hx : x.1 = k
      · simp [hx, hk]
      · have hb : (x.1 == k) = false := by simpa using hx
        simp [hb]
    · rw [CyberBridge.dropLostFrom, if_neg (by simpa using hk)]
      simp only
      rw [ih, (onUnsubscribe_fields b k).1, List.filter_filter]
      apply List.filter_congr
      intro x _
      by_cases hx : x.1 = k
      · simp [hx, hk]
      · have hb : (x.1 == k) = false := by simpa using hx
        simp [hb, bne]

theorem addLoop_events (v : BusView) (l : List String) :
    ∀ acc : BridgeState × List BridgeEvent,
      ∃ extra, (l.foldl (CyberBridge.addTopic v) acc).2 = acc.2 ++ extra ∧
        ∀ e ∈ extra, e.isLost = false := by
  induction l with
  | nil =>
    intro acc
    exact ⟨[], by simp, fun e he => absurd he (List.not_mem_nil e)⟩
  | cons c cs ih =>
    intro acc
    obtain ⟨extra, h1, h2⟩ := ih (CyberBridge.addTopic v acc c)
    rw [List.foldl_cons]
    rcases addTopic_cases v acc c with ⟨_, h⟩ | ⟨_, _, ty, _, _, h3⟩
    · rw [h] at h1 ⊢
      exact ⟨extra, h1, h2⟩
    · rcases h3 with ⟨_, h5⟩ | ⟨_, _, h5⟩
      · rw [h5] at h1
        exact ⟨extra, h1, h2⟩
      · rw [h5] at h1
        refine ⟨BridgeEvent.topicFound c { name := ty, desc := v.fdSet ty } :: extra, ?_, ?_⟩
        · rw [h1]
          simp
        · intro e he
          rcases List.mem_cons.1 he with h6 | h6
          · rw [h6]
            rfl
          · exact h2 e h6

/-- The callbacks for lost topics of a tick that is processed: one for every
entry of the topic map whose topic is not on the list. -/
theorem discoverTopics_lost (b : BridgeState) (v : BusView) (hchg : v.topics ≠ b.topics) :
    (CyberBridge.discoverTopics b v).2.filter BridgeEvent.isLost =
      (b.msg_manages.filter (fun e => !v.topics.contains e.1)).map
        (fun e => BridgeEvent.topicLost e.1) := by
  obtain ⟨extra, h1, h2⟩ := addLoop_events v v.topics
    (CyberBridge.dropLostFrom v.topics { b with topics := v.topics } b.msg_manages)
  rw [discoverTopics_changed b v hchg, h1, dropLostFrom_events, List.filter_append]
  have h3 : extra.filter BridgeEvent.isLost = [] := by
    rw [List.filter_eq_nil_iff]
    intro e he
    rw [h2 e he]
    exact Bool.false_ne_true
  rw [h3, List.append_nil, List.filter_eq_self]
  intro e he
  obtain ⟨x, _, hx⟩ := List.mem_map.1 he
  rw [← hx]
  rfl

/-- The topic map after a tick that is processed: the entries whose topic is on
the list, as they were, and new entries after them. -/
theorem discoverTopics_entries (b : BridgeState) (v : BusView) (hchg : v.topics ≠ b.topics) :
    ∃ added, (CyberBridge.discoverTopics b v).1.msg_manages =
      b.msg_manages.filter (fun e => v.topics.contains e.1) ++ added := by
  obtain ⟨added, h1⟩ := (addLoop_entries v v.topics
    (CyberBridge.dropLostFrom v.topics { b with topics := v.topics } b.msg_manages)).1
  refine ⟨added, ?_⟩
  rw [discoverTopics_changed b v hchg, h1, dropLostFrom_entries]
  congr 1
  apply List.filter_congr
  intro x hx
  have hm : x.1 ∈ b.msg_manages.map Prod.fst := List.mem_map_of_mem _ hx
  simp [hm]

theorem filter_listed_of_all_listed (l : List (String × Option String)) (topics : List String)
    (h : ∀ x ∈ l.map Prod.fst, x ∈ topics) :
    l.filter (fun e => topics.contains e.1) = l ∧
    l.filter (fun e => !topics.contains e.1) = [] := by
  constructor
  · rw [List.filter_eq_self]
    intro e he
    simpa using h e.1 (List.mem_map_of_mem _ he)
  · rw [List.filter_eq_nil_iff]
    intro e he
    simpa using h e.1 (List.mem_map_of_mem _ he)

theorem discoverTopics_not_listed (b : BridgeState) (v : BusView) (t : String)
    (hk : t ∉ b.known) (ht : t ∉ v.topics) :
    foundCount t (CyberBridge.discoverTopics b v).2 = 0 ∧
    t ∉ (CyberBridge.discoverTopics b v).1.known := by
  by_cases h : v.topics = b.topics
  · rw [discoverTopics_same b v h]
    exact ⟨rfl, hk⟩
  · rw [discoverTopics_changed b v h]
    refine ⟨?_, ?_⟩
    · rw [addLoop_not_listed v t v.topics ht]
      exact (dropLostFrom_spec _ _ _).2.2.1 t
    · intro hm
      rcases (addLoop_spec v _ _).2.2.2.1 t hm with h1 | h1
      · exact hk ((dropLostFrom_spec _ _ _).2.2.2 t h1).1
      · exact ht h1

theorem discoverTicks_noAttempt (t : String) (views : List BusView) :
    ∀ b : BridgeState, t ∉ b.known → t ∉ b.writers → NoAttemptSucceeds t b views →
      (∀ evs ∈ (CyberBridge.discoverTicks b views).2, foundCount t evs = 0) ∧
      t ∉ (CyberBridge.discoverTicks b views).1.known ∧
      t ∉ (CyberBridge.discoverTicks b views).1.writers := by
  induction views with
  | nil =>
    intro b hk hw _
    refine ⟨?_, hk, hw⟩
    intro evs he
    exact absurd he (List.not_mem_nil evs)
  | cons u rest ih =>
    intro b hk hw hrun
    rw [NoAttemptSucceeds] at hrun
    have hstep : foundCount t (CyberBridge.discoverTopics b u).2 = 0 ∧
        t ∉ (CyberBridge.discoverTopics b u).1.known := by
      rcases hrun.1 with h | h | h
      · rw [discoverTopics_same b u h]
        exact ⟨rfl, hk⟩
      · exact discoverTopics_not_listed b u t hk h
      · exact ⟨(discoverTopics_unresolved b u t hk hw h).1,
          (discoverTopics_unresolved b u t hk hw h).2.1⟩
    have hw2 : t ∉ (CyberBridge.discoverTopics b u).1.writers := by
      rw [discoverTopics_writers]
      exact hw
    obtain ⟨h1, h2, h3⟩ := ih (CyberBridge.discoverTopics b u).1 hstep.2 hw2 hrun.2
    rw [CyberBridge.discoverTicks]
    refine ⟨?_, h2, h3⟩
    intro evs he
    rcases List.mem_cons.1 he with h4 | h4
    · rw [h4]
      exact hstep.1
    · exact h1 evs h4

theorem noAttemptSucceeds_of_unresolved (t : String) (fails : List BusView)
    (hf : ∀ u ∈ fails, mssageManage.init_topic u t = none) :
    ∀ b : BridgeState, NoAttemptSucceeds t b fails := by
  induction fails with
  | nil =>
    intro b
    rw [NoAttemptSucceeds]
    exact trivial
  | cons u rest ih =>
    intro b
    rw [NoAttemptSucceeds]
    exact ⟨Or.inr (Or.inr (hf u (List.mem_cons_self _ _))),
      ih (fun x hx => hf x (List.mem_cons_of_mem _ hx)) _⟩

theorem addLoop_entered_quiet (v : BusView) (t ty : String)
    (hi : mssageManage.init_topic v t = some ty)
    (hq : v.hasWriter t = false ∨ v.fdSet ty = "") (l : List String) :
    ∀ acc : BridgeState × List BridgeEvent, t ∈ l → t ∉ acc.1.writers → t ∉ acc.1.known →
      foundCount t (l.foldl (CyberBridge.addTopic v) acc).2 = foundCount t acc.2 ∧
      t ∈ (l.foldl (CyberBridge.addTopic v) acc).1.known := by
  induction l with
  | nil =>
    intro acc ht
    exact absurd ht (List.not_mem_nil t)
  | cons c cs ih =>
    intro acc ht hw hk
    rw [List.foldl_cons]
    by_cases hc : c = t
    · subst hc
      have hstep : c ∈ (CyberBridge.addTopic v acc c).1.known ∧
          (CyberBridge.addTopic v acc c).2 = acc.2 := by
        rcases addTopic_cases v acc c with ⟨h | h | h, _⟩ | ⟨_, _, ty2, hi2, h, h2⟩
        · exact absurd h hw
        · exact absurd h hk
        · rw [h] at hi
          exact Option.noConfusion hi
        · have hty : ty2 = ty := by
            rw [hi] at hi2
            exact (Option.some.inj hi2).symm
          subst hty
          refine ⟨?_, ?_⟩
          · rw [h]
            simp [BridgeState.known]
          · rcases h2 with ⟨_, h3⟩ | ⟨h3, h4, _⟩
            · exact h3
            · rcases hq with h5 | h5
              · rw [h5] at h3
                exact Bool.noConfusion h3
              · exact absurd h5 h4
      obtain ⟨h3, _⟩ := addLoop_skip v c cs (CyberBridge.addTopic v acc c)
        (Or.inr (Or.inl hstep.1))
      exact ⟨by rw [h3, hstep.2], (addLoop_spec v cs _).2.2.1 c hstep.1⟩
    · have ht2 : t ∈ cs := by
        rcases List.mem_cons.1 ht with h | h
        · exact absurd h.symm hc
        · exact h
      have hw2 : t ∉ (CyberBridge.addTopic v acc c).1.writers := by
        rw [addTopic_writers]; exact hw
      obtain ⟨h1, h2⟩ := ih (CyberBridge.addTopic v acc c) ht2 hw2
        (addTopic_known_ne v acc c t hc hk)
      exact ⟨by rw [h1, addTopic_found_ne v acc c t hc], h2⟩

theorem discoverTopics_entered_quiet (b : BridgeState) (v : BusView) (t ty : String)
    (hchg : v.topics ≠ b.topics) (ht : t ∈ v.topics) (hk : t ∉ b.known) (hw : t ∉ b.writers)
    (hi : mssageManage.init_topic v t = some ty)
    (hq : v.hasWriter t = false ∨ v.fdSet ty = "") :
    foundCount t (CyberBridge.discoverTopics b v).2 = 0 ∧
    t ∈ (CyberBridge.discoverTopics b v).1.known := by
  obtain ⟨_, d2, d3, d4⟩ :=
    dropLostFrom_spec v.topics b.msg_manages { b with topics := v.topics }
  have hw2 : t ∉ (CyberBridge.dropLostFrom v.topics { b with topics := v.topics }
      b.msg_manages).1.writers := by
    rw [d2]; exact hw
  have hk2 : t ∉ (CyberBridge.dropLostFrom v.topics { b with topics := v.topics }
      b.msg_manages).1.known := fun hm => hk (d4 t hm).1
  obtain ⟨h1, h2⟩ := addLoop_entered_quiet v t ty hi hq v.topics _ ht hw2 hk2
  rw [discoverTopics_changed b v hchg]
  exact ⟨by rw [h1]; exact d3 t, h2⟩

/-! ## C13: two ticks with identical channel lists -/

/-- C13, counterexample: the bus lists `/a` at three ticks. At the first tick
the type of `/a` does not resolve and the topic gets no entry. At the next two
ticks, which report the identical list, `/a` has a publisher and a type that
resolves: both ticks return at the equality check and `/a` gets no advertise
callback. In the second run `/a` is first seen without a publisher and
entered; at the two identical ticks that follow, with `/a` and `/b` listed and
published, `/b` gets the advertise callback once and `/a` gets none. -/
theorem C13_identical_ticks_without_found :
    resolvedView.topics = unresolvedView.topics ∧
    "/a" ∈ resolvedView.topics ∧
    mssageManage.init_topic resolvedView "/a" = some "T" ∧
    resolvedView.hasWriter "/a" = true ∧
    (CyberBridge.discoverTopics {} unresolvedView).1.msg_manages = [] ∧
    (CyberBridge.discoverTicks (CyberBridge.discoverTopics {} unresolvedView).1
        [resolvedView, resolvedView]).2 = [[], []] ∧
    mssageManage.init_topic grownView "/a" = some "T" ∧
    grownView.hasWriter "/a" = true ∧
    (CyberBridge.discoverTicks (CyberBridge.discoverTopics {} silentView).1
        [grownView, grownView]).2 =
      [[BridgeEvent.topicFound "/b" { name := "T", desc := "fds" }], []] := by
  decide

/-- C13, amended: at a tick of `discoverTopics` whose channel list differs from
the stored list, a listed topic that has no entry in the topic map and is not
written by the bridge, whose type resolves, which has a publisher and a
non-empty descriptor set, gets the advertise callback exactly once; a
following tick with the identical channel list returns at the equality check,
emits nothing and leaves the state as it is, and no following tick, whatever
its list, emits the advertise callback for the topic again. Two consecutive
ticks whose list is the stored list both return at the equality check and
emit nothing, and a tick emits no advertise callback for a topic that has an
entry. -/
theorem C13_identical_ticks_one_found (b : BridgeState) (v : BusView) (t ty : String)
    (hchg : v.topics ≠ b.topics) (ht : t ∈ v.topics) (hk : t ∉ b.known) (hw : t ∉ b.writers)
    (hi : mssageManage.init_topic v t = some ty) (hp : v.hasWriter t = true)
    (hd : v.fdSet ty ≠ "") :
    foundCount t (CyberBridge.discoverTopics b v).2 = 1 ∧
    BridgeEvent.topicFound t { name := ty, desc := v.fdSet ty } ∈
      (CyberBridge.discoverTopics b v).2 ∧
    (∀ v2 : BusView, v2.topics = v.topics →
      CyberBridge.discoverTopics (CyberBridge.discoverTopics b v).1 v2 =
        ((CyberBridge.discoverTopics b v).1, [])) ∧
    (∀ v2 : BusView,
      foundCount t (CyberBridge.discoverTopics (CyberBridge.discoverTopics b v).1 v2).2 = 0) ∧
    (∀ (b0 : BridgeState) (u u2 : BusView), u.topics = b0.topics → u2.topics = u.topics →
      CyberBridge.discoverTicks b0 [u, u2] = (b0, [[], []])) ∧
    (∀ (b0 : BridgeState) (u : BusView) (x : String), x ∈ b0.known →
      foundCount x (CyberBridge.discoverTopics b0 u).2 = 0) := by
  obtain ⟨h1, h2, h3⟩ := discoverTopics_new b v t ty hchg ht hk hw hi hp hd
  refine ⟨h1, h2, ?_, fun v2 => discoverTopics_known_no_found _ v2 t h3, ?_,
    fun b0 u x hx => discoverTopics_known_no_found b0 u x hx⟩
  · intro v2 h
    apply discoverTopics_same
    rw [discoverTopics_topics]
    exact h
  · intro b0 u u2 hu hu2
    have e1 := discoverTopics_same b0 u hu
    have e2 := discoverTopics_same b0 u2 (hu2.trans hu)
    simp only [CyberBridge.discoverTicks, e1, e2]

/-- C13, amended, at the first tick of a bridge on the bus with the topics `/a`
and `/b`: `/b` gets the advertise callback once at the first tick and the
second tick with the identical list changes nothing. -/
theorem C13_identical_ticks_one_found_witness :
    foundCount "/b" (CyberBridge.discoverTopics {} grownView).2 = 1 ∧
    (∀ v2 : BusView, v2.topics = grownView.topics →
      CyberBridge.discoverTopics (CyberBridge.discoverTopics {} grownView).1 v2 =
        ((CyberBridge.discoverTopics {} grownView).1, [])) :=
  ⟨(C13_identical_ticks_one_found {} grownView "/b" "T" (by decide) (by decide) (by decide)
      (by decide) (by decide) (by decide) (by decide)).1,
   (C13_identical_ticks_one_found {} grownView "/b" "T" (by decide) (by decide) (by decide)
      (by decide) (by decide) (by decide) (by decide)).2.2.1⟩

/-! ## C14: attempts after a failed resolution -/

/-- C14, counterexample: the type of `/a` does not resolve at the first tick; at
the second tick the bus reports the same list, the type resolves and the topic
has a publisher, and the tick returns early without a callback. -/
theorem C14_no_retry_on_same_list :
    mssageManage.init_topic unresolvedView "/a" = none ∧
    "/a" ∈ resolvedView.topics ∧
    mssageManage.init_topic resolvedView "/a" = some "T" ∧
    resolvedView.hasWriter "/a" = true ∧
    (CyberBridge.discoverTicks {} [unresolvedView, resolvedView]).2 = [[], []] ∧
    (CyberBridge.discoverTicks {} [unresolvedView, resolvedView, resolvedView]).2 =
      [[], [], []] := by
  decide

/-- C14, amended: a topic without entry in the topic map that the bridge does
not write gets no entry and no advertise callback during a run of ticks of
which none is a successful attempt (each returns at the equality check, or
does not list the topic, or fails to resolve its type). At a following tick
whose channel list differs from the stored list and holds the topic, where
the type resolves, the topic is entered; the advertise callback is called at
that tick exactly once when the topic has a publisher and a non-empty
descriptor set, and not at all otherwise; after that tick no tick calls the
advertise callback for the topic while it stays listed. A tick whose list
equals the stored list returns early, whatever the registry answers. -/
theorem C14_retry_when_list_changes (b : BridgeState) (earlier : List BusView) (v : BusView)
    (t ty : String) (hk : t ∉ b.known) (hw : t ∉ b.writers)
    (hf : NoAttemptSucceeds t b earlier)
    (hchg : v.topics ≠ (CyberBridge.discoverTicks b earlier).1.topics) (ht : t ∈ v.topics)
    (hi : mssageManage.init_topic v t = some ty) :
    (∀ evs ∈ (CyberBridge.discoverTicks b earlier).2, foundCount t evs = 0) ∧
    t ∉ (CyberBridge.discoverTicks b earlier).1.known ∧
    t ∈ (CyberBridge.discoverTopics (CyberBridge.discoverTicks b earlier).1 v).1.known ∧
    (v.hasWriter t = true → v.fdSet ty ≠ "" →
      foundCount t (CyberBridge.discoverTopics (CyberBridge.discoverTicks b earlier).1 v).2
        = 1 ∧
      BridgeEvent.topicFound t { name := ty, desc := v.fdSet ty } ∈
        (CyberBridge.discoverTopics (CyberBridge.discoverTicks b earlier).1 v).2) ∧
    (v.hasWriter t = false ∨ v.fdSet ty = "" →
      foundCount t (CyberBridge.discoverTopics (CyberBridge.discoverTicks b earlier).1 v).2
        = 0) ∧
    (∀ later : List BusView, (∀ u ∈ later, t ∈ u.topics) →
      ∀ evs ∈ (CyberBridge.discoverTicks
          (CyberBridge.discoverTopics (CyberBridge.discoverTicks b earlier).1 v).1 later).2,
        foundCount t evs = 0) ∧
    (∀ v2 : BusView, v2.topics = (CyberBridge.discoverTicks b earlier).1.topics →
      CyberBridge.discoverTopics (CyberBridge.discoverTicks b earlier).1 v2 =
        ((CyberBridge.discoverTicks b earlier).1, [])) := by
  obtain ⟨h1, h2, h3⟩ := discoverTicks_noAttempt t earlier b hk hw hf
  have hknown : t ∈
      (CyberBridge.discoverTopics (CyberBridge.discoverTicks b earlier).1 v).1.known := by
    by_cases hq : v.hasWriter t = true ∧ v.fdSet ty ≠ ""
    · exact (discoverTopics_new _ v t ty hchg ht h2 h3 hi hq.1 hq.2).2.2
    · apply (discoverTopics_entered_quiet _ v t ty hchg ht h2 h3 hi ?_).2
      by_cases hp : v.hasWriter t = true
      · right
        by_contra hd
        exact hq ⟨hp, hd⟩
      · left
        simpa using hp
  refine ⟨h1, h2, hknown, ?_, ?_, ?_, fun v2 h => discoverTopics_same _ v2 h⟩
  · intro hp hd
    obtain ⟨h4, h5, _⟩ := discoverTopics_new _ v t ty hchg ht h2 h3 hi hp hd
    exact ⟨h4, h5⟩
  · intro hq
    exact (discoverTopics_entered_quiet _ v t ty hchg ht h2 h3 hi hq).1
  · intro later hl
    exact (discoverTicks_known_silent t later _ hknown hl).1

/-- C14, amended, for `/a` unresolved at the first tick, resolvable at a second
tick with the same list, and resolved at the tick at which `/b` has appeared:
`/a` gets the advertise callback once at that tick. -/
theorem C14_retry_when_list_changes_witness :
    NoAttemptSucceeds "/a" {} [unresolvedView, resolvedView] ∧
    foundCount "/a"
      (CyberBridge.discoverTopics
        (CyberBridge.discoverTicks {} [unresolvedView, resolvedView]).1 grownView).2 = 1 :=
  ⟨⟨Or.inr (Or.inr (by decide)), Or.inl (by decide), trivial⟩,
   ((C14_retry_when_list_changes {} [unresolvedView, resolvedView] grownView "/a" "T"
      (by decide) (by decide)
      ⟨Or.inr (Or.inr (by decide)), Or.inl (by decide), trivial⟩
      (by decide) (by decide) (by decide)).2.2.2.1 (by decide) (by decide)).1⟩

/-! ## C25: the same channels in another order -/

/-- C25, counterexample: at the first tick the bus lists `/a`, `/b` and no type
resolves; at the second tick it lists the same two topics as `/b`, `/a`, and
the types resolve. The second tick does not return at the equality check: it
advertises both topics and enters them into the topic map. -/
theorem C25_other_order_is_processed :
    swappedView.topics = pairUnresolvedView.topics.reverse ∧
    (CyberBridge.discoverTopics {} pairUnresolvedView).2 = [] ∧
    (CyberBridge.discoverTopics (CyberBridge.discoverTopics {} pairUnresolvedView).1
        swappedView).2 =
      [BridgeEvent.topicFound "/b" { name := "T", desc := "fds" },
       BridgeEvent.topicFound "/a" { name := "T", desc := "fds" }] ∧
    (CyberBridge.discoverTopics {} pairUnresolvedView).1.msg_manages = [] ∧
    (CyberBridge.discoverTopics (CyberBridge.discoverTopics {} pairUnresolvedView).1
        swappedView).1.msg_manages = [("/b", some "T"), ("/a", some "T")] := by
  decide

/-- C25, amended: a tick whose channel list equals the stored list, name by
name in the same order, returns at the equality check with no callback and
the state unchanged. Every other tick, so also one whose list has the same
members in another order, is processed: it calls the callback for a lost
topic once for every entry of the topic map whose topic is not on the list
and for nothing else, keeps the entries whose topic is on the list as they
are, adding entries after them, calls no advertise callback for a topic that
has an entry, calls it once for a listed topic without entry that the bridge
does not write, whose type resolves and which has a publisher and a non-empty
descriptor set, and stores the list in its new order. When the topic of every
entry is on the list, no callback for a lost topic is called and every entry
is kept. -/
theorem C25_same_list_returns_early (b : BridgeState) (v2 : BusView) :
    (v2.topics = b.topics → CyberBridge.discoverTopics b v2 = (b, [])) ∧
    (v2.topics ≠ b.topics →
      (CyberBridge.discoverTopics b v2).2.filter BridgeEvent.isLost =
        (b.msg_manages.filter (fun e => !v2.topics.contains e.1)).map
          (fun e => BridgeEvent.topicLost e.1) ∧
      (∃ added, (CyberBridge.discoverTopics b v2).1.msg_manages =
        b.msg_manages.filter (fun e => v2.topics.contains e.1) ++ added) ∧
      (∀ t ty, t ∈ v2.topics → t ∉ b.known → t ∉ b.writers →
        mssageManage.init_topic v2 t = some ty → v2.hasWriter t = true → v2.fdSet ty ≠ "" →
        foundCount t (CyberBridge.discoverTopics b v2).2 = 1)) ∧
    (∀ t ∈ b.known, foundCount t (CyberBridge.discoverTopics b v2).2 = 0) ∧
    (CyberBridge.discoverTopics b v2).1.topics = v2.topics ∧
    ((∀ x ∈ b.known, x ∈ v2.topics) →
      (∀ e ∈ (CyberBridge.discoverTopics b v2).2, e.isLost = false) ∧
      (∃ added, (CyberBridge.discoverTopics b v2).1.msg_manages = b.msg_manages ++ added)) := by
  refine ⟨discoverTopics_same b v2, ?_, fun t ht => discoverTopics_known_no_found b v2 t ht,
    discoverTopics_topics b v2, ?_⟩
  · intro hchg
    exact ⟨discoverTopics_lost b v2 hchg, discoverTopics_entries b v2 hchg,
      fun t ty ht hk hw hi hp hd => (discoverTopics_new b v2 t ty hchg ht hk hw hi hp hd).1⟩
  · intro hl
    by_cases h : v2.topics = b.topics
    · rw [discoverTopics_same b v2 h]
      exact ⟨fun e he => absurd he (List.not_mem_nil e), [], by simp⟩
    · obtain ⟨f1, f2⟩ := filter_listed_of_all_listed b.msg_manages v2.topics hl
      constructor
      · intro e he
        have hlost := discoverTopics_lost b v2 h
        rw [f2, List.map_nil, List.filter_eq_nil_iff] at hlost
        simpa using hlost e he
      · obtain ⟨added, ha⟩ := discoverTopics_entries b v2 h
        rw [f1] at ha
        exact ⟨added, ha⟩

/-- C25, amended, after the first tick of a bridge on the bus with `/a` and `/b`:
the tick with the identical list changes nothing. When a client has then
subscribed to `/a/converted`, the tick with the list `/b`, `/a` calls the
callback for the lost topic `/a/converted`, calls no advertise callback for
`/a` and keeps the entries of `/a` and `/b`. -/
theorem C25_same_list_returns_early_witness :
    CyberBridge.discoverTopics (CyberBridge.discoverTopics {} grownView).1 grownView =
      ((CyberBridge.discoverTopics {} grownView).1, []) ∧
    subscribedConverted.msg_manages =
      [("/a", some "T"), ("/b", some "T"), ("/a/converted", none)] ∧
    swappedView.topics = subscribedConverted.topics.reverse ∧
    (CyberBridge.discoverTopics subscribedConverted swappedView).2.filter BridgeEvent.isLost =
      [BridgeEvent.topicLost "/a/converted"] ∧
    foundCount "/a" (CyberBridge.discoverTopics subscribedConverted swappedView).2 = 0 ∧
    (CyberBridge.discoverTopics subscribedConverted swappedView).1.msg_manages =
      [("/a", some "T"), ("/b", some "T")] :=
  ⟨(C25_same_list_returns_early (CyberBridge.discoverTopics {} grownView).1 grownView).1
      (by decide),
   by decide,
   by decide,
   ((C25_same_list_returns_early subscribedConverted swappedView).2.1 (by decide)).1.trans
      (by decide),
   (C25_same_list_returns_early subscribedConverted swappedView).2.2.1 "/a" (by decide),
   by decide⟩

end CyberTools
